import Mathlib

/-!
# THaShower, THaString and THaScalerEvtHandler

A shallow embedding of `THaShower::ReadDatabase`, `THaShower::ClearEvent`, `THaShower::Decode`
and `THaShower::CoarseProcess` (src/src/THaShower.C), of `THaString::CmpNoCase`,
`THaString::Split` and `THaString::ToUpper` (src/src/THaString.C), and of
`THaScalerEvtHandler::FindNoCase` and the copy loop of `THaScalerEvtHandler::Analyze`
(src/src/THaScalerEvtHandler.C).

Modelling conventions
* `Float_t` and `double` values are exact rationals (`ℚ`): rounding, infinities and NaN are
  not modelled.
* `Int_t` values are integers (`Int`); the conversions the code makes to narrower types
  (`short`, and the `int` byte counts of `ClearEvent`) wrap explicitly (`toShort`, `toInt32`);
  a signed overflow of an `int` product is undefined behaviour (`mulInt`).
* `UShort_t` values are `Fin 65536`.
* A C array is a `List` whose length is the allocated number of elements.  An access outside
  the allocation, and an integer division by zero, is undefined behaviour: the operation
  returns `none`.
* The floating-point division of the centroid sums by a cluster energy of zero (NaN or an
  infinity in the code) has no counterpart in `ℚ`: the model's centroid is 0 there, and the
  theorems that speak of the centroid assume a cluster energy other than zero.
* `CalcTrackProj` only touches the track projections, which are not part of the state here.
* A `std::string` is the list of its characters.  In `CmpNoCase` and `ToUpper`, where the
  order of the character values matters, a character is the `int` value of the plain `char`,
  whether plain `char` is signed is a parameter, and a call of `toupper` outside the domain
  that `<cctype>` defines is undefined behaviour (`none`).  In `Split` and `FindNoCase`, which
  test characters only for equality and for whitespace, a character is its value as
  `unsigned char` (`Fin 256`).  The library functions `toupper` and `tolower` and the
  whitespace test of a stream are parameters of the definitions that call them.
* `size_t` is an unsigned type of `w` bits, `w` being a parameter.
-/

namespace THaShower

/-! ## Machine integers and arrays -/

/-- Value of an `int` after conversion to `short` (16 bit two's complement). -/
def toShort (z : Int) : Int := (z + 32768) % 65536 - 32768

/-- Value of a wider integer after conversion to `int` (32 bit two's complement). -/
def toInt32 (z : Int) : Int := (z + 2147483648) % 4294967296 - 2147483648

/-- Unsigned 16 bit integer, `UShort_t`. -/
abbrev UShort_t := Fin 65536

/-- Read `a[k]`; `none` outside the allocation. -/
def readAt {α : Type} (a : List α) (k : Int) : Option α :=
  if 0 ≤ k then a[k.toNat]? else none

/-- Store `a[k] = v`; `none` outside the allocation. -/
def writeAt {α : Type} (a : List α) (k : Int) (v : α) : Option (List α) :=
  if 0 ≤ k ∧ k.toNat < a.length then some (a.set k.toNat v) else none

/-- The call `memset(a, 0, bytes)` on an array of 4-byte elements: the byte count is converted
to `size_t`, so a negative count runs past every allocation. -/
def memsetZero {α : Type} (zero : α) (a : List α) (bytes : Int) : Option (List α) :=
  if 0 ≤ bytes ∧ (bytes / 4).toNat ≤ a.length then
    some (List.replicate (bytes / 4).toNat zero ++ a.drop (bytes / 4).toNat)
  else none

/-- A `for` loop over the indices `is` whose body may hit undefined behaviour. -/
def forLoop {σ ι : Type} (body : σ → ι → Option σ) : σ → List ι → Option σ
  | st, [] => some st
  | st, i :: is =>
    match body st i with
    | none => none
    | some st' => forLoop body st' is

/-! ## Data -/

/-- Modelled from the spec: `THaDetMap::Module`, whose declaration (THaDetMap.h) is not among
the sources; a hardware module addressed by crate and slot with the channel range `lo..hi`. -/
structure Module where
  crate : Int
  slot : Int
  lo : Int
  hi : Int
deriving DecidableEq, Repr

/-- Modelled from the spec: the part of `THaEvData` (not among the sources) that `Decode`
calls.  `chans crate slot` lists the channels with a hit, so `GetNumChan` is its length and
`GetNextChan(crate,slot,j)` its `j`-th entry; `data crate slot chan` is
`GetData(crate,slot,chan,0)`. -/
structure THaEvData where
  chans : Int → Int → List Int
  data : Int → Int → Int → Int

/-- The data members of `THaShower` that the decoder and the cluster builder use. -/
structure Shower where
  fIsInit : Bool
  fNelem : Int
  fNrows : Int
  fNclublk : Int
  fDetMap : List Module
  fNChan : List UShort_t
  fChanMap : List (List UShort_t)
  fBlockX : List ℚ
  fBlockY : List ℚ
  fPed : List ℚ
  fGain : List ℚ
  fEmin : ℚ
  fNhits : Int
  fA : List ℚ
  fA_p : List ℚ
  fA_c : List ℚ
  fAsum_p : ℚ
  fAsum_c : ℚ
  fNclust : Int
  fE : ℚ
  fX : ℚ
  fY : ℚ
  fMult : Int
  fNblk : List Int
  fEblk : List ℚ
deriving DecidableEq, Repr

/-! ## ClearEvent -/

/-- `THaShower::ClearEvent` (lines 293-314). -/
def ClearEvent (s : Shower) : Option Shower :=
  let lsh := toInt32 (s.fNelem * 4)
  let lsc := toInt32 (s.fNclublk * 4)
  let lsi := toInt32 (s.fNclublk * 4)
  match memsetZero 0 s.fA lsh, memsetZero 0 s.fA_p lsh, memsetZero 0 s.fA_c lsh,
      memsetZero 0 s.fNblk lsi, memsetZero 0 s.fEblk lsc with
  | some a, some ap, some ac, some nblk, some eblk =>
    some { s with
      fNhits := 0, fA := a, fA_p := ap, fA_c := ac, fAsum_p := 0, fAsum_c := 0,
      fNclust := 0, fE := 0, fX := 0, fY := 0, fMult := 0, fNblk := nblk, fEblk := eblk }
  | _, _, _, _, _ => none

/-! ## Decode -/

/-- Body of the inner loop of `THaShower::Decode` (lines 338-361) for the hit `chan` of module
number `i`.  `withDebug` tells whether the code was compiled with `WITH_DEBUG`. -/
def decodeHit (withDebug : Bool) (ev : THaEvData) (i : Nat) (d : Module) (s : Shower)
    (chan : Int) : Option Shower :=
  if chan > d.hi ∨ chan < d.lo then some s
  else
    let data : Int := ev.data d.crate d.slot chan
    match s.fChanMap[i]? with
    | none => none
    | some row =>
      match readAt row (chan - d.lo) with
      | none => none
      | some e =>
        let k : Int := (e.val : Int) - 1
        if withDebug = true ∧ (k < 0 ∨ k ≥ s.fNelem) then some s
        else
          match writeAt s.fA k (data : ℚ), readAt s.fPed k, readAt s.fGain k with
          | some a, some ped, some gain =>
            let ap : ℚ := (data : ℚ) - ped
            let ac : ℚ := ap * gain
            match writeAt s.fA_p k ap, writeAt s.fA_c k ac with
            | some fAp, some fAc =>
              some { s with
                fA := a, fA_p := fAp, fA_c := fAc,
                fAsum_p := if ap > 0 then s.fAsum_p + ap else s.fAsum_p,
                fAsum_c := if ac > 0 then s.fAsum_c + ac else s.fAsum_c,
                fNhits := s.fNhits + 1 }
            | _, _ => none
          | _, _, _ => none

/-- Body of the outer loop of `THaShower::Decode` (lines 332-363): all hits of one module. -/
def decodeModule (withDebug : Bool) (ev : THaEvData) (s : Shower) (id : Nat × Module) :
    Option Shower :=
  forLoop (decodeHit withDebug ev id.1 id.2) s (ev.chans id.2.crate id.2.slot)

/-- `THaShower::Decode` (lines 317-388); the value returned by the C++ function is the
`fNhits` of the resulting state. -/
def Decode (withDebug : Bool) (s : Shower) (ev : THaEvData) : Option Shower :=
  match ClearEvent s with
  | none => none
  | some s0 => forLoop (decodeModule withDebug ev) s0 s.fDetMap.enum

/-! ## CoarseProcess -/

/-- Body of the seed search loop (lines 411-417) on the pair `(nmax, emax)`. -/
def seedStep (s : Shower) (st : Int × ℚ) (i : Nat) : Option (Int × ℚ) :=
  match s.fA_c[i]? with
  | none => none
  | some ei => if ei > st.2 then some ((i : Int), ei) else some st

/-- Seed search of `THaShower::CoarseProcess` (lines 409-417): the final `(nmax, emax)`. -/
def seedSearch (s : Shower) : Option (Int × ℚ) :=
  forLoop (seedStep s) (-1, s.fEmin) (List.range s.fNelem.toNat)

/-- Local variables of the cluster loop that change from one iteration to the next, with the
two member arrays. -/
structure ClusterAcc where
  mult : Int
  fNblk : List Int
  fEblk : List ℚ
  sxe : ℚ
  sye : ℚ
  emax : ℚ
deriving DecidableEq, Repr

/-- The test of lines 430-435 on block `i` with energy `ei`: some energy, not the centre, and
row and column distances `dr`, `dc` (both `short`) strictly between -2 and 2. -/
def isSurround (s : Shower) (nmax nr nc : Int) (i : Nat) (ei : ℚ) : Bool :=
  let ic := toShort (Int.tdiv (i : Int) s.fNrows)
  let ir := toShort (Int.tmod (i : Int) s.fNrows)
  let dr := toShort (nr - ir)
  let dc := toShort (nc - ic)
  decide (ei > 0 ∧ (i : Int) ≠ nmax) && decide (-2 < dr ∧ dr < 2 ∧ -2 < dc ∧ dc < 2)

/-- Body of the cluster loop (lines 429-443). -/
def clusterStep (s : Shower) (nmax nr nc : Int) (acc : ClusterAcc) (i : Nat) :
    Option ClusterAcc :=
  match s.fA_c[i]? with
  | none => none
  | some ei =>
    if isSurround s nmax nr nc i ei = true then
      match writeAt acc.fNblk acc.mult (i : Int), writeAt acc.fEblk acc.mult ei,
          s.fBlockX[i]?, s.fBlockY[i]? with
      | some nblk, some eblk, some bx, some bY =>
        some { mult := toShort (acc.mult + 1), fNblk := nblk, fEblk := eblk,
               sxe := acc.sxe + ei * bx, sye := acc.sye + ei * bY, emax := acc.emax + ei }
      | _, _, _, _ => none
    else some acc

/-- Lines 419-449 of `THaShower::CoarseProcess`: the cluster around the seed `nmax` whose
energy is `emax`.  The quotients of lines 447-448 are those of the rationals; when the cluster
energy is zero, where the floating-point division of the code gives NaN or an infinity, the
model's `fX` and `fY` are 0 and stand for no value of the code. -/
def buildCluster (s : Shower) (nmax : Int) (emax : ℚ) : Option Shower :=
  if s.fNrows = 0 then none
  else
    let nc := toShort (Int.tdiv nmax s.fNrows)
    let nr := toShort (Int.tmod nmax s.fNrows)
    match writeAt s.fNblk 0 nmax, writeAt s.fEblk 0 emax, readAt s.fBlockX nmax,
        readAt s.fBlockY nmax with
    | some nblk, some eblk, some bx, some bY =>
      let acc0 : ClusterAcc :=
        { mult := 1, fNblk := nblk, fEblk := eblk, sxe := emax * bx, sye := emax * bY,
          emax := emax }
      match forLoop (clusterStep s nmax nr nc) acc0 (List.range s.fNelem.toNat) with
      | none => none
      | some acc =>
        some { s with
          fNblk := acc.fNblk, fEblk := acc.fEblk, fNclust := 1, fE := acc.emax,
          fX := acc.sxe / acc.emax, fY := acc.sye / acc.emax, fMult := acc.mult }
    | _, _, _, _ => none

/-- `THaShower::CoarseProcess` (lines 391-457). -/
def CoarseProcess (s : Shower) : Option Shower :=
  match seedSearch { s with fNclust := 0 } with
  | none => none
  | some (nmax, emax) =>
    if nmax ≥ 0 then buildCluster { s with fNclust := 0 } nmax emax
    else some { s with fNclust := 0 }

/-! ## Specification vocabulary -/

/-- Calibrated energy of block `i` (zero outside the array). -/
def energy (s : Shower) (i : Nat) : ℚ := s.fA_c.getD i 0

/-- State of the seed search after the blocks `0..n-1`. -/
def SeedInv (s : Shower) (n : Nat) (st : Int × ℚ) : Prop :=
  n ≤ s.fA_c.length ∧
  ((st.1 = -1 ∧ st.2 = s.fEmin ∧ ∀ i, i < n → energy s i ≤ s.fEmin) ∨
   (∃ m : Nat, st.1 = (m : Int) ∧ m < n ∧ energy s m = st.2 ∧ s.fEmin < st.2 ∧
      (∀ i, i < n → energy s i ≤ st.2) ∧ ∀ i, i < m → energy s i < st.2))

/-- Configured x position of block `i` (zero outside the array). -/
def blockX (s : Shower) (i : Nat) : ℚ := s.fBlockX.getD i 0

/-- Configured y position of block `i` (zero outside the array). -/
def blockY (s : Shower) (i : Nat) : ℚ := s.fBlockY.getD i 0

/-- The blocks of the index list `l` that pass the test of the cluster loop. -/
def surroundOf (s : Shower) (nmax nr nc : Int) (l : List Nat) : List Nat :=
  l.filter (fun i => isSurround s nmax nr nc i (energy s i))

/-- Effect of the cluster loop on its local variables once the surrounding blocks `ms` have
been stored from position `m` on. -/
def storeMembers (s : Shower) (acc : ClusterAcc) (m : Nat) (ms : List Nat) : ClusterAcc :=
  { mult := ((m + ms.length : Nat) : Int),
    fNblk := acc.fNblk.take m ++ ms.map (fun (i : Nat) => (i : Int)) ++ acc.fNblk.drop (m + ms.length),
    fEblk := acc.fEblk.take m ++ ms.map (energy s) ++ acc.fEblk.drop (m + ms.length),
    sxe := acc.sxe + (ms.map (fun i => energy s i * blockX s i)).sum,
    sye := acc.sye + (ms.map (fun i => energy s i * blockY s i)).sum,
    emax := acc.emax + (ms.map (energy s)).sum }

/-- Row of the seed as the cluster builder holds it (a `short`). -/
def seedRow (s : Shower) (nmax : Int) : Int := toShort (Int.tmod nmax s.fNrows)

/-- Column of the seed as the cluster builder holds it (a `short`). -/
def seedCol (s : Shower) (nmax : Int) : Int := toShort (Int.tdiv nmax s.fNrows)

/-- The blocks other than the seed `nmax` that the cluster loop accepts, in the order in
which it stores them. -/
def surround (s : Shower) (nmax : Nat) : List Nat :=
  surroundOf s (nmax : Int) (seedRow s nmax) (seedCol s nmax) (List.range s.fNelem.toNat)

/-- The block `nmax` is the one the seed search selects: its energy is above the threshold,
no block has more energy, and every block before it has strictly less. -/
def IsSeed (s : Shower) (nmax : Nat) : Prop :=
  nmax < s.fNelem.toNat ∧ s.fEmin < energy s nmax ∧
  (∀ i, i < s.fNelem.toNat → energy s i ≤ energy s nmax) ∧
  ∀ i, i < nmax → energy s i < energy s nmax

/-- The detector after `CoarseProcess` has built the cluster of the seed `nmax`. -/
def withCluster (s : Shower) (nmax : Nat) : Shower :=
  let ms := surround s nmax
  let e := energy s nmax + (ms.map (energy s)).sum
  { s with
    fNclust := 1
    fMult := ((1 + ms.length : Nat) : Int)
    fNblk := (nmax : Int) :: ms.map (fun (i : Nat) => (i : Int)) ++ s.fNblk.drop (1 + ms.length)
    fEblk := energy s nmax :: ms.map (energy s) ++ s.fEblk.drop (1 + ms.length)
    fE := e
    fX := (energy s nmax * blockX s nmax + (ms.map (fun i => energy s i * blockX s i)).sum) / e
    fY := (energy s nmax * blockY s nmax + (ms.map (fun i => energy s i * blockY s i)).sum) / e }

/-- What a successful `ReadDatabase` for `R` rows and `C` columns establishes (lines 59-77 and
170-184): the dimensions, the neighbourhood cap and the allocated array sizes.  The arrays are
taken to hold fewer than `2^29` elements, so that the `int` byte counts of `ClearEvent` are
exact. -/
structure Init (s : Shower) (R C : Nat) : Prop where
  rows_pos : 0 < R
  cols_pos : 0 < C
  small : R * C < 536870912
  nelem : s.fNelem = ((R * C : Nat) : Int)
  nrows : s.fNrows = (R : Int)
  nclublk : s.fNclublk = ((min 3 R * min 3 C : Nat) : Int)
  lenX : s.fBlockX.length = R * C
  lenY : s.fBlockY.length = R * C
  lenPed : s.fPed.length = R * C
  lenGain : s.fGain.length = R * C
  lenA : s.fA.length = R * C
  lenAp : s.fA_p.length = R * C
  lenAc : s.fA_c.length = R * C
  lenNblk : s.fNblk.length = min 3 R * min 3 C
  lenEblk : s.fEblk.length = min 3 R * min 3 C

/-- The test of the cluster loop with the row and column distances taken as integers, without
the conversions to `short`. -/
def inWindow (R : Nat) (nmax i : Nat) : Prop :=
  -2 < ((nmax % R : Nat) : Int) - ((i % R : Nat) : Int) ∧
  ((nmax % R : Nat) : Int) - ((i % R : Nat) : Int) < 2 ∧
  -2 < ((nmax / R : Nat) : Int) - ((i / R : Nat) : Int) ∧
  ((nmax / R : Nat) : Int) - ((i / R : Nat) : Int) < 2

/-- The member channels of the cluster record: `fNblk[0..fMult-1]`. -/
def members (s : Shower) : List Int := s.fNblk.take s.fMult.toNat

/-- The member energies of the cluster record: `fEblk[0..fMult-1]`. -/
def memberEnergies (s : Shower) : List ℚ := s.fEblk.take s.fMult.toNat

/-- The detector after `ClearEvent` when the per-channel arrays hold `n` elements and the
member arrays `c` elements. -/
def cleared (s : Shower) (n c : Nat) : Shower :=
  { s with
    fNhits := 0, fA := List.replicate n 0, fA_p := List.replicate n 0,
    fA_c := List.replicate n 0, fAsum_p := 0, fAsum_c := 0, fNclust := 0, fE := 0, fX := 0,
    fY := 0, fMult := 0, fNblk := List.replicate c 0, fEblk := List.replicate c 0 }

/-- The state `t` differs from `s` at most in what the decoding loop writes: the hit count,
the three per-channel arrays (whose sizes stay) and the two sums. -/
structure DecodeFrame (s t : Shower) : Prop where
  fIsInit : t.fIsInit = s.fIsInit
  fNelem : t.fNelem = s.fNelem
  fNrows : t.fNrows = s.fNrows
  fNclublk : t.fNclublk = s.fNclublk
  fDetMap : t.fDetMap = s.fDetMap
  fNChan : t.fNChan = s.fNChan
  fChanMap : t.fChanMap = s.fChanMap
  fBlockX : t.fBlockX = s.fBlockX
  fBlockY : t.fBlockY = s.fBlockY
  fPed : t.fPed = s.fPed
  fGain : t.fGain = s.fGain
  fEmin : t.fEmin = s.fEmin
  fNclust : t.fNclust = s.fNclust
  fE : t.fE = s.fE
  fX : t.fX = s.fX
  fY : t.fY = s.fY
  fMult : t.fMult = s.fMult
  fNblk : t.fNblk = s.fNblk
  fEblk : t.fEblk = s.fEblk
  lenA : t.fA.length = s.fA.length
  lenAp : t.fA_p.length = s.fA_p.length
  lenAc : t.fA_c.length = s.fA_c.length

/-- A detector of 3 rows and 4 columns as `ReadDatabase` leaves it: one module (crate 1, slot 2,
channels 0 to 11) mapped to the blocks 1 to 12, pedestals 0, gains 1, block positions
`x = row`, `y = 10 * column`, threshold 10; the per-event members hold values of an earlier
event. -/
def demoShower : Shower :=
  { fIsInit := true, fNelem := 12, fNrows := 3, fNclublk := 9,
    fDetMap := [⟨1, 2, 0, 11⟩], fNChan := [12],
    fChanMap := [[1, 2, 3, 4, 5, 6, 7, 8, 9, 10, 11, 12]],
    fBlockX := [0, 1, 2, 0, 1, 2, 0, 1, 2, 0, 1, 2],
    fBlockY := [0, 0, 0, 10, 10, 10, 20, 20, 20, 30, 30, 30],
    fPed := [0, 0, 0, 0, 0, 0, 0, 0, 0, 0, 0, 0],
    fGain := [1, 1, 1, 1, 1, 1, 1, 1, 1, 1, 1, 1], fEmin := 10,
    fNhits := 7, fA := [5, 5, 5, 5, 5, 5, 5, 5, 5, 5, 5, 5],
    fA_p := [5, 5, 5, 5, 5, 5, 5, 5, 5, 5, 5, 5],
    fA_c := [5, 5, 5, 5, 5, 5, 5, 5, 5, 5, 5, 5],
    fAsum_p := 60, fAsum_c := 60, fNclust := 1, fE := 5, fX := 1, fY := 1, fMult := 4,
    fNblk := [8, 8, 8, 8, 8, 8, 8, 8, 8], fEblk := [8, 8, 8, 8, 8, 8, 8, 8, 8] }

/-- An event for `demoShower`: module (1, 2) reports the channels 4, 5, 99 and 7 with the
amplitudes 100, 50, 7 and -3; channel 99 is outside the module's range. -/
def demoEvent : THaEvData :=
  { chans := fun crate slot => if crate = 1 ∧ slot = 2 then [4, 5, 99, 7] else [],
    data := fun _ _ chan => if chan = 4 then 100 else if chan = 5 then 50
      else if chan = 7 then -3 else 7 }

/-- The detector `demoShower` after `Decode` of `demoEvent`. -/
def demoDecoded : Shower :=
  { demoShower with
    fNhits := 3, fA := [0, 0, 0, 0, 100, 50, 0, -3, 0, 0, 0, 0],
    fA_p := [0, 0, 0, 0, 100, 50, 0, -3, 0, 0, 0, 0],
    fA_c := [0, 0, 0, 0, 100, 50, 0, -3, 0, 0, 0, 0],
    fAsum_p := 150, fAsum_c := 150, fNclust := 0, fE := 0, fX := 0, fY := 0, fMult := 0,
    fNblk := [0, 0, 0, 0, 0, 0, 0, 0, 0], fEblk := [0, 0, 0, 0, 0, 0, 0, 0, 0] }

/-- The detector `demoDecoded` after `CoarseProcess`: the cluster of seed 4 with member 5. -/
def demoClustered : Shower :=
  { demoDecoded with
    fNclust := 1, fE := 150, fX := 4 / 3, fY := 10, fMult := 2,
    fNblk := [4, 5, 0, 0, 0, 0, 0, 0, 0], fEblk := [100, 50, 0, 0, 0, 0, 0, 0, 0] }

/-- The event `ev` without the reported channels that `bad crate slot` marks. -/
def dropHits (ev : THaEvData) (bad : Int → Int → Int → Bool) : THaEvData :=
  { chans := fun crate slot => (ev.chans crate slot).filter (fun chan => !bad crate slot chan),
    data := ev.data }

/-- The detector `demoShower` with the negative seed threshold -1. -/
def coldShower : Shower := { demoShower with fEmin := -1 }

/-- An event without any hit. -/
def quietEvent : THaEvData := { chans := fun _ _ => [], data := fun _ _ _ => 0 }

/-- The cleared `demoShower` after the first hit of `demoEvent` (channel 4, amplitude 100). -/
def demoFirstHit : Shower :=
  { cleared demoShower 12 9 with
    fA := [0, 0, 0, 0, 100, 0, 0, 0, 0, 0, 0, 0],
    fA_p := [0, 0, 0, 0, 100, 0, 0, 0, 0, 0, 0, 0],
    fA_c := [0, 0, 0, 0, 100, 0, 0, 0, 0, 0, 0, 0],
    fAsum_p := 100, fAsum_c := 100, fNhits := 1 }

/-- The detector `demoShower` with hardware channel 4 left unmapped (channel map entry 0). -/
def gapShower : Shower :=
  { demoShower with fChanMap := [[1, 2, 3, 4, 0, 6, 7, 8, 9, 10, 11, 12]] }

/-- The detector `gapShower` after `Decode` of `demoEvent` in a build with `WITH_DEBUG`: the
reading of channel 4 is dropped, the readings of channels 5 and 7 are stored. -/
def gapDecoded : Shower :=
  { gapShower with
    fNhits := 2, fA := [0, 0, 0, 0, 0, 50, 0, -3, 0, 0, 0, 0],
    fA_p := [0, 0, 0, 0, 0, 50, 0, -3, 0, 0, 0, 0],
    fA_c := [0, 0, 0, 0, 0, 50, 0, -3, 0, 0, 0, 0],
    fAsum_p := 50, fAsum_c := 50, fNclust := 0, fE := 0, fX := 0, fY := 0, fMult := 0,
    fNblk := [0, 0, 0, 0, 0, 0, 0, 0, 0], fEblk := [0, 0, 0, 0, 0, 0, 0, 0, 0] }

/-- Modelled from the spec: the return codes of `THaAnalysisObject` (`EStatus`), whose
declaration is not among the sources. -/
inductive EStatus where
  | kOK
  | kInitError
  | kFileError
deriving DecidableEq, Repr

/-- Modelled from the spec: what the `fscanf` calls of `ReadDatabase` deliver from the database
file (section 6 of the spec): the header `ncols nrows`, the module lines
`crate slot first last` before the line with a negative crate, the numbers of the channel
map, the centre of block 1, the block spacings, the threshold, and the pedestals and gains
of the selected calibration block.  Origin, size and rotation angle only go to the geometry of
the base class and are left out. -/
structure Database where
  ncols : Int
  nrows : Int
  modules : List Module
  chanMap : List UShort_t
  x : ℚ
  y : ℚ
  dx : ℚ
  dy : ℚ
  emin : ℚ
  peds : List ℚ
  gains : List ℚ

/-- The header values that `fscanf` with `%5d %5d` can deliver: at most five characters. -/
def Database.Scanned (db : Database) : Prop :=
  -9999 ≤ db.ncols ∧ db.ncols ≤ 99999 ∧ -9999 ≤ db.nrows ∧ db.nrows ≤ 99999

/-- Product of two `int`; a signed overflow is undefined behaviour. -/
def mulInt (a b : Int) : Option Int :=
  if -2147483648 ≤ a * b ∧ a * b ≤ 2147483647 then some (a * b) else none

/-- The value `fNChan[i] = module->hi - module->lo + 1` of line 117, stored in a `UShort_t`. -/
def nChan (d : Module) : UShort_t := Fin.ofNat ((d.hi - d.lo + 1) % 65536).toNat

/-- Lines 140-151: the next `fNChan[i]` numbers of the file become the channel map of module
`i`.  A file that ends before all numbers are read is outside the model. -/
def readChanMap : List Nat → List UShort_t → Option (List (List UShort_t))
  | [], _ => some []
  | n :: ns, vals =>
    if n ≤ vals.length then
      match readChanMap ns (vals.drop n) with
      | none => none
      | some rows => some (vals.take n :: rows)
    else none

/-- Lines 206-210: `fscanf(fi, "%15f", a + j)` for `j < fNelem`.  A file that ends before all
values are read is outside the model. -/
def readValues (vals : List ℚ) (a : List ℚ) (j : Nat) : Option (List ℚ) :=
  match vals[j]? with
  | none => none
  | some v => writeAt a (j : Int) v

/-- Body of the loop nest of lines 214-220 for column `c` and row `r`. -/
def positionStep (nrows : Int) (x y dx dy : ℚ) (st : List ℚ × List ℚ) (cr : Nat × Nat) :
    Option (List ℚ × List ℚ) :=
  let k : Int := nrows * (cr.1 : Int) + (cr.2 : Int)
  match writeAt st.1 k (x + (cr.2 : ℚ) * dx), writeAt st.2 k (y + (cr.1 : ℚ) * dy) with
  | some bx, some bY => some (bx, bY)
  | _, _ => none

/-- The pairs `(c, r)` in the order in which the loop nest of lines 214-215 visits them. -/
def cells (ncols nrows : Nat) : List (Nat × Nat) :=
  (List.range ncols).flatMap (fun c => (List.range nrows).map (fun r => (c, r)))

/-- Lines 171-183 of `ReadDatabase`: the arrays are dimensioned on the first initialization. -/
def allocate (s : Shower) : Shower :=
  { s with
    fBlockX := List.replicate s.fNelem.toNat 0
    fBlockY := List.replicate s.fNelem.toNat 0
    fPed := List.replicate s.fNelem.toNat 0
    fGain := List.replicate s.fNelem.toNat 0
    fA := List.replicate s.fNelem.toNat 0
    fA_p := List.replicate s.fNelem.toNat 0
    fA_c := List.replicate s.fNelem.toNat 0
    fNblk := List.replicate s.fNclublk.toNat 0
    fEblk := List.replicate s.fNclublk.toNat 0
    fIsInit := true }

/-- `THaShower::ReadDatabase` (lines 38-223).  `file` is `none` when `OpenFile` fails;
`kDetMapSize` is the capacity `THaDetMap::kDetMapSize` of the detector map, beyond which
`AddModule` fails.  Storage obtained from `new` is taken to hold zeros. -/
def ReadDatabase (kDetMapSize : Nat) (s : Shower) (file : Option Database) :
    Option (EStatus × Shower) :=
  match file with
  | none => some (EStatus.kFileError, s)
  | some db =>
    match mulInt db.ncols db.nrows, mulInt (min 3 db.nrows) (min 3 db.ncols) with
    | some nelem, some nclbl =>
      if s.fIsInit = true ∧ (nelem ≠ s.fNelem ∨ nclbl ≠ s.fNclublk) then
        some (EStatus.kInitError, s)
      else if db.nrows ≤ 0 ∨ db.ncols ≤ 0 ∨ nclbl ≤ 0 then some (EStatus.kInitError, s)
      else
        let s1 : Shower :=
          { s with fNelem := nelem, fNrows := db.nrows, fNclublk := nclbl, fNChan := [],
                   fChanMap := [], fDetMap := [] }
        if kDetMapSize < db.modules.length then
          some (EStatus.kInitError, { s1 with fDetMap := db.modules.take kDetMapSize })
        else if db.modules.length = 0 then some (EStatus.kInitError, s1)
        else if (db.modules.any (fun d => decide (nChan d = 0))) = true then
          some (EStatus.kInitError, { s1 with fDetMap := db.modules })
        else
          match readChanMap (db.modules.map (fun d => (nChan d).val)) db.chanMap with
          | none => none
          | some rows =>
            let s2 : Shower :=
              { s1 with fDetMap := db.modules, fNChan := db.modules.map nChan,
                        fChanMap := rows }
            let s3 : Shower := if s.fIsInit = true then s2 else allocate s2
            match forLoop (readValues db.peds) s3.fPed (List.range nelem.toNat),
                forLoop (readValues db.gains) s3.fGain (List.range nelem.toNat),
                forLoop (positionStep db.nrows db.x db.y db.dx db.dy) (s3.fBlockX, s3.fBlockY)
                  (cells db.ncols.toNat db.nrows.toNat) with
            | some ped, some gain, some (bx, bY) =>
              some (EStatus.kOK,
                { s3 with fEmin := db.emin, fPed := ped, fGain := gain, fBlockX := bx,
                          fBlockY := bY })
            | _, _, _ => none
    | _, _ => none

/-- A database for the 3 by 4 detector `demoShower`. -/
def demoDatabase : Database :=
  { ncols := 4, nrows := 3, modules := [⟨1, 2, 0, 11⟩],
    chanMap := [1, 2, 3, 4, 5, 6, 7, 8, 9, 10, 11, 12],
    x := 0, y := 0, dx := 1, dy := 10, emin := 10,
    peds := [0, 0, 0, 0, 0, 0, 0, 0, 0, 0, 0, 0],
    gains := [1, 1, 1, 1, 1, 1, 1, 1, 1, 1, 1, 1] }

/-- A detector on which `ReadDatabase` has not run yet. -/
def blankShower : Shower :=
  { fIsInit := false, fNelem := 0, fNrows := 0, fNclublk := 0, fDetMap := [], fNChan := [],
    fChanMap := [], fBlockX := [], fBlockY := [], fPed := [], fGain := [], fEmin := 0,
    fNhits := 0, fA := [], fA_p := [], fA_c := [], fAsum_p := 0, fAsum_c := 0, fNclust := 0,
    fE := 0, fX := 0, fY := 0, fMult := 0, fNblk := [], fEblk := [] }

/-- A loop body that runs `f` on the first and `g` on the second component of the state. -/
def pairStep {α β ι : Type} (f : α → ι → Option α) (g : β → ι → Option β) (st : α × β)
    (p : ι) : Option (α × β) :=
  match f st.1 p, g st.2 p with
  | some a', some b' => some (a', b')
  | _, _ => none

/-- The detector after lines 75-151 of `ReadDatabase`: header values, detector map and the
channel map `rows` are stored. -/
def withHeader (s : Shower) (db : Database) (rows : List (List UShort_t)) : Shower :=
  { s with
    fNelem := db.ncols * db.nrows, fNrows := db.nrows,
    fNclublk := min 3 db.nrows * min 3 db.ncols, fNChan := db.modules.map nChan,
    fChanMap := rows, fDetMap := db.modules }

/-- The detector after a successful `ReadDatabase` that started from `base` (the state with the
header stored and the arrays dimensioned). -/
def withCalibration (base : Shower) (db : Database) (ped gain bx bY : List ℚ) : Shower :=
  { base with fEmin := db.emin, fPed := ped, fGain := gain, fBlockX := bx, fBlockY := bY }

/-- The detector on which lines 169-220 of `ReadDatabase` work: the header is stored and, on the
first initialization, the arrays are dimensioned. -/
def dimensioned (s : Shower) (db : Database) (rows : List (List UShort_t)) : Shower :=
  if s.fIsInit = true then withHeader s db rows else allocate (withHeader s db rows)

/-- A configuration that `ReadDatabase` accepts for a detector of `R` rows and `C` columns:
positive dimensions, at least one and at most `kDetMapSize` modules, a non-zero channel count
for every module, and a file that holds all channel-map numbers, pedestals and gains. -/
structure ValidConfig (kDetMapSize : Nat) (db : Database) (R C : Nat) : Prop where
  nrows : db.nrows = (R : Int)
  ncols : db.ncols = (C : Int)
  rows_pos : 0 < R
  cols_pos : 0 < C
  small : R * C < 536870912
  modules_pos : db.modules.length ≠ 0
  modules_le : db.modules.length ≤ kDetMapSize
  channels : ∀ d ∈ db.modules, nChan d ≠ 0
  chanMap : (db.modules.map (fun d => (nChan d).val)).sum ≤ db.chanMap.length
  peds : R * C ≤ db.peds.length
  gains : R * C ≤ db.gains.length

/-- An initialized detector of 256 rows and 256 columns. -/
def squareShower : Shower :=
  { fIsInit := true, fNelem := 65536, fNrows := 256, fNclublk := 9,
    fDetMap := [⟨1, 1, 0, 0⟩], fNChan := [1], fChanMap := [[1]],
    fBlockX := List.replicate 65536 0, fBlockY := List.replicate 65536 0,
    fPed := List.replicate 65536 0, fGain := List.replicate 65536 1, fEmin := 0,
    fNhits := 0, fA := List.replicate 65536 0, fA_p := List.replicate 65536 0,
    fA_c := List.replicate 65536 0,
    fAsum_p := 0, fAsum_c := 0, fNclust := 0, fE := 0, fX := 0, fY := 0, fMult := 0,
    fNblk := List.replicate 9 0, fEblk := List.replicate 9 0 }

/-- A database whose header is `65536 65537`: 65536 columns and 65537 rows. -/
def overflowDatabase : Database := { demoDatabase with ncols := 65536, nrows := 65537 }

/-- A database whose header is `5 3`: 5 columns and 3 rows. -/
def widerDatabase : Database := { demoDatabase with ncols := 5, nrows := 3 }

/-- A database whose header is `0 3`: no column. -/
def emptyDatabase : Database := { demoDatabase with ncols := 0, nrows := 3 }

/-- A database whose only module has the channel range 10 to 5 (last below first), with 65532
numbers in the channel map. -/
def reversedDatabase : Database :=
  { demoDatabase with modules := [⟨1, 2, 10, 5⟩], chanMap := List.replicate 65532 1 }

/-- The detector `blankShower` after `ReadDatabase` of `demoDatabase`. -/
def demoReady : Shower :=
  { fIsInit := true, fNelem := 12, fNrows := 3, fNclublk := 9,
    fDetMap := [⟨1, 2, 0, 11⟩], fNChan := [12],
    fChanMap := [[1, 2, 3, 4, 5, 6, 7, 8, 9, 10, 11, 12]],
    fBlockX := [0, 1, 2, 0, 1, 2, 0, 1, 2, 0, 1, 2],
    fBlockY := [0, 0, 0, 10, 10, 10, 20, 20, 20, 30, 30, 30],
    fPed := [0, 0, 0, 0, 0, 0, 0, 0, 0, 0, 0, 0],
    fGain := [1, 1, 1, 1, 1, 1, 1, 1, 1, 1, 1, 1], fEmin := 10,
    fNhits := 0, fA := [0, 0, 0, 0, 0, 0, 0, 0, 0, 0, 0, 0],
    fA_p := [0, 0, 0, 0, 0, 0, 0, 0, 0, 0, 0, 0],
    fA_c := [0, 0, 0, 0, 0, 0, 0, 0, 0, 0, 0, 0],
    fAsum_p := 0, fAsum_c := 0, fNclust := 0, fE := 0, fX := 0, fY := 0, fMult := 0,
    fNblk := [0, 0, 0, 0, 0, 0, 0, 0, 0], fEblk := [0, 0, 0, 0, 0, 0, 0, 0, 0] }

/-- A database for the same twelve blocks arranged in 4 rows and 3 columns: header `3 4`. -/
def tallDatabase : Database := { demoDatabase with ncols := 3, nrows := 4 }

/-- The detector `demoReady` after a second `ReadDatabase`, of `tallDatabase`. -/
def tallReady : Shower :=
  { demoReady with
    fNrows := 4,
    fBlockX := [0, 1, 2, 3, 0, 1, 2, 3, 0, 1, 2, 3],
    fBlockY := [0, 0, 0, 0, 10, 10, 10, 10, 20, 20, 20, 20] }

/-- An event for `demoShower` with a single hit: module (1, 2) reports channel 4 (the block of
row 1, column 1) with the amplitude 100. -/
def pulseEvent : THaEvData :=
  { chans := fun crate slot => if crate = 1 ∧ slot = 2 then [4] else [],
    data := fun _ _ chan => if chan = 4 then 100 else 0 }

/-- The detector `demoShower` after `Decode` of `pulseEvent`. -/
def pulseDecoded : Shower :=
  { demoShower with
    fNhits := 1, fA := [0, 0, 0, 0, 100, 0, 0, 0, 0, 0, 0, 0],
    fA_p := [0, 0, 0, 0, 100, 0, 0, 0, 0, 0, 0, 0],
    fA_c := [0, 0, 0, 0, 100, 0, 0, 0, 0, 0, 0, 0],
    fAsum_p := 100, fAsum_c := 100, fNclust := 0, fE := 0, fX := 0, fY := 0, fMult := 0,
    fNblk := [0, 0, 0, 0, 0, 0, 0, 0, 0], fEblk := [0, 0, 0, 0, 0, 0, 0, 0, 0] }

/-- The per-event members of the detector: hit count, raw, pedestal-subtracted and calibrated
amplitudes, the two sums, and the cluster record. -/
def eventRecord (s : Shower) :
    Int × List ℚ × List ℚ × List ℚ × ℚ × ℚ × Int × ℚ × ℚ × ℚ × Int × List Int × List ℚ :=
  (s.fNhits, s.fA, s.fA_p, s.fA_c, s.fAsum_p, s.fAsum_c, s.fNclust, s.fE, s.fX, s.fY, s.fMult,
    s.fNblk, s.fEblk)

/-- The detector with the configuration of `b` and the per-event members of `t`. -/
def graft (b t : Shower) : Shower :=
  { b with
    fNhits := t.fNhits, fA := t.fA, fA_p := t.fA_p, fA_c := t.fA_c, fAsum_p := t.fAsum_p,
    fAsum_c := t.fAsum_c, fNclust := t.fNclust, fE := t.fE, fX := t.fX, fY := t.fY,
    fMult := t.fMult, fNblk := t.fNblk, fEblk := t.fEblk }

/-- The configuration members that the decoding loop reads agree in `b` and `u`. -/
def SameConfig (b u : Shower) : Prop :=
  b.fNelem = u.fNelem ∧ b.fChanMap = u.fChanMap ∧ b.fPed = u.fPed ∧ b.fGain = u.fGain

/-- The logical channel `k = fChanMap[i][chan - d->lo] - 1` of line 343 for the channel `chan`
of module number `i`. -/
def logicalChannel (s : Shower) (i : Nat) (d : Module) (chan : Int) : Option Int :=
  match s.fChanMap[i]? with
  | none => none
  | some row =>
    match readAt row (chan - d.lo) with
    | none => none
    | some e => some ((e.val : Int) - 1)

/-- The readings that the two loops of `Decode` visit, in their order: the module (with its
number in the detector map) and the reported channel. -/
def readings (s : Shower) (ev : THaEvData) : List ((Nat × Module) × Int) :=
  s.fDetMap.enum.flatMap (fun id => (ev.chans id.2.crate id.2.slot).map (fun c => (id, c)))

/-- The readings that pass the range test of line 340. -/
def accepted (s : Shower) (ev : THaEvData) : List ((Nat × Module) × Int) :=
  (readings s ev).filter (fun r => decide (r.1.2.lo ≤ r.2 ∧ r.2 ≤ r.1.2.hi))

/-- Sum of the strictly positive entries of an array. -/
def posSum (a : List ℚ) : ℚ := (a.filter (fun v => decide (0 < v))).sum

/-- The logical channel of a reading as an array index. -/
def logicalIndex (s : Shower) (r : (Nat × Module) × Int) : Nat :=
  ((logicalChannel s r.1.1 r.1.2 r.2).getD 0).toNat

/-- State of the decoding loop after the readings `pre`, all accepted and stored at pairwise
different logical channels: the hit count is their number, the channels not yet written hold
zeros, and the two sums are the sums of the positive entries. -/
structure Tally (s0 : Shower) (pre : List ((Nat × Module) × Int)) (u : Shower) : Prop where
  frame : DecodeFrame s0 u
  hits : u.fNhits = s0.fNhits + (pre.length : Int)
  zeroP : ∀ j, (∀ r ∈ pre, logicalIndex s0 r ≠ j) → u.fA_p.getD j 0 = 0
  zeroC : ∀ j, (∀ r ∈ pre, logicalIndex s0 r ≠ j) → u.fA_c.getD j 0 = 0
  sumP : u.fAsum_p = posSum u.fA_p
  sumC : u.fAsum_c = posSum u.fA_c

/-- The channel map of `longDatabase`: channel `i` is block `i + 1`. -/
@[irreducible]
def longChanMap : List UShort_t := (List.range 40000).map (fun i => Fin.ofNat (i + 1))

/-- A database for a detector of one row and 40000 columns (header `40000 1`): one module with
the channels 0 to 39999, block spacing 10 along the columns. -/
def longDatabase : Database :=
  { ncols := 40000, nrows := 1, modules := [⟨1, 2, 0, 39999⟩], chanMap := longChanMap,
    x := 0, y := 0, dx := 1, dy := 10, emin := 10,
    peds := List.replicate 40000 0, gains := List.replicate 40000 1 }

end THaShower

namespace THaString

/-! ## Strings -/

/-- A `char`, by its value as `unsigned char`, for the functions that test characters only for
equality and for whitespace (`Split`, `FindNoCase`). -/
abbrev Char8 := Fin 256

/-- The characters of `s.c_str()` read as a C string: those before the first NUL. -/
def c_str (s : List Char8) : List Char8 := s.takeWhile (fun c => c ≠ 0)

/-- The stream extraction `ist >> w`: leading whitespace is skipped, then characters are read up
to the next whitespace or the end.  The result is the word and the rest of the stream, or `none`
when the stream fails because only whitespace was left.  `isspace` is the whitespace test of the
stream's locale. -/
def extract (isspace : Char8 → Bool) (ist : List Char8) : Option (List Char8 × List Char8) :=
  match ist.dropWhile isspace with
  | [] => none
  | c :: rest =>
    some ((c :: rest).takeWhile (fun x => !isspace x), (c :: rest).dropWhile (fun x => !isspace x))

/-- The loop `while (ist >> w) v.push_back(w)` (lines 52-53), run for at most `fuel`
extractions; `none` if they do not suffice. -/
def splitLoop (isspace : Char8 → Bool) :
    Nat → List Char8 → List (List Char8) → Option (List (List Char8))
  | 0, _, _ => none
  | fuel + 1, ist, v =>
    match extract isspace ist with
    | none => some v
    | some (w, rest) => splitLoop isspace fuel rest (v ++ [w])

/-- `THaString::Split` (lines 41-55).  Every successful extraction consumes at least one
character, so one more extraction than there are characters ends the loop. -/
def Split (isspace : Char8 → Bool) (s : List Char8) : Option (List (List Char8)) :=
  splitLoop isspace ((c_str s).length + 1) (c_str s) []

/-- The maximal runs of non-whitespace characters of `s`, in order: the non-empty pieces
between the whitespace characters. -/
def runs (isspace : Char8 → Bool) (s : List Char8) : List (List Char8) :=
  (s.splitOnP isspace).filter (fun w => !w.isEmpty)

/-- The words `v` joined by single characters `sep`. -/
def joinWith (sep : Char8) : List (List Char8) → List Char8
  | [] => []
  | [w] => w
  | w :: w' :: v => w ++ sep :: joinWith sep (w' :: v)

/-- The whitespace of the classic "C" locale: space, `\t`, `\n`, `\v`, `\f`, `\r`. -/
def spaceC (c : Char8) : Bool := decide (c.val = 32 ∨ (9 ≤ c.val ∧ c.val ≤ 13))

/-- Value of an `int` after conversion to plain `char`; `signed` tells whether plain `char` is a
signed type. -/
def toChar (signed : Bool) (z : Int) : Int :=
  if signed = true then (z + 128) % 256 - 128 else z % 256

/-- A call `f(c)` of a function of `<cctype>` with the `int` value `c` of a plain `char`.  The
C library defines the call when `c` is the value of an `unsigned char` or `EOF` (-1), and `f`
gives its result then; otherwise the behaviour is undefined (`none`). -/
def ctype (f : Int → Int) (c : Int) : Option Int :=
  if (0 ≤ c ∧ c ≤ 255) ∨ c = -1 then some (f c) else none

/-- The loop and the final return of `CmpNoCase` (lines 27-37).  A string is the list of the
`int` values of its plain `char`s; `p` and `p2` are the parts of `r` and `s` from the two
iterators on. -/
def cmpFrom (toupper : Int → Int) (r s : List Int) : List Int → List Int → Option Int
  | c :: p, c2 :: p2 =>
    match ctype toupper c, ctype toupper c2 with
    | some u, some u2 =>
      if u ≠ u2 then some (if u < u2 then -1 else 1) else cmpFrom toupper r s p p2
    | _, _ => none
  | _, _ => some (if r.length = s.length then 0 else if r.length < s.length then -1 else 1)

/-- `THaString::CmpNoCase` (lines 22-38); `toupper` is the C library function. -/
def CmpNoCase (toupper : Int → Int) (r s : List Int) : Option Int := cmpFrom toupper r s r s

/-- `THaString::ToUpper` (lines 83-89): `transform` stores `toupper(c)`, converted to `char`,
for every character `c`. -/
def ToUpper (signed : Bool) (toupper : Int → Int) : List Int → Option (List Int)
  | [] => some []
  | c :: s =>
    match ctype toupper c, ToUpper signed toupper s with
    | some u, some t => some (toChar signed u :: t)
    | _, _ => none

/-- The value of a plain `char` as `unsigned char`. -/
def byte (c : Int) : Int := c % 256

/-- The order of `std::string` (`compare`, `operator<`): lexicographic, the characters compared
by their values as `unsigned char`. -/
def strLess (a b : List Int) : Prop := List.Lex (· < ·) (a.map byte) (b.map byte)

/-- The `toupper` of the "C" locale; `EOF` is returned as it is. -/
def upperC (c : Int) : Int := if 97 ≤ c ∧ c ≤ 122 then c - 32 else c

end THaString

namespace THaScalerEvtHandler

/-! ## Scaler events -/

/-- The result of `std::string::find(key, 0)` on `data`: the lowest position `i` with
`i + key.size() <= data.size()` at which the characters of `data` are those of `key`; `none`
stands for `npos`. -/
def find (data key : List THaString.Char8) : Option Nat :=
  (List.range (data.length + 1)).find? (fun i => decide ((data.drop i).take key.length = key))

/-- Value of an integer after conversion to `size_t`, an unsigned type of `w` bits. -/
def toSize (w : Nat) (z : Int) : Nat := (z % 2 ^ w).toNat

/-- `THaScalerEvtHandler::FindNoCase` (lines 400-415); `tolower` is the C library function and
`w` the number of bits of `size_t`. -/
def FindNoCase (tolower : THaString.Char8 → THaString.Char8) (w : Nat)
    (sdata skey : List THaString.Char8) : Nat :=
  let sdatalc := sdata.map tolower
  let skeylc := skey.map tolower
  match find sdatalc skeylc with
  | none => toSize w (-1)
  | some i => toSize w (i : Int)

/-- The string `key` occurs in `data` at position `i`. -/
def OccursAt (data key : List THaString.Char8) (i : Nat) : Prop :=
  ∃ pre post, data = pre ++ key ++ post ∧ pre.length = i

/-- The `tolower` of the "C" locale. -/
def lowerC (c : THaString.Char8) : THaString.Char8 :=
  if 65 ≤ c.val ∧ c.val ≤ 90 then c + 32 else c

/-- `MAXTEVT` (line 47), the number of words of the buffer `rdata` (line 54). -/
def MAXTEVT : Nat := 5000

/-- The local variables of `Analyze` after line 132: the buffer `rdata`, the word count
`ndata`, and the pointers `p` and `pstop` as offsets from the start of `rdata`. -/
structure Scan where
  rdata : List Nat
  ndata : Int
  p : Int
  pstop : Int
deriving DecidableEq, Repr

/-- Lines 118-132 of `THaScalerEvtHandler::Analyze`, for an event of the handler's type:
`evLength` is the value of `evdata->GetEvLength()`, `raw i` the value of
`evdata->GetRawData(i)`, and `rdata` the buffer as the call finds it. -/
def Analyze (rdata : List Nat) (evLength : Int) (raw : Int → Nat) : Option Scan :=
  let ndata : Int := if evLength ≥ (MAXTEVT : Int) then (MAXTEVT : Int) - 1 else evLength
  match THaShower.forLoop (fun rd (i : Nat) => THaShower.writeAt rd (i : Int) (raw (i : Int)))
      rdata (List.range ndata.toNat) with
  | none => none
  | some rd => some { rdata := rd, ndata := ndata, p := 0, pstop := ndata }

end THaScalerEvtHandler

namespace THaShower

/-! ## Loops -/

theorem forLoop_append {σ ι : Type} (body : σ → ι → Option σ) (st : σ) (l₁ l₂ : List ι) :
    forLoop body st (l₁ ++ l₂) =
      match forLoop body st l₁ with
      | none => none
      | some st' => forLoop body st' l₂ := by
  induction l₁ generalizing st with
  | nil => simp [forLoop]
  | cons a l ih =>
    simp only [List.cons_append, forLoop]
    cases h : body st a with
    | none => simp
    | some st1 => simpa using ih st1

theorem forLoop_inv {σ ι : Type} (body : σ → ι → Option σ) (P : σ → Prop)
    (hstep : ∀ st i st', P st → body st i = some st' → P st')
    (l : List ι) (st st' : σ) (h0 : P st) (h : forLoop body st l = some st') : P st' := by
  induction l generalizing st with
  | nil => simp [forLoop] at h; exact h ▸ h0
  | cons a l ih =>
    simp only [forLoop] at h
    cases hb : body st a with
    | none => simp [hb] at h
    | some st1 =>
      rw [hb] at h
      exact ih st1 (hstep st a st1 h0 hb) h

theorem seedLoop_spec (s : Shower) (n : Nat) (st : Int × ℚ)
    (h : forLoop (seedStep s) (-1, s.fEmin) (List.range n) = some st) : SeedInv s n st := by
  induction n generalizing st with
  | zero =>
    simp [forLoop] at h
    subst h
    exact ⟨Nat.zero_le _, Or.inl ⟨rfl, rfl, fun i hi => absurd hi (Nat.not_lt_zero i)⟩⟩
  | succ n ih =>
    rw [List.range_succ, forLoop_append] at h
    cases hp : forLoop (seedStep s) (-1, s.fEmin) (List.range n) with
    | none => simp [hp] at h
    | some st1 =>
      rw [hp] at h
      simp only [forLoop, seedStep] at h
      obtain ⟨hlen, hinv⟩ := ih st1 hp
      cases hr : s.fA_c[n]? with
      | none => simp [hr] at h
      | some ei =>
        rw [hr] at h
        have hn : n < s.fA_c.length := by
          rcases List.getElem?_eq_some_iff.mp hr with ⟨hlt, _⟩
          exact hlt
        have hen : energy s n = ei := by simp [energy, List.getD, hr]
        refine ⟨hn, ?_⟩
        by_cases hgt : ei > st1.2
        · simp [hgt] at h
          subst h
          right
          refine ⟨n, rfl, Nat.lt_succ_self n, hen, ?_, ?_, ?_⟩
          · rcases hinv with ⟨_, he, _⟩ | ⟨m, _, _, _, he, _, _⟩
            · simpa [he] using hgt
            · exact lt_trans he hgt
          · intro i hi
            rcases Nat.lt_succ_iff_lt_or_eq.mp hi with hlt | heq
            · rcases hinv with ⟨_, he, hall⟩ | ⟨m, _, _, _, _, hall, _⟩
              · exact le_of_lt (lt_of_le_of_lt (hall i hlt) (by simpa [he] using hgt))
              · exact le_of_lt (lt_of_le_of_lt (hall i hlt) hgt)
            · subst heq; exact le_of_eq hen
          · intro i hi
            rcases hinv with ⟨_, he, hall⟩ | ⟨m, _, _, _, _, hall, _⟩
            · exact lt_of_le_of_lt (hall i hi) (by simpa [he] using hgt)
            · exact lt_of_le_of_lt (hall i hi) hgt
        · simp [hgt] at h
          subst h
          have hle : ei ≤ st1.2 := not_lt.mp hgt
          rcases hinv with ⟨h1, he, hall⟩ | ⟨m, h1, hm, hem, he, hall, hfirst⟩
          · left
            refine ⟨h1, he, ?_⟩
            intro i hi
            rcases Nat.lt_succ_iff_lt_or_eq.mp hi with hlt | heq
            · exact hall i hlt
            · subst heq; rw [hen, ← he]; exact hle
          · right
            refine ⟨m, h1, Nat.lt_succ_of_lt hm, hem, he, ?_, hfirst⟩
            intro i hi
            rcases Nat.lt_succ_iff_lt_or_eq.mp hi with hlt | heq
            · exact hall i hlt
            · subst heq; rw [hen]; exact hle

theorem seedLoop_isSome (s : Shower) (n : Nat) (hn : n ≤ s.fA_c.length) :
    ∃ st, forLoop (seedStep s) (-1, s.fEmin) (List.range n) = some st := by
  induction n with
  | zero => exact ⟨_, rfl⟩
  | succ n ih =>
    obtain ⟨st1, h1⟩ := ih (Nat.le_of_succ_le hn)
    rw [List.range_succ, forLoop_append, h1]
    have hlt : n < s.fA_c.length := hn
    simp only [forLoop, seedStep, List.getElem?_eq_getElem hlt]
    by_cases hgt : s.fA_c[n] > st1.2
    · exact ⟨_, by simp [hgt]; rfl⟩
    · exact ⟨_, by simp [hgt]; rfl⟩

theorem take_succ_set {α : Type} (a : List α) (m : Nat) (v : α) (h : m < a.length) :
    (a.set m v).take (m + 1) = a.take m ++ [v] := by
  induction a generalizing m with
  | nil => simp at h
  | cons x xs ih =>
    cases m with
    | zero => simp
    | succ m => simpa using ih m (by simpa using h)

theorem drop_set_gt {α : Type} (a : List α) (m j : Nat) (v : α) (h : m < j) :
    (a.set m v).drop j = a.drop j := by
  induction a generalizing m j with
  | nil => simp
  | cons x xs ih =>
    cases j with
    | zero => omega
    | succ j =>
      cases m with
      | zero => simp
      | succ m => simpa using ih m j (by omega)

theorem toShort_small (z : Int) (h0 : -32768 ≤ z) (h1 : z ≤ 32767) : toShort z = z := by
  unfold toShort; omega

theorem writeAt_eq_some {α : Type} (a : List α) (k : Int) (v : α) (b : List α)
    (h : writeAt a k v = some b) : 0 ≤ k ∧ k.toNat < a.length ∧ b = a.set k.toNat v := by
  unfold writeAt at h
  split at h
  · rename_i hc
    simp at h
    exact ⟨hc.1, hc.2, h.symm⟩
  · simp at h

/-- What one iteration of the cluster loop does when it returns. -/
theorem clusterStep_spec (s : Shower) (nmax nr nc : Int) (acc acc' : ClusterAcc) (i : Nat)
    (m : Nat) (hm : acc.mult = (m : Int)) (hcap : acc.fNblk.length ≤ 32767)
    (h : clusterStep s nmax nr nc acc i = some acc') :
    i < s.fA_c.length ∧
    ((isSurround s nmax nr nc i (energy s i) = false ∧ acc' = acc) ∨
     (isSurround s nmax nr nc i (energy s i) = true ∧ m < acc.fNblk.length ∧
      m < acc.fEblk.length ∧ i < s.fBlockX.length ∧ i < s.fBlockY.length ∧
      acc' = { mult := ((m + 1 : Nat) : Int), fNblk := acc.fNblk.set m (i : Int),
               fEblk := acc.fEblk.set m (energy s i),
               sxe := acc.sxe + energy s i * blockX s i,
               sye := acc.sye + energy s i * blockY s i,
               emax := acc.emax + energy s i })) := by
  unfold clusterStep at h
  cases hr : s.fA_c[i]? with
  | none => simp [hr] at h
  | some ei =>
    rw [hr] at h
    have hi : i < s.fA_c.length := (List.getElem?_eq_some_iff.mp hr).1
    have hen : energy s i = ei := by simp [energy, List.getD, hr]
    refine ⟨hi, ?_⟩
    rw [hen]
    by_cases hsur : isSurround s nmax nr nc i ei = true
    · right
      simp only [hsur, if_true] at h
      cases hw1 : writeAt acc.fNblk acc.mult (i : Int) with
      | none => simp [hw1] at h
      | some nblk =>
        cases hw2 : writeAt acc.fEblk acc.mult ei with
        | none => simp [hw1, hw2] at h
        | some eblk =>
          cases hx : s.fBlockX[i]? with
          | none => simp [hw1, hw2, hx] at h
          | some bx =>
            cases hy : s.fBlockY[i]? with
            | none => simp [hw1, hw2, hx, hy] at h
            | some bY =>
              simp only [hw1, hw2, hx, hy, Option.some.injEq] at h
              obtain ⟨_, h1, e1⟩ := writeAt_eq_some _ _ _ _ hw1
              obtain ⟨_, h2, e2⟩ := writeAt_eq_some _ _ _ _ hw2
              rw [hm] at h1 h2 e1 e2
              simp only [Int.toNat_ofNat] at h1 h2 e1 e2
              have hbx : blockX s i = bx := by simp [blockX, List.getD, hx]
              have hby : blockY s i = bY := by simp [blockY, List.getD, hy]
              have hsh : toShort (acc.mult + 1) = ((m + 1 : Nat) : Int) := by
                rw [hm, toShort_small] <;> push_cast <;> omega
              refine ⟨hsur, h1, h2, (List.getElem?_eq_some_iff.mp hx).1,
                (List.getElem?_eq_some_iff.mp hy).1, ?_⟩
              rw [← h, hsh, e1, e2, hbx, hby]
    · left
      simp only [hsur] at h
      simp at h
      exact ⟨by simpa using hsur, h.symm⟩

theorem clusterLoop_spec (s : Shower) (nmax nr nc : Int) (l : List Nat) :
    ∀ (acc acc' : ClusterAcc) (m : Nat), acc.mult = (m : Int) → acc.fNblk.length ≤ 32767 →
      forLoop (clusterStep s nmax nr nc) acc l = some acc' →
      (∀ i ∈ l, i < s.fA_c.length) ∧
      (∀ i ∈ surroundOf s nmax nr nc l, i < s.fBlockX.length ∧ i < s.fBlockY.length) ∧
      (surroundOf s nmax nr nc l ≠ [] →
        m + (surroundOf s nmax nr nc l).length ≤ acc.fNblk.length ∧
        m + (surroundOf s nmax nr nc l).length ≤ acc.fEblk.length) ∧
      acc' = storeMembers s acc m (surroundOf s nmax nr nc l) := by
  induction l with
  | nil =>
    intro acc acc' m hm _ h
    simp only [forLoop, Option.some.injEq] at h
    subst h
    refine ⟨by simp, by simp [surroundOf], by simp [surroundOf], ?_⟩
    cases acc
    simp_all [surroundOf, storeMembers]
  | cons i l ih =>
    intro acc acc' m hm hcap h
    simp only [forLoop] at h
    cases hb : clusterStep s nmax nr nc acc i with
    | none => simp [hb] at h
    | some acc1 =>
      rw [hb] at h
      obtain ⟨hi, hcase⟩ := clusterStep_spec s nmax nr nc acc acc1 i m hm hcap hb
      rcases hcase with ⟨hsur, heq⟩ | ⟨hsur, h1, h2, hx, hy, heq⟩
      · subst heq
        obtain ⟨ha, hb', hc, hd⟩ := ih acc1 acc' m hm hcap h
        have hms : surroundOf s nmax nr nc (i :: l) = surroundOf s nmax nr nc l := by
          simp [surroundOf, List.filter_cons, hsur]
        rw [hms]
        refine ⟨?_, hb', hc, hd⟩
        intro j hj
        rcases List.mem_cons.mp hj with rfl | hj
        · exact hi
        · exact ha j hj
      · have hm1 : acc1.mult = ((m + 1 : Nat) : Int) := by rw [heq]
        have hlen1 : acc1.fNblk.length = acc.fNblk.length := by rw [heq]; simp
        have hlen2 : acc1.fEblk.length = acc.fEblk.length := by rw [heq]; simp
        obtain ⟨ha, hb', hc, hd⟩ := ih acc1 acc' (m + 1) hm1 (by omega) h
        have hms : surroundOf s nmax nr nc (i :: l) = i :: surroundOf s nmax nr nc l := by
          simp [surroundOf, List.filter_cons, hsur]
        rw [hms]
        refine ⟨?_, ?_, ?_, ?_⟩
        · intro j hj
          rcases List.mem_cons.mp hj with rfl | hj
          · exact hi
          · exact ha j hj
        · intro j hj
          rcases List.mem_cons.mp hj with rfl | hj
          · exact ⟨hx, hy⟩
          · exact hb' j hj
        · intro _
          by_cases hnil : surroundOf s nmax nr nc l = []
          · simp only [hnil, List.length_cons, List.length_nil]
            omega
          · have := hc hnil
            simp only [List.length_cons]
            omega
        · rw [hd, heq]
          simp only [storeMembers, List.length_cons, List.map_cons, List.sum_cons]
          rw [take_succ_set _ _ _ h1, take_succ_set _ _ _ h2,
            drop_set_gt _ _ _ _ (by omega : m < m + 1 + (surroundOf s nmax nr nc l).length),
            drop_set_gt _ _ _ _ (by omega : m < m + 1 + (surroundOf s nmax nr nc l).length)]
          have e1 : m + 1 + (surroundOf s nmax nr nc l).length
              = m + ((surroundOf s nmax nr nc l).length + 1) := by omega
          simp only [e1, List.append_assoc, List.singleton_append, add_assoc]

theorem clusterLoop_isSome (s : Shower) (nmax nr nc : Int) (l : List Nat) :
    ∀ (acc : ClusterAcc) (m : Nat), acc.mult = (m : Int) → acc.fNblk.length ≤ 32767 →
      (∀ i ∈ l, i < s.fA_c.length ∧ i < s.fBlockX.length ∧ i < s.fBlockY.length) →
      m + (surroundOf s nmax nr nc l).length ≤ acc.fNblk.length →
      m + (surroundOf s nmax nr nc l).length ≤ acc.fEblk.length →
      ∃ acc', forLoop (clusterStep s nmax nr nc) acc l = some acc' := by
  induction l with
  | nil => intro acc m _ _ _ _ _; exact ⟨acc, rfl⟩
  | cons i l ih =>
    intro acc m hm hcap hl h1 h2
    obtain ⟨hi, hx, hy⟩ := hl i (List.mem_cons_self i l)
    have hen : energy s i = s.fA_c[i] := by
      simp [energy, List.getD, List.getElem?_eq_getElem hi]
    by_cases hsur : isSurround s nmax nr nc i (energy s i) = true
    · have hms : surroundOf s nmax nr nc (i :: l) = i :: surroundOf s nmax nr nc l := by
        simp [surroundOf, List.filter_cons, hsur]
      rw [hms] at h1 h2
      simp only [List.length_cons] at h1 h2
      have hstep : ∃ acc1, clusterStep s nmax nr nc acc i = some acc1 := by
        unfold clusterStep
        rw [hen] at hsur
        simp only [List.getElem?_eq_getElem hi, List.getElem?_eq_getElem hx,
          List.getElem?_eq_getElem hy, hsur, if_true, writeAt, hm, Int.toNat_ofNat]
        have c1 : (0 : Int) ≤ (m : Int) ∧ m < acc.fNblk.length := ⟨by omega, by omega⟩
        have c2 : (0 : Int) ≤ (m : Int) ∧ m < acc.fEblk.length := ⟨by omega, by omega⟩
        simp only [c1, c2, and_self, if_true]
        exact ⟨_, rfl⟩
      obtain ⟨acc1, hstep⟩ := hstep
      obtain ⟨_, hcase⟩ := clusterStep_spec s nmax nr nc acc acc1 i m hm hcap hstep
      rcases hcase with ⟨hf, _⟩ | ⟨_, _, _, _, _, heq⟩
      · rw [hsur] at hf; exact absurd hf (by simp)
      · have hm1 : acc1.mult = ((m + 1 : Nat) : Int) := by rw [heq]
        have hlen1 : acc1.fNblk.length = acc.fNblk.length := by rw [heq]; simp
        have hlen2 : acc1.fEblk.length = acc.fEblk.length := by rw [heq]; simp
        obtain ⟨acc', h'⟩ := ih acc1 (m + 1) hm1 (by omega)
          (fun j hj => hl j (List.mem_cons_of_mem i hj)) (by omega) (by omega)
        exact ⟨acc', by simp only [forLoop, hstep]; exact h'⟩
    · have hms : surroundOf s nmax nr nc (i :: l) = surroundOf s nmax nr nc l := by
        simp [surroundOf, List.filter_cons, hsur]
      rw [hms] at h1 h2
      have hstep : clusterStep s nmax nr nc acc i = some acc := by
        unfold clusterStep
        rw [hen] at hsur
        simp only [List.getElem?_eq_getElem hi, hsur]
        simp
      obtain ⟨acc', h'⟩ := ih acc m hm hcap
        (fun j hj => hl j (List.mem_cons_of_mem i hj)) h1 h2
      exact ⟨acc', by simp only [forLoop, hstep]; exact h'⟩

theorem readAt_natCast {α : Type} (a : List α) (n : Nat) : readAt a (n : Int) = a[n]? := by
  simp [readAt]

theorem getD_of_getElem? {a : List ℚ} {i : Nat} {v : ℚ} (h : a[i]? = some v) :
    a.getD i 0 = v := by
  simp [List.getD, h]

theorem buildCluster_spec (s s' : Shower) (nmax : Nat) (hcap : s.fNblk.length ≤ 32767)
    (h : buildCluster s (nmax : Int) (energy s nmax) = some s') :
    s.fNrows ≠ 0 ∧ 1 + (surround s nmax).length ≤ s.fNblk.length ∧
    1 + (surround s nmax).length ≤ s.fEblk.length ∧
    s' = withCluster s nmax := by
  unfold buildCluster at h
  by_cases hr : s.fNrows = 0
  · simp [hr] at h
  · simp only [hr, if_false] at h
    cases hw1 : writeAt s.fNblk 0 (nmax : Int) with
    | none => simp [hw1] at h
    | some nblk =>
      cases hw2 : writeAt s.fEblk 0 (energy s nmax) with
      | none => simp [hw1, hw2] at h
      | some eblk =>
        cases hx : readAt s.fBlockX (nmax : Int) with
        | none => simp [hw1, hw2, hx] at h
        | some bx =>
          cases hy : readAt s.fBlockY (nmax : Int) with
          | none => simp [hw1, hw2, hx, hy] at h
          | some bY =>
            simp only [hw1, hw2, hx, hy] at h
            obtain ⟨_, h1, e1⟩ := writeAt_eq_some _ _ _ _ hw1
            obtain ⟨_, h2, e2⟩ := writeAt_eq_some _ _ _ _ hw2
            simp only [Int.toNat_zero] at h1 h2 e1 e2
            rw [readAt_natCast] at hx hy
            have hbx : blockX s nmax = bx := getD_of_getElem? hx
            have hby : blockY s nmax = bY := getD_of_getElem? hy
            cases hl : forLoop (clusterStep s (nmax : Int) (toShort (Int.tmod (nmax : Int) s.fNrows))
                (toShort (Int.tdiv (nmax : Int) s.fNrows)))
                { mult := 1, fNblk := nblk, fEblk := eblk, sxe := energy s nmax * bx,
                  sye := energy s nmax * bY, emax := energy s nmax }
                (List.range s.fNelem.toNat) with
            | none => simp [hl] at h
            | some acc =>
              simp only [hl, Option.some.injEq] at h
              have hlen1 : nblk.length = s.fNblk.length := by rw [e1]; simp
              have hlen2 : eblk.length = s.fEblk.length := by rw [e2]; simp
              obtain ⟨_, _, hc, hd⟩ := clusterLoop_spec s (nmax : Int) _ _ _ _ acc 1 rfl
                (by simpa [hlen1] using hcap) hl
              have hms : surroundOf s (nmax : Int) (toShort (Int.tmod (nmax : Int) s.fNrows))
                  (toShort (Int.tdiv (nmax : Int) s.fNrows)) (List.range s.fNelem.toNat)
                  = surround s nmax := rfl
              rw [hms] at hc hd
              simp only [hlen1, hlen2] at hc
              have hb1 : 1 + (surround s nmax).length ≤ s.fNblk.length ∧
                  1 + (surround s nmax).length ≤ s.fEblk.length := by
                by_cases hnil : surround s nmax = []
                · simp only [hnil, List.length_nil]; omega
                · exact hc hnil
              refine ⟨hr, hb1.1, hb1.2, ?_⟩
              rw [← h, hd]
              have t1 : List.take 1 nblk = [(nmax : Int)] := by
                rw [e1]; exact take_succ_set s.fNblk 0 _ h1
              have t2 : List.take 1 eblk = [energy s nmax] := by
                rw [e2]; exact take_succ_set s.fEblk 0 _ h2
              have d1 : List.drop (1 + (surround s nmax).length) nblk
                  = List.drop (1 + (surround s nmax).length) s.fNblk := by
                rw [e1]; exact drop_set_gt _ _ _ _ (by omega)
              have d2 : List.drop (1 + (surround s nmax).length) eblk
                  = List.drop (1 + (surround s nmax).length) s.fEblk := by
                rw [e2]; exact drop_set_gt _ _ _ _ (by omega)
              simp only [storeMembers, withCluster, t1, t2, d1, d2, hbx, hby,
                List.singleton_append, List.cons_append, List.nil_append]

theorem buildCluster_isSome (s : Shower) (nmax : Nat) (hcap : s.fNblk.length ≤ 32767)
    (hr : s.fNrows ≠ 0) (hn : nmax < s.fNelem.toNat)
    (hA : s.fNelem.toNat ≤ s.fA_c.length) (hX : s.fNelem.toNat ≤ s.fBlockX.length)
    (hY : s.fNelem.toNat ≤ s.fBlockY.length)
    (h1 : 1 + (surround s nmax).length ≤ s.fNblk.length)
    (h2 : 1 + (surround s nmax).length ≤ s.fEblk.length) :
    ∃ s', buildCluster s (nmax : Int) (energy s nmax) = some s' := by
  unfold buildCluster
  have c1 : (0 : Int) ≤ 0 ∧ (0 : Int).toNat < s.fNblk.length := ⟨le_refl _, by simp; omega⟩
  have c2 : (0 : Int) ≤ 0 ∧ (0 : Int).toNat < s.fEblk.length := ⟨le_refl _, by simp; omega⟩
  have hx : nmax < s.fBlockX.length := by omega
  have hy : nmax < s.fBlockY.length := by omega
  simp only [hr, if_false, writeAt, c1, c2, and_self, if_true, readAt_natCast,
    List.getElem?_eq_getElem hx, List.getElem?_eq_getElem hy]
  obtain ⟨acc, hacc⟩ := clusterLoop_isSome s (nmax : Int) (toShort (Int.tmod (nmax : Int) s.fNrows))
    (toShort (Int.tdiv (nmax : Int) s.fNrows)) (List.range s.fNelem.toNat)
    { mult := 1, fNblk := s.fNblk.set (0 : Int).toNat (nmax : Int),
      fEblk := s.fEblk.set (0 : Int).toNat (energy s nmax),
      sxe := energy s nmax * s.fBlockX[nmax], sye := energy s nmax * s.fBlockY[nmax],
      emax := energy s nmax } 1 rfl (by simpa using hcap)
    (fun i hi => by
      have := List.mem_range.mp hi
      exact ⟨by omega, by omega, by omega⟩)
    (by simpa using h1) (by simpa using h2)
  rw [hacc]
  exact ⟨_, rfl⟩

theorem seedSearch_spec (s : Shower) (st : Int × ℚ) (h : seedSearch s = some st) :
    s.fNelem.toNat ≤ s.fA_c.length ∧
    ((st = (-1, s.fEmin) ∧ ∀ i, i < s.fNelem.toNat → energy s i ≤ s.fEmin) ∨
     ∃ nmax : Nat, st = ((nmax : Int), energy s nmax) ∧ IsSeed s nmax) := by
  obtain ⟨hlen, hinv⟩ := seedLoop_spec s _ st h
  refine ⟨hlen, ?_⟩
  rcases hinv with ⟨h1, h2, hall⟩ | ⟨m, h1, hm, hem, he, hall, hfirst⟩
  · left
    exact ⟨Prod.ext h1 h2, hall⟩
  · right
    refine ⟨m, Prod.ext h1 hem.symm, hm, ?_, ?_, ?_⟩
    · rw [hem]; exact he
    · intro i hi; rw [hem]; exact hall i hi
    · intro i hi; rw [hem]; exact hfirst i hi

/-- The seed search selects at most one block. -/
theorem IsSeed_unique (s : Shower) (a b : Nat) (ha : IsSeed s a) (hb : IsSeed s b) : a = b := by
  rcases Nat.lt_trichotomy a b with hlt | heq | hgt
  · have h1 := hb.2.2.2 a hlt
    have h2 := ha.2.2.1 b hb.1
    exact absurd h1 (not_lt.mpr h2)
  · exact heq
  · have h1 := ha.2.2.2 b hgt
    have h2 := hb.2.2.1 a ha.1
    exact absurd h1 (not_lt.mpr h2)

/-- What `CoarseProcess` returns, when it returns: either no block is above the threshold and
only `fNclust` is reset, or the cluster around the seed is stored. -/
theorem CoarseProcess_spec (s s' : Shower) (hcap : s.fNblk.length ≤ 32767)
    (h : CoarseProcess s = some s') :
    s.fNelem.toNat ≤ s.fA_c.length ∧
    (((∀ i, i < s.fNelem.toNat → energy s i ≤ s.fEmin) ∧ s' = { s with fNclust := 0 }) ∨
     ∃ nmax : Nat, IsSeed s nmax ∧ s.fNrows ≠ 0 ∧
       1 + (surround s nmax).length ≤ s.fNblk.length ∧
       1 + (surround s nmax).length ≤ s.fEblk.length ∧ s' = withCluster s nmax) := by
  unfold CoarseProcess at h
  cases hs : seedSearch { s with fNclust := 0 } with
  | none => simp [hs] at h
  | some st =>
    obtain ⟨hlen, hcase⟩ := seedSearch_spec _ st hs
    refine ⟨hlen, ?_⟩
    rw [hs] at h
    rcases hcase with ⟨hst, hall⟩ | ⟨nmax, hst, hseed⟩
    · left
      subst hst
      simp only [ge_iff_le] at h
      have : ¬ ((0 : Int) ≤ -1) := by omega
      simp only [this, if_false, Option.some.injEq] at h
      exact ⟨hall, h.symm⟩
    · right
      subst hst
      have hnn : (nmax : Int) ≥ 0 := by omega
      simp only [hnn, if_true] at h
      obtain ⟨hr, h1, h2, heq⟩ := buildCluster_spec { s with fNclust := 0 } s' nmax hcap h
      exact ⟨nmax, hseed, hr, h1, h2, heq⟩

theorem isSurround_eq_true (s : Shower) (nmax nr nc : Int) (i : Nat) (ei : ℚ) :
    isSurround s nmax nr nc i ei = true ↔
      (ei > 0 ∧ (i : Int) ≠ nmax) ∧
      -2 < toShort (nr - toShort (Int.tmod (i : Int) s.fNrows)) ∧
      toShort (nr - toShort (Int.tmod (i : Int) s.fNrows)) < 2 ∧
      -2 < toShort (nc - toShort (Int.tdiv (i : Int) s.fNrows)) ∧
      toShort (nc - toShort (Int.tdiv (i : Int) s.fNrows)) < 2 := by
  simp [isSurround]

theorem shortDist_iff (a b : Int) (h0 : -65535 < a - b) (h1 : a - b < 65535) :
    (-2 < toShort (toShort a - toShort b) ∧ toShort (toShort a - toShort b) < 2) ↔
      (-2 < a - b ∧ a - b < 2) := by
  unfold toShort
  omega

/-- For blocks below 65535 the `short` arithmetic of the cluster loop is exact. -/
theorem isSurround_iff_inWindow (s : Shower) (R : Nat) (hR : s.fNrows = (R : Int))
    (nmax i : Nat) (hn : nmax < 65535) (hi : i < 65535) (ei : ℚ) :
    isSurround s (nmax : Int) (seedRow s nmax) (seedCol s nmax) i ei = true ↔
      (ei > 0 ∧ i ≠ nmax ∧ inWindow R nmax i) := by
  rw [isSurround_eq_true]
  simp only [seedRow, seedCol, hR, ← Int.ofNat_tdiv, ← Int.ofNat_tmod]
  have hn1 : nmax % R ≤ nmax := Nat.mod_le _ _
  have hn2 : nmax / R ≤ nmax := Nat.div_le_self _ _
  have hi1 : i % R ≤ i := Nat.mod_le _ _
  have hi2 : i / R ≤ i := Nat.div_le_self _ _
  unfold inWindow
  generalize nmax % R = a at *
  generalize nmax / R = b at *
  generalize i % R = c at *
  generalize i / R = d at *
  have hrow := shortDist_iff (a : Int) (c : Int) (by omega) (by omega)
  have hcol := shortDist_iff (b : Int) (d : Int) (by omega) (by omega)
  constructor
  · rintro ⟨⟨he, hne⟩, h1, h2, h3, h4⟩
    refine ⟨he, ?_, ?_⟩
    · intro heq; exact hne (by rw [heq])
    · have r := hrow.mp ⟨h1, h2⟩
      have c := hcol.mp ⟨h3, h4⟩
      exact ⟨r.1, r.2, c.1, c.2⟩
  · rintro ⟨he, hne, h1, h2, h3, h4⟩
    have r := hrow.mpr ⟨h1, h2⟩
    have c := hcol.mpr ⟨h3, h4⟩
    exact ⟨⟨he, fun heq => hne (by exact_mod_cast heq)⟩, r.1, r.2, c.1, c.2⟩

theorem window_side_card (n k : Nat) :
    ((Finset.Icc (k - 1) (k + 1)) ∩ Finset.range n).card ≤ min 3 n := by
  apply le_min
  · calc ((Finset.Icc (k - 1) (k + 1)) ∩ Finset.range n).card
        ≤ (Finset.Icc (k - 1) (k + 1)).card := Finset.card_le_card Finset.inter_subset_left
      _ ≤ 3 := by rw [Nat.card_Icc]; omega
  · calc ((Finset.Icc (k - 1) (k + 1)) ∩ Finset.range n).card
        ≤ (Finset.range n).card := Finset.card_le_card Finset.inter_subset_right
      _ = n := Finset.card_range n

/-- A duplicate-free list of blocks of an `R` by `C` detector that all lie in the three by
three window around `nmax` has at most `min 3 R * min 3 C` entries. -/
theorem window_length_le (R C nmax : Nat) (hR : 0 < R) (L : List Nat) (hnd : L.Nodup)
    (hL : ∀ i ∈ L, i < R * C ∧ inWindow R nmax i) : L.length ≤ min 3 R * min 3 C := by
  have hsub : L.toFinset ⊆
      (((Finset.Icc (nmax % R - 1) (nmax % R + 1)) ∩ Finset.range R) ×ˢ
        ((Finset.Icc (nmax / R - 1) (nmax / R + 1)) ∩ Finset.range C)).image
        (fun p : Nat × Nat => R * p.2 + p.1) := by
    intro i hi
    obtain ⟨hlt, hw⟩ := hL i (List.mem_toFinset.mp hi)
    unfold inWindow at hw
    obtain ⟨h1, h2, h3, h4⟩ := hw
    have hdiv : i / R < C := Nat.div_lt_of_lt_mul hlt
    have hmod : i % R < R := Nat.mod_lt _ hR
    refine Finset.mem_image.mpr ⟨(i % R, i / R), ?_, Nat.div_add_mod i R⟩
    simp only [Finset.mem_product, Finset.mem_inter, Finset.mem_Icc, Finset.mem_range]
    generalize nmax % R = a at *
    generalize nmax / R = b at *
    generalize i % R = c at *
    generalize i / R = d at *
    omega
  calc L.length = L.toFinset.card := (List.toFinset_card_of_nodup hnd).symm
    _ ≤ _ := Finset.card_le_card hsub
    _ ≤ _ := Finset.card_image_le
    _ = _ := Finset.card_product _ _
    _ ≤ min 3 R * min 3 C :=
      Nat.mul_le_mul (window_side_card R (nmax % R)) (window_side_card C (nmax / R))

theorem surround_nodup (s : Shower) (nmax : Nat) : (surround s nmax).Nodup :=
  List.Nodup.filter _ (List.nodup_range _)

theorem mem_surround (s : Shower) (nmax i : Nat) :
    i ∈ surround s nmax ↔ i < s.fNelem.toNat ∧
      isSurround s (nmax : Int) (seedRow s nmax) (seedCol s nmax) i (energy s i) = true := by
  simp [surround, surroundOf, List.mem_filter]

theorem seed_not_mem_surround (s : Shower) (nmax : Nat) : nmax ∉ surround s nmax := by
  intro h
  have := ((mem_surround s nmax nmax).mp h).2
  rw [isSurround_eq_true] at this
  exact this.1.2 rfl

/-- With every block of positive energy below 65535, the seed with its surrounding blocks fits
the storage sized at initialization. -/
theorem cluster_fits (s : Shower) (R C : Nat) (hinit : Init s R C)
    (h16 : ∀ i, 0 < energy s i → i < 65535) (nmax : Nat) (hseed : IsSeed s nmax) :
    1 + (surround s nmax).length ≤ min 3 R * min 3 C := by
  have hN : s.fNelem.toNat = R * C := by rw [hinit.nelem]; exact Int.toNat_ofNat _
  have hlist : (nmax :: surround s nmax).Nodup :=
    List.nodup_cons.mpr ⟨seed_not_mem_surround s nmax, surround_nodup s nmax⟩
  have hbound := window_length_le R C nmax hinit.rows_pos (nmax :: surround s nmax) hlist (by
    intro i hi
    rcases List.mem_cons.mp hi with rfl | hmem
    · refine ⟨by rw [← hN]; exact hseed.1, ?_⟩
      unfold inWindow; omega
    · obtain ⟨hlt, hsur⟩ := (mem_surround s nmax i).mp hmem
      have hpos : 0 < energy s i := by
        rw [isSurround_eq_true] at hsur; exact hsur.1.1
      have hi16 : i < 65535 := h16 i hpos
      have hn16 : nmax < 65535 := h16 nmax (lt_of_lt_of_le hpos (hseed.2.2.1 i hlt))
      have := (isSurround_iff_inWindow s R hinit.nrows nmax i hn16 hi16 (energy s i)).mp hsur
      exact ⟨by rw [← hN]; exact hlt, this.2.2⟩)
  simpa [List.length_cons, Nat.add_comm] using hbound

theorem Init.nelem_toNat {s : Shower} {R C : Nat} (h : Init s R C) :
    s.fNelem.toNat = R * C := by
  rw [h.nelem]; exact Int.toNat_ofNat _

theorem Init.cap_le {s : Shower} {R C : Nat} (h : Init s R C) : s.fNblk.length ≤ 32767 := by
  rw [h.lenNblk]
  have h1 : min 3 R ≤ 3 := min_le_left _ _
  have h2 : min 3 C ≤ 3 := min_le_left _ _
  calc min 3 R * min 3 C ≤ 3 * 3 := Nat.mul_le_mul h1 h2
    _ ≤ 32767 := by omega

theorem CoarseProcess_isSome (s : Shower) (R C : Nat) (hinit : Init s R C)
    (hfit : ∀ nmax, IsSeed s nmax → 1 + (surround s nmax).length ≤ min 3 R * min 3 C) :
    ∃ s', CoarseProcess s = some s' := by
  have hN := hinit.nelem_toNat
  obtain ⟨st, hst⟩ := seedLoop_isSome s s.fNelem.toNat (by rw [hN, hinit.lenAc])
  have hss : seedSearch { s with fNclust := 0 } = some st := hst
  obtain ⟨_, hcase⟩ := seedSearch_spec _ st hss
  unfold CoarseProcess
  rw [hss]
  rcases hcase with ⟨heq, _⟩ | ⟨nmax, heq, hseed⟩
  · subst heq
    have hneg : ¬ ((-1 : Int) ≥ 0) := by omega
    simp only [hneg, if_false]
    exact ⟨_, rfl⟩
  · subst heq
    have hnn : (nmax : Int) ≥ 0 := by omega
    simp only [hnn, if_true]
    have hfit' := hfit nmax hseed
    exact buildCluster_isSome { s with fNclust := 0 } nmax hinit.cap_le
      (by show s.fNrows ≠ 0; rw [hinit.nrows]; have := hinit.rows_pos; omega)
      hseed.1
      (by show s.fNelem.toNat ≤ s.fA_c.length; rw [hN, hinit.lenAc])
      (by show s.fNelem.toNat ≤ s.fBlockX.length; rw [hN, hinit.lenX])
      (by show s.fNelem.toNat ≤ s.fBlockY.length; rw [hN, hinit.lenY])
      (by show 1 + (surround s nmax).length ≤ s.fNblk.length; rw [hinit.lenNblk]; exact hfit')
      (by show 1 + (surround s nmax).length ≤ s.fEblk.length; rw [hinit.lenEblk]; exact hfit')

/-- When `CoarseProcess` returns with a cluster, the result is the stored cluster of the block
selected by the seed search. -/
theorem CoarseProcess_cluster (s s' : Shower) (R C : Nat) (hinit : Init s R C)
    (h : CoarseProcess s = some s') (hc : s'.fNclust = 1) :
    ∃ nmax : Nat, IsSeed s nmax ∧ 1 + (surround s nmax).length ≤ min 3 R * min 3 C ∧
      s' = withCluster s nmax := by
  obtain ⟨_, hcase⟩ := CoarseProcess_spec s s' hinit.cap_le h
  rcases hcase with ⟨_, heq⟩ | ⟨nmax, hseed, _, h1, _, heq⟩
  · rw [heq] at hc
    simp at hc
  · exact ⟨nmax, hseed, by rw [← hinit.lenNblk]; exact h1, heq⟩

theorem withCluster_fNblk_zero (s : Shower) (nmax : Nat) :
    (withCluster s nmax).fNblk[0]? = some (nmax : Int) := by
  simp [withCluster]

theorem members_withCluster (s : Shower) (nmax : Nat) :
    members (withCluster s nmax) =
      (nmax : Int) :: (surround s nmax).map (fun (i : Nat) => (i : Int)) := by
  simp only [members, withCluster, Int.toNat_ofNat]
  apply List.take_left'
  simp [Nat.add_comm]

theorem memberEnergies_withCluster (s : Shower) (nmax : Nat) :
    memberEnergies (withCluster s nmax) = energy s nmax :: (surround s nmax).map (energy s) := by
  simp only [memberEnergies, withCluster, Int.toNat_ofNat]
  apply List.take_left'
  simp [Nat.add_comm]

/-- For an initialized geometry of `R` rows and `C` columns and calibrated
energies that are positive only at blocks below 65535, `CoarseProcess` returns without an
access outside the arrays, and the number of members it stores is at least 1 and at most the
cap `min 3 R * min 3 C` to which `fNblk` and `fEblk` are sized. -/
theorem members_within_cap (s : Shower) (R C : Nat) (hinit : Init s R C)
    (h16 : ∀ i, 0 < energy s i → i < 65535) :
    ∃ s', CoarseProcess s = some s' ∧
      (s'.fNclust = 1 →
        1 ≤ s'.fMult ∧ s'.fMult ≤ s.fNclublk ∧ s'.fMult = ((members s').length : Int) ∧
        (members s').length ≤ s'.fNblk.length ∧ (memberEnergies s').length ≤ s'.fEblk.length ∧
        s'.fNblk.length = min 3 R * min 3 C ∧ s'.fEblk.length = min 3 R * min 3 C) := by
  obtain ⟨s', hs'⟩ := CoarseProcess_isSome s R C hinit
    (fun nmax hseed => cluster_fits s R C hinit h16 nmax hseed)
  refine ⟨s', hs', ?_⟩
  intro hc
  obtain ⟨nmax, _, hfit, heq⟩ := CoarseProcess_cluster s s' R C hinit hs' hc
  have hm := members_withCluster s nmax
  have he := memberEnergies_withCluster s nmax
  rw [← heq] at hm he
  have hmult : s'.fMult = ((1 + (surround s nmax).length : Nat) : Int) := by rw [heq]; rfl
  have hl1 : s'.fNblk.length = min 3 R * min 3 C := by
    rw [heq]
    simp only [withCluster, List.length_append, List.length_cons, List.length_map,
      List.length_drop, hinit.lenNblk]
    omega
  have hl2 : s'.fEblk.length = min 3 R * min 3 C := by
    rw [heq]
    simp only [withCluster, List.length_append, List.length_cons, List.length_map,
      List.length_drop, hinit.lenEblk]
    omega
  refine ⟨?_, ?_, ?_, ?_, ?_, hl1, hl2⟩
  · rw [hmult]; push_cast; omega
  · rw [hmult, hinit.nclublk]; exact_mod_cast hfit
  · rw [hmult, hm]; simp [Nat.add_comm]
  · rw [hm, hl1]; simpa [Nat.add_comm] using hfit
  · rw [he, hl2]; simpa [Nat.add_comm] using hfit

/-- C2: when `CoarseProcess` returns, a cluster is produced (`fNclust = 1`, otherwise
`fNclust = 0`) if and only if some block has calibrated energy strictly above `fEmin`; so
blocks whose energy equals the threshold produce no cluster, and a single block above the
threshold (one unit above it, say) is the seed stored in `fNblk[0]`. -/
theorem C2_cluster_iff_above_threshold (s s' : Shower) (R C : Nat) (hinit : Init s R C)
    (h : CoarseProcess s = some s') :
    (s'.fNclust = 1 ↔ ∃ i, i < s.fNelem.toNat ∧ s.fEmin < energy s i) ∧
    (s'.fNclust = 0 ↔ ∀ i, i < s.fNelem.toNat → energy s i ≤ s.fEmin) ∧
    (∀ i, i < s.fNelem.toNat → s.fEmin < energy s i →
      (∀ j, j < s.fNelem.toNat → j ≠ i → energy s j ≤ s.fEmin) →
      s'.fNclust = 1 ∧ s'.fNblk[0]? = some (i : Int)) := by
  obtain ⟨_, hcase⟩ := CoarseProcess_spec s s' hinit.cap_le h
  rcases hcase with ⟨hall, heq⟩ | ⟨nmax, hseed, _, _, _, heq⟩
  · have h0 : s'.fNclust = 0 := by rw [heq]
    refine ⟨?_, ?_, ?_⟩
    · constructor
      · intro h1; rw [h0] at h1; exact absurd h1 (by decide)
      · rintro ⟨i, hi, hgt⟩; exact absurd hgt (not_lt.mpr (hall i hi))
    · exact ⟨fun _ => hall, fun _ => h0⟩
    · intro i hi hgt _; exact absurd hgt (not_lt.mpr (hall i hi))
  · have h1 : s'.fNclust = 1 := by rw [heq]; rfl
    refine ⟨?_, ?_, ?_⟩
    · exact ⟨fun _ => ⟨nmax, hseed.1, hseed.2.1⟩, fun _ => h1⟩
    · constructor
      · intro h0; rw [h1] at h0; exact absurd h0 (by decide)
      · intro hall; exact absurd hseed.2.1 (not_lt.mpr (hall nmax hseed.1))
    · intro i hi hgt hothers
      refine ⟨h1, ?_⟩
      have hni : nmax = i := by
        by_contra hne
        exact absurd hseed.2.1 (not_lt.mpr (hothers nmax hseed.1 hne))
      rw [heq, ← hni]
      simp [withCluster]

/-- C3: when `CoarseProcess` finds a cluster, the seed stored in `fNblk[0]` is a block of
`[0, N)` whose calibrated energy is the maximum over all blocks, and it is the one of lowest
index among the blocks with that energy. -/
theorem C3_seed_is_first_maximum (s s' : Shower) (R C : Nat) (hinit : Init s R C)
    (h : CoarseProcess s = some s') (hc : s'.fNclust = 1) :
    ∃ nmax : Nat, s'.fNblk[0]? = some (nmax : Int) ∧ nmax < s.fNelem.toNat ∧
      (∀ i, i < s.fNelem.toNat → energy s i ≤ energy s nmax) ∧
      (∀ i, i < s.fNelem.toNat → energy s i = energy s nmax → nmax ≤ i) := by
  obtain ⟨nmax, hseed, _, heq⟩ := CoarseProcess_cluster s s' R C hinit h hc
  refine ⟨nmax, by rw [heq]; simp [withCluster], hseed.1, hseed.2.2.1, ?_⟩
  intro i _ hei
  by_contra hlt
  exact absurd hei (ne_of_lt (hseed.2.2.2 i (not_le.mp hlt)))

/-- When `CoarseProcess` finds a cluster with seed `nmax` and only blocks below
65535 have positive calibrated energy, a block `i` other than the seed is a member if and only
if its energy is strictly positive and its row and column distances from the seed
(row = index mod rows, column = index div rows) lie strictly between -2 and 2; the member
list is the same whatever the configured block positions are. -/
theorem member_iff_in_window (s s' : Shower) (R C : Nat) (hinit : Init s R C)
    (h16 : ∀ i, 0 < energy s i → i < 65535)
    (h : CoarseProcess s = some s') (hc : s'.fNclust = 1) :
    ∃ nmax : Nat, IsSeed s nmax ∧ s'.fNblk[0]? = some (nmax : Int) ∧
      (∀ i, i < s.fNelem.toNat → i ≠ nmax →
        ((i : Int) ∈ members s' ↔ (0 < energy s i ∧ inWindow R nmax i))) ∧
      (∀ (bx bY : List ℚ) (t' : Shower),
        CoarseProcess { s with fBlockX := bx, fBlockY := bY } = some t' →
        members t' = members s') := by
  obtain ⟨nmax, hseed, _, heq⟩ := CoarseProcess_cluster s s' R C hinit h hc
  have hm := members_withCluster s nmax
  rw [← heq] at hm
  refine ⟨nmax, hseed, by rw [heq]; simp [withCluster], ?_, ?_⟩
  · intro i hi hne
    rw [hm]
    have hcast : (i : Int) ∈ (nmax : Int) :: (surround s nmax).map (fun (j : Nat) => (j : Int))
        ↔ i ∈ surround s nmax := by
      simp only [List.mem_cons, List.mem_map]
      constructor
      · rintro (h1 | ⟨j, hj, hji⟩)
        · exact absurd (by exact_mod_cast h1) hne
        · have : j = i := by exact_mod_cast hji
          exact this ▸ hj
      · intro h1; exact Or.inr ⟨i, h1, rfl⟩
    rw [hcast, mem_surround]
    constructor
    · rintro ⟨_, hsur⟩
      have hpos : 0 < energy s i := by
        rw [isSurround_eq_true] at hsur; exact hsur.1.1
      have hn16 : nmax < 65535 := h16 nmax (lt_of_lt_of_le hpos (hseed.2.2.1 i hi))
      have := (isSurround_iff_inWindow s R hinit.nrows nmax i hn16 (h16 i hpos) _).mp hsur
      exact ⟨this.1, this.2.2⟩
    · rintro ⟨hpos, hwin⟩
      have hn16 : nmax < 65535 := h16 nmax (lt_of_lt_of_le hpos (hseed.2.2.1 i hi))
      exact ⟨hi, (isSurround_iff_inWindow s R hinit.nrows nmax i hn16 (h16 i hpos) _).mpr
        ⟨hpos, hne, hwin⟩⟩
  · intro bx bY t' ht
    obtain ⟨_, hcase⟩ := CoarseProcess_spec { s with fBlockX := bx, fBlockY := bY } t'
      hinit.cap_le ht
    rcases hcase with ⟨hall, _⟩ | ⟨n2, hseed2, _, _, _, heq2⟩
    · exact absurd hseed.2.1 (not_lt.mpr (hall nmax hseed.1))
    · have hn : n2 = nmax := IsSeed_unique s n2 nmax hseed2 hseed
      rw [heq2, hm, hn]
      exact members_withCluster { s with fBlockX := bx, fBlockY := bY } nmax

/-- C6: when `CoarseProcess` finds a cluster, the cluster energy `fE` is the sum of the
recorded member energies `fEblk[0..fMult-1]`, each recorded energy is the calibrated energy
of the block recorded at the same position of `fNblk`, the recorded blocks are blocks of
`[0, N)`, and they are pairwise distinct. -/
theorem C6_energy_is_member_sum (s s' : Shower) (R C : Nat) (hinit : Init s R C)
    (h : CoarseProcess s = some s') (hc : s'.fNclust = 1) :
    s'.fE = (memberEnergies s').sum ∧
    memberEnergies s' = (members s').map (fun k => energy s' k.toNat) ∧
    s'.fA_c = s.fA_c ∧
    (∀ k ∈ members s', 0 ≤ k ∧ k < s.fNelem) ∧
    (members s').Nodup ∧
    (members s').length = s'.fMult.toNat ∧ (memberEnergies s').length = s'.fMult.toNat := by
  obtain ⟨nmax, hseed, _, heq⟩ := CoarseProcess_cluster s s' R C hinit h hc
  have hm := members_withCluster s nmax
  have he := memberEnergies_withCluster s nmax
  rw [← heq] at hm he
  have hen : energy s' = energy s := by rw [heq]; rfl
  have hmult : s'.fMult.toNat = 1 + (surround s nmax).length := by
    rw [heq]; exact Int.toNat_ofNat _
  refine ⟨?_, ?_, by rw [heq]; rfl, ?_, ?_, ?_, ?_⟩
  · rw [he, heq]; simp [withCluster]
  · rw [he, hm, hen]; simp [List.map_map, Function.comp_def]
  · intro k hk
    rw [hm] at hk
    have hN : (s.fNelem.toNat : Int) = s.fNelem := Int.toNat_of_nonneg (by rw [hinit.nelem]; omega)
    rcases List.mem_cons.mp hk with rfl | hk
    · have := hseed.1; omega
    · obtain ⟨j, hj, rfl⟩ := List.mem_map.mp hk
      have := ((mem_surround s nmax j).mp hj).1
      omega
  · rw [hm]
    have hinj : Function.Injective (fun (i : Nat) => (i : Int)) := fun a b hab => by
      simpa using hab
    have := (List.nodup_cons.mpr ⟨seed_not_mem_surround s nmax, surround_nodup s nmax⟩).map hinj
    simpa using this
  · rw [hm, hmult]; simp [Nat.add_comm]
  · rw [he, hmult]; simp [Nat.add_comm]

theorem memsetZero_full {α : Type} (zero : α) (a : List α) (n : Nat) (hlen : a.length = n)
    (hn : n < 536870912) :
    memsetZero zero a (toInt32 ((n : Int) * 4)) = some (List.replicate n zero) := by
  have h32 : toInt32 ((n : Int) * 4) = (n : Int) * 4 := by unfold toInt32; omega
  have hdiv : ((n : Int) * 4 / 4).toNat = n := by
    rw [Int.mul_ediv_cancel _ (by decide : (4 : Int) ≠ 0)]; exact Int.toNat_ofNat _
  unfold memsetZero
  rw [h32, hdiv]
  have hc : (0 : Int) ≤ (n : Int) * 4 ∧ n ≤ a.length := ⟨by omega, by omega⟩
  rw [if_pos hc, List.drop_of_length_le (by omega), List.append_nil]

/-- On an initialized detector `ClearEvent` returns, with every per-event value zero. -/
theorem ClearEvent_init (s : Shower) (R C : Nat) (hinit : Init s R C) :
    ClearEvent s = some (cleared s (R * C) (min 3 R * min 3 C)) := by
  have hcap : min 3 R * min 3 C < 536870912 := by
    have h1 : min 3 R ≤ 3 := min_le_left _ _
    have h2 : min 3 C ≤ 3 := min_le_left _ _
    calc min 3 R * min 3 C ≤ 3 * 3 := Nat.mul_le_mul h1 h2
      _ < 536870912 := by omega
  have h1 : memsetZero 0 s.fA (toInt32 (s.fNelem * 4)) = some (List.replicate (R * C) 0) := by
    rw [hinit.nelem]; exact memsetZero_full 0 s.fA _ hinit.lenA hinit.small
  have h2 : memsetZero 0 s.fA_p (toInt32 (s.fNelem * 4)) = some (List.replicate (R * C) 0) := by
    rw [hinit.nelem]; exact memsetZero_full 0 s.fA_p _ hinit.lenAp hinit.small
  have h3 : memsetZero 0 s.fA_c (toInt32 (s.fNelem * 4)) = some (List.replicate (R * C) 0) := by
    rw [hinit.nelem]; exact memsetZero_full 0 s.fA_c _ hinit.lenAc hinit.small
  have h4 : memsetZero 0 s.fNblk (toInt32 (s.fNclublk * 4))
      = some (List.replicate (min 3 R * min 3 C) 0) := by
    rw [hinit.nclublk]; exact memsetZero_full 0 s.fNblk _ hinit.lenNblk hcap
  have h5 : memsetZero 0 s.fEblk (toInt32 (s.fNclublk * 4))
      = some (List.replicate (min 3 R * min 3 C) 0) := by
    rw [hinit.nclublk]; exact memsetZero_full 0 s.fEblk _ hinit.lenEblk hcap
  unfold ClearEvent
  simp only [h1, h2, h3, h4, h5]
  rfl

theorem cleared_init (s : Shower) (R C : Nat) (hinit : Init s R C) :
    Init (cleared s (R * C) (min 3 R * min 3 C)) R C where
  rows_pos := hinit.rows_pos
  cols_pos := hinit.cols_pos
  small := hinit.small
  nelem := hinit.nelem
  nrows := hinit.nrows
  nclublk := hinit.nclublk
  lenX := hinit.lenX
  lenY := hinit.lenY
  lenPed := hinit.lenPed
  lenGain := hinit.lenGain
  lenA := List.length_replicate _ _
  lenAp := List.length_replicate _ _
  lenAc := List.length_replicate _ _
  lenNblk := List.length_replicate _ _
  lenEblk := List.length_replicate _ _

theorem DecodeFrame.refl (s : Shower) : DecodeFrame s s := by
  constructor <;> rfl

theorem DecodeFrame.trans {s t u : Shower} (h1 : DecodeFrame s t) (h2 : DecodeFrame t u) :
    DecodeFrame s u where
  fIsInit := h2.fIsInit.trans h1.fIsInit
  fNelem := h2.fNelem.trans h1.fNelem
  fNrows := h2.fNrows.trans h1.fNrows
  fNclublk := h2.fNclublk.trans h1.fNclublk
  fDetMap := h2.fDetMap.trans h1.fDetMap
  fNChan := h2.fNChan.trans h1.fNChan
  fChanMap := h2.fChanMap.trans h1.fChanMap
  fBlockX := h2.fBlockX.trans h1.fBlockX
  fBlockY := h2.fBlockY.trans h1.fBlockY
  fPed := h2.fPed.trans h1.fPed
  fGain := h2.fGain.trans h1.fGain
  fEmin := h2.fEmin.trans h1.fEmin
  fNclust := h2.fNclust.trans h1.fNclust
  fE := h2.fE.trans h1.fE
  fX := h2.fX.trans h1.fX
  fY := h2.fY.trans h1.fY
  fMult := h2.fMult.trans h1.fMult
  fNblk := h2.fNblk.trans h1.fNblk
  fEblk := h2.fEblk.trans h1.fEblk
  lenA := h2.lenA.trans h1.lenA
  lenAp := h2.lenAp.trans h1.lenAp
  lenAc := h2.lenAc.trans h1.lenAc

theorem DecodeFrame.init {s t : Shower} {R C : Nat} (h : DecodeFrame s t) (hinit : Init s R C) :
    Init t R C where
  rows_pos := hinit.rows_pos
  cols_pos := hinit.cols_pos
  small := hinit.small
  nelem := h.fNelem.trans hinit.nelem
  nrows := h.fNrows.trans hinit.nrows
  nclublk := h.fNclublk.trans hinit.nclublk
  lenX := by rw [h.fBlockX]; exact hinit.lenX
  lenY := by rw [h.fBlockY]; exact hinit.lenY
  lenPed := by rw [h.fPed]; exact hinit.lenPed
  lenGain := by rw [h.fGain]; exact hinit.lenGain
  lenA := h.lenA.trans hinit.lenA
  lenAp := h.lenAp.trans hinit.lenAp
  lenAc := h.lenAc.trans hinit.lenAc
  lenNblk := by rw [h.fNblk]; exact hinit.lenNblk
  lenEblk := by rw [h.fEblk]; exact hinit.lenEblk

/-- What `decodeHit` does when it returns: the channel is outside the module's range and
nothing changes; or (with `WITH_DEBUG`) the logical index is invalid and nothing changes; or the
stores of lines 353-360 are made at the logical channel `k` that the channel map gives. -/
theorem decodeHit_spec (withDebug : Bool) (ev : THaEvData) (i : Nat) (d : Module)
    (s t : Shower) (chan : Int) (h : decodeHit withDebug ev i d s chan = some t) :
    ((chan > d.hi ∨ chan < d.lo) ∧ t = s) ∨
    (∃ (row : List UShort_t) (e : UShort_t),
      d.lo ≤ chan ∧ chan ≤ d.hi ∧ s.fChanMap[i]? = some row ∧
      readAt row (chan - d.lo) = some e ∧ withDebug = true ∧
      ((e.val : Int) - 1 < 0 ∨ (e.val : Int) - 1 ≥ s.fNelem) ∧ t = s) ∨
    ∃ (row : List UShort_t) (e : UShort_t) (k : Nat) (ped gain : ℚ),
      d.lo ≤ chan ∧ chan ≤ d.hi ∧ s.fChanMap[i]? = some row ∧
      readAt row (chan - d.lo) = some e ∧ (e.val : Int) - 1 = (k : Int) ∧
      (withDebug = true → (k : Int) < s.fNelem) ∧
      k < s.fA.length ∧ k < s.fA_p.length ∧ k < s.fA_c.length ∧
      s.fPed[k]? = some ped ∧ s.fGain[k]? = some gain ∧
      t = { s with
        fA := s.fA.set k ((ev.data d.crate d.slot chan : Int) : ℚ)
        fA_p := s.fA_p.set k (((ev.data d.crate d.slot chan : Int) : ℚ) - ped)
        fA_c := s.fA_c.set k ((((ev.data d.crate d.slot chan : Int) : ℚ) - ped) * gain)
        fAsum_p := if ((ev.data d.crate d.slot chan : Int) : ℚ) - ped > 0
          then s.fAsum_p + (((ev.data d.crate d.slot chan : Int) : ℚ) - ped) else s.fAsum_p
        fAsum_c := if (((ev.data d.crate d.slot chan : Int) : ℚ) - ped) * gain > 0
          then s.fAsum_c + (((ev.data d.crate d.slot chan : Int) : ℚ) - ped) * gain
          else s.fAsum_c
        fNhits := s.fNhits + 1 } := by
  unfold decodeHit at h
  by_cases hr : chan > d.hi ∨ chan < d.lo
  · simp only [hr, if_true, Option.some.injEq] at h
    exact Or.inl ⟨hr, h.symm⟩
  · simp only [hr, if_false] at h
    have hlo : d.lo ≤ chan := by omega
    have hhi : chan ≤ d.hi := by omega
    cases hrow : s.fChanMap[i]? with
    | none => simp [hrow] at h
    | some row =>
      simp only [hrow] at h
      cases he : readAt row (chan - d.lo) with
      | none => simp [he] at h
      | some e =>
        simp only [he] at h
        by_cases hdbg : withDebug = true ∧ ((e.val : Int) - 1 < 0 ∨ (e.val : Int) - 1 ≥ s.fNelem)
        · simp only [hdbg, and_self, if_true, Option.some.injEq] at h
          exact Or.inr (Or.inl ⟨row, e, hlo, hhi, rfl, he, hdbg.1, hdbg.2, h.symm⟩)
        · rw [if_neg hdbg] at h
          cases hw : writeAt s.fA ((e.val : Int) - 1) ((ev.data d.crate d.slot chan : Int) : ℚ) with
          | none => simp [hw] at h
          | some a =>
            cases hp : readAt s.fPed ((e.val : Int) - 1) with
            | none => simp [hw, hp] at h
            | some ped =>
              cases hg : readAt s.fGain ((e.val : Int) - 1) with
              | none => simp [hw, hp, hg] at h
              | some gain =>
                simp only [hw, hp, hg] at h
                cases hwp : writeAt s.fA_p ((e.val : Int) - 1)
                    (((ev.data d.crate d.slot chan : Int) : ℚ) - ped) with
                | none => simp [hwp] at h
                | some ap =>
                  cases hwc : writeAt s.fA_c ((e.val : Int) - 1)
                      ((((ev.data d.crate d.slot chan : Int) : ℚ) - ped) * gain) with
                  | none => simp [hwp, hwc] at h
                  | some ac =>
                    simp only [hwp, hwc, Option.some.injEq] at h
                    obtain ⟨hk0, h1, e1⟩ := writeAt_eq_some _ _ _ _ hw
                    obtain ⟨_, h2, e2⟩ := writeAt_eq_some _ _ _ _ hwp
                    obtain ⟨_, h3, e3⟩ := writeAt_eq_some _ _ _ _ hwc
                    have hk : (e.val : Int) - 1 = ((((e.val : Int) - 1).toNat : Nat) : Int) :=
                      (Int.toNat_of_nonneg hk0).symm
                    right; right
                    refine ⟨row, e, ((e.val : Int) - 1).toNat, ped, gain, hlo, hhi,
                      rfl, he, hk, ?_, h1, h2, h3, ?_, ?_, ?_⟩
                    · intro hd
                      by_contra hge
                      exact hdbg ⟨hd, Or.inr (by omega)⟩
                    · simpa [readAt, hk0] using hp
                    · simpa [readAt, hk0] using hg
                    · rw [← h, e1, e2, e3]

theorem decodeHit_frame (withDebug : Bool) (ev : THaEvData) (i : Nat) (d : Module)
    (s t : Shower) (chan : Int) (h : decodeHit withDebug ev i d s chan = some t) :
    DecodeFrame s t := by
  rcases decodeHit_spec withDebug ev i d s t chan h with ⟨_, heq⟩ |
    ⟨_, _, _, _, _, _, _, _, heq⟩ |
    ⟨_, _, _, _, _, _, _, _, _, _, _, _, _, _, _, _, heq⟩
  · rw [heq]; exact DecodeFrame.refl s
  · rw [heq]; exact DecodeFrame.refl s
  · rw [heq]
    constructor <;> first | rfl | simp

theorem forLoop_frame {ι : Type} (body : Shower → ι → Option Shower)
    (hbody : ∀ s i t, body s i = some t → DecodeFrame s t) (l : List ι) (s t : Shower)
    (h : forLoop body s l = some t) : DecodeFrame s t :=
  forLoop_inv body (fun u => DecodeFrame s u)
    (fun u i u' hu hb => hu.trans (hbody u i u' hb)) l s t (DecodeFrame.refl s) h

theorem decodeModule_frame (withDebug : Bool) (ev : THaEvData) (s : Shower) (id : Nat × Module)
    (t : Shower) (h : decodeModule withDebug ev s id = some t) : DecodeFrame s t :=
  forLoop_frame _ (fun u c u' hu => decodeHit_frame withDebug ev id.1 id.2 u u' c hu) _ s t h

/-- `Decode` on an initialized detector, when it returns: the result differs from the cleared
state only in the hit count, the per-channel arrays and the two sums. -/
theorem Decode_frame (withDebug : Bool) (s t : Shower) (ev : THaEvData) (R C : Nat)
    (hinit : Init s R C) (h : Decode withDebug s ev = some t) :
    DecodeFrame (cleared s (R * C) (min 3 R * min 3 C)) t ∧ Init t R C := by
  unfold Decode at h
  rw [ClearEvent_init s R C hinit] at h
  have hf := forLoop_frame _ (fun u id u' hu => decodeModule_frame withDebug ev u id u' hu) _ _ t h
  exact ⟨hf, hf.init (cleared_init s R C hinit)⟩

theorem demoDecoded_init : Init demoDecoded 3 4 := by
  constructor <;> decide

theorem demo_decode : Decode false demoShower demoEvent = some demoDecoded := by
  decide!

theorem demo_cluster : CoarseProcess demoDecoded = some demoClustered := by
  decide!

/-- Witness of C2 on the 3 by 4 detector `demoDecoded`. -/
theorem C2_witness :
    Init demoDecoded 3 4 ∧ CoarseProcess demoDecoded = some demoClustered ∧
    ((demoClustered.fNclust = 1 ↔
        ∃ i, i < demoDecoded.fNelem.toNat ∧ demoDecoded.fEmin < energy demoDecoded i) ∧
     (demoClustered.fNclust = 0 ↔
        ∀ i, i < demoDecoded.fNelem.toNat → energy demoDecoded i ≤ demoDecoded.fEmin) ∧
     (∀ i, i < demoDecoded.fNelem.toNat → demoDecoded.fEmin < energy demoDecoded i →
        (∀ j, j < demoDecoded.fNelem.toNat → j ≠ i →
          energy demoDecoded j ≤ demoDecoded.fEmin) →
        demoClustered.fNclust = 1 ∧ demoClustered.fNblk[0]? = some (i : Int))) :=
  ⟨demoDecoded_init, demo_cluster,
    C2_cluster_iff_above_threshold demoDecoded demoClustered 3 4 demoDecoded_init demo_cluster⟩

/-- Witness of C3 on the 3 by 4 detector `demoDecoded`. -/
theorem C3_witness :
    Init demoDecoded 3 4 ∧ CoarseProcess demoDecoded = some demoClustered ∧
    demoClustered.fNclust = 1 ∧
    ∃ nmax : Nat, demoClustered.fNblk[0]? = some (nmax : Int) ∧
      nmax < demoDecoded.fNelem.toNat ∧
      (∀ i, i < demoDecoded.fNelem.toNat → energy demoDecoded i ≤ energy demoDecoded nmax) ∧
      (∀ i, i < demoDecoded.fNelem.toNat →
        energy demoDecoded i = energy demoDecoded nmax → nmax ≤ i) :=
  ⟨demoDecoded_init, demo_cluster, by decide,
    C3_seed_is_first_maximum demoDecoded demoClustered 3 4 demoDecoded_init demo_cluster
      (by decide)⟩

/-- Witness of C6 on the 3 by 4 detector `demoDecoded`. -/
theorem C6_witness :
    Init demoDecoded 3 4 ∧ CoarseProcess demoDecoded = some demoClustered ∧
    demoClustered.fNclust = 1 ∧
    (demoClustered.fE = (memberEnergies demoClustered).sum ∧
     memberEnergies demoClustered
       = (members demoClustered).map (fun k => energy demoClustered k.toNat) ∧
     demoClustered.fA_c = demoDecoded.fA_c ∧
     (∀ k ∈ members demoClustered, 0 ≤ k ∧ k < demoDecoded.fNelem) ∧
     (members demoClustered).Nodup ∧
     (members demoClustered).length = demoClustered.fMult.toNat ∧
     (memberEnergies demoClustered).length = demoClustered.fMult.toNat) :=
  ⟨demoDecoded_init, demo_cluster, by decide,
    C6_energy_is_member_sum demoDecoded demoClustered 3 4 demoDecoded_init demo_cluster
      (by decide)⟩

theorem forLoop_noop {σ ι : Type} (body : σ → ι → Option σ) (l : List ι) (st : σ)
    (h : ∀ x ∈ l, ∀ u, body u x = some u) : forLoop body st l = some st := by
  induction l with
  | nil => rfl
  | cons a l ih =>
    simp only [forLoop, h a (List.mem_cons_self a l) st]
    exact ih (fun x hx => h x (List.mem_cons_of_mem a hx))

theorem forLoop_congr {σ ι : Type} (f g : σ → ι → Option σ) (l : List ι)
    (h : ∀ x ∈ l, ∀ u, f u x = g u x) (st : σ) : forLoop f st l = forLoop g st l := by
  induction l generalizing st with
  | nil => rfl
  | cons a l ih =>
    simp only [forLoop, h a (List.mem_cons_self a l) st]
    cases g st a with
    | none => rfl
    | some u => exact ih (fun x hx => h x (List.mem_cons_of_mem a hx)) u

theorem forLoop_filter {σ ι : Type} (body : σ → ι → Option σ) (p : ι → Bool) (l : List ι)
    (h : ∀ x ∈ l, p x = false → ∀ u, body u x = some u) (st : σ) :
    forLoop body st (l.filter p) = forLoop body st l := by
  induction l generalizing st with
  | nil => rfl
  | cons a l ih =>
    have ih' := ih (fun x hx => h x (List.mem_cons_of_mem a hx))
    by_cases hp : p a = true
    · rw [List.filter_cons_of_pos hp]
      simp only [forLoop]
      cases body st a with
      | none => rfl
      | some u => exact ih' u
    · have hpf : p a = false := by simpa using hp
      rw [List.filter_cons_of_neg hp, ih' st]
      simp only [forLoop, h a (List.mem_cons_self a l) hpf st]

theorem energy_cleared (s : Shower) (n c i : Nat) : energy (cleared s n c) i = 0 := by
  show (List.replicate n (0 : ℚ)).getD i 0 = 0
  rw [List.getD_eq_getElem?_getD, List.getElem?_replicate]
  split <;> rfl

theorem surround_sum_nonneg (s : Shower) (nmax : Nat) :
    0 ≤ ((surround s nmax).map (energy s)).sum := by
  apply List.sum_nonneg
  intro x hx
  obtain ⟨i, hi, rfl⟩ := List.mem_map.mp hx
  have hsur := ((mem_surround s nmax i).mp hi).2
  rw [isSurround_eq_true] at hsur
  exact le_of_lt hsur.1.1

/-! ## The decoder -/

/-- C7: after `Decode` followed by `CoarseProcess`, if a cluster exists the seed is member 0
(`fNblk[0]` is the seed and `fEblk[0]` its energy), the total energy `fE` is at least the seed
energy and `fMult` is at least 1; if no block exceeds the threshold then `fNclust = 0`,
`fMult = 0` and `fE = 0`. -/
theorem C7_cluster_record_invariant (withDebug : Bool) (s s1 s2 : Shower) (ev : THaEvData)
    (R C : Nat) (hinit : Init s R C) (hd : Decode withDebug s ev = some s1)
    (hc : CoarseProcess s1 = some s2) :
    (s2.fNclust = 1 →
      ∃ nmax : Nat, IsSeed s1 nmax ∧ s2.fNblk[0]? = some (nmax : Int) ∧
        s2.fEblk[0]? = some (energy s1 nmax) ∧ energy s1 nmax ≤ s2.fE ∧ 1 ≤ s2.fMult) ∧
    ((∀ i, i < s1.fNelem.toNat → energy s1 i ≤ s1.fEmin) →
      s2.fNclust = 0 ∧ s2.fMult = 0 ∧ s2.fE = 0) ∧
    (s2.fNclust = 0 ∨ s2.fNclust = 1) := by
  obtain ⟨hframe, hinit1⟩ := Decode_frame withDebug s s1 ev R C hinit hd
  obtain ⟨_, hcase⟩ := CoarseProcess_spec s1 s2 hinit1.cap_le hc
  rcases hcase with ⟨hall, heq⟩ | ⟨nmax, hseed, _, _, _, heq⟩
  · have h0 : s2.fNclust = 0 := by rw [heq]
    refine ⟨?_, ?_, Or.inl h0⟩
    · intro h1; rw [h0] at h1; exact absurd h1 (by decide)
    · intro _
      refine ⟨h0, ?_, ?_⟩
      · rw [heq]; exact hframe.fMult
      · rw [heq]; exact hframe.fE
  · have h1 : s2.fNclust = 1 := by rw [heq]; rfl
    refine ⟨?_, ?_, Or.inr h1⟩
    · intro _
      refine ⟨nmax, hseed, by rw [heq]; exact withCluster_fNblk_zero _ _, ?_, ?_, ?_⟩
      · rw [heq]; simp [withCluster]
      · rw [heq]
        show energy s1 nmax ≤ energy s1 nmax + ((surround s1 nmax).map (energy s1)).sum
        have := surround_sum_nonneg s1 nmax
        linarith
      · rw [heq]
        show (1 : Int) ≤ ((1 + (surround s1 nmax).length : Nat) : Int)
        push_cast; omega
    · intro hall
      exact absurd hseed.2.1 (not_lt.mpr (hall nmax hseed.1))

/-- C8 (amended): on an initialized detector whose seed threshold `fEmin` is not negative, for
any event in which every module reports no channel, `Decode` followed by `CoarseProcess`
returns with hit count 0, every per-channel raw, pedestal-subtracted and calibrated value 0,
both sums 0 and cluster count 0. -/
theorem C8_zero_hits (withDebug : Bool) (s : Shower) (ev : THaEvData) (R C : Nat)
    (hinit : Init s R C) (hmin : 0 ≤ s.fEmin)
    (hquiet : ∀ d ∈ s.fDetMap, ev.chans d.crate d.slot = []) :
    ∃ s1 s2, Decode withDebug s ev = some s1 ∧ CoarseProcess s1 = some s2 ∧
      s2.fNhits = 0 ∧ s2.fA = List.replicate (R * C) 0 ∧ s2.fA_p = List.replicate (R * C) 0 ∧
      s2.fA_c = List.replicate (R * C) 0 ∧ s2.fAsum_p = 0 ∧ s2.fAsum_c = 0 ∧
      s2.fNclust = 0 ∧ s2.fMult = 0 ∧ s2.fE = 0 := by
  have hd : Decode withDebug s ev = some (cleared s (R * C) (min 3 R * min 3 C)) := by
    unfold Decode
    rw [ClearEvent_init s R C hinit]
    apply forLoop_noop
    intro id hid u
    have hmem : id.2 ∈ s.fDetMap := List.snd_mem_of_mem_enum hid
    show forLoop _ u (ev.chans id.2.crate id.2.slot) = some u
    rw [hquiet id.2 hmem]
    rfl
  have hinit1 := cleared_init s R C hinit
  have hall : ∀ i, energy (cleared s (R * C) (min 3 R * min 3 C)) i
      ≤ (cleared s (R * C) (min 3 R * min 3 C)).fEmin := by
    intro i; rw [energy_cleared]; exact hmin
  obtain ⟨s2, hs2⟩ := CoarseProcess_isSome _ R C hinit1 (by
    intro nmax hseed
    exact absurd hseed.2.1 (not_lt.mpr (hall nmax)))
  obtain ⟨_, hcase⟩ := CoarseProcess_spec _ s2 hinit1.cap_le hs2
  rcases hcase with ⟨_, heq⟩ | ⟨nmax, hseed, _⟩
  · refine ⟨_, s2, hd, hs2, ?_⟩
    rw [heq]
    exact ⟨rfl, rfl, rfl, rfl, rfl, rfl, rfl, rfl, rfl⟩
  · exact absurd hseed.2.1 (not_lt.mpr (hall nmax))

/-- C8 as stated fails: with the seed threshold -1 the 3 by 4 detector `coldShower` turns an
event without hits into a cluster of energy 0 around block 0 (0 > -1), so the cluster count
is 1. -/
theorem C8_counterexample :
    Init coldShower 3 4 ∧ (∀ d ∈ coldShower.fDetMap, quietEvent.chans d.crate d.slot = []) ∧
    ∃ s1 s2, Decode false coldShower quietEvent = some s1 ∧ CoarseProcess s1 = some s2 ∧
      s2.fNclust = 1 :=
  ⟨by constructor <;> decide, by decide, cleared coldShower 12 9,
    withCluster (cleared coldShower 12 9) 0, by decide!, by decide!, rfl⟩

/-- Witness of C7: `demoShower`, `demoEvent`. -/
theorem C7_witness :
    Init demoShower 3 4 ∧ Decode false demoShower demoEvent = some demoDecoded ∧
    CoarseProcess demoDecoded = some demoClustered ∧
    ((demoClustered.fNclust = 1 →
      ∃ nmax : Nat, IsSeed demoDecoded nmax ∧ demoClustered.fNblk[0]? = some (nmax : Int) ∧
        demoClustered.fEblk[0]? = some (energy demoDecoded nmax) ∧
        energy demoDecoded nmax ≤ demoClustered.fE ∧ 1 ≤ demoClustered.fMult) ∧
    ((∀ i, i < demoDecoded.fNelem.toNat → energy demoDecoded i ≤ demoDecoded.fEmin) →
      demoClustered.fNclust = 0 ∧ demoClustered.fMult = 0 ∧ demoClustered.fE = 0) ∧
    (demoClustered.fNclust = 0 ∨ demoClustered.fNclust = 1)) :=
  ⟨by constructor <;> decide, demo_decode, demo_cluster,
    C7_cluster_record_invariant false demoShower demoDecoded demoClustered demoEvent 3 4
      (by constructor <;> decide) demo_decode demo_cluster⟩

/-- Witness of C8: `demoShower` (threshold 10) and the event without hits. -/
theorem C8_witness :
    Init demoShower 3 4 ∧ 0 ≤ demoShower.fEmin ∧
    (∀ d ∈ demoShower.fDetMap, quietEvent.chans d.crate d.slot = []) ∧
    ∃ s1 s2, Decode false demoShower quietEvent = some s1 ∧ CoarseProcess s1 = some s2 ∧
      s2.fNhits = 0 ∧ s2.fA = List.replicate (3 * 4) 0 ∧ s2.fA_p = List.replicate (3 * 4) 0 ∧
      s2.fA_c = List.replicate (3 * 4) 0 ∧ s2.fAsum_p = 0 ∧ s2.fAsum_c = 0 ∧
      s2.fNclust = 0 ∧ s2.fMult = 0 ∧ s2.fE = 0 :=
  ⟨by constructor <;> decide, by decide, by decide,
    C8_zero_hits false demoShower quietEvent 3 4 (by constructor <;> decide) (by decide)
      (by decide)⟩

/-- C9: a reading that `Decode` accepts (channel `chan` within the range of module `i`, mapped
by the channel map to the logical channel `k = e - 1` with `0 <= k < fNelem`) leaves
`fA[k]` = the raw amplitude, `fA_p[k]` = amplitude - `fPed[k]` and
`fA_c[k]` = `fA_p[k] * fGain[k]`, whatever their sign; the pedestal-subtracted value is added
to `fAsum_p` only if it is strictly positive, the calibrated value to `fAsum_c` only if it is
strictly positive; the hit count grows by one and no other channel changes. -/
theorem C9_accepted_reading (withDebug : Bool) (ev : THaEvData) (i : Nat) (d : Module)
    (s t : Shower) (chan : Int) (row : List UShort_t) (e : UShort_t)
    (h : decodeHit withDebug ev i d s chan = some t)
    (hlo : d.lo ≤ chan) (hhi : chan ≤ d.hi) (hrow : s.fChanMap[i]? = some row)
    (he : readAt row (chan - d.lo) = some e)
    (hk0 : 0 ≤ (e.val : Int) - 1) (hk1 : (e.val : Int) - 1 < s.fNelem) :
    ∃ ped gain : ℚ, s.fPed[e.val - 1]? = some ped ∧ s.fGain[e.val - 1]? = some gain ∧
      t.fA[e.val - 1]? = some ((ev.data d.crate d.slot chan : Int) : ℚ) ∧
      t.fA_p[e.val - 1]? = some (((ev.data d.crate d.slot chan : Int) : ℚ) - ped) ∧
      t.fA_c[e.val - 1]? = some ((((ev.data d.crate d.slot chan : Int) : ℚ) - ped) * gain) ∧
      t.fAsum_p = s.fAsum_p +
        (if 0 < ((ev.data d.crate d.slot chan : Int) : ℚ) - ped
          then ((ev.data d.crate d.slot chan : Int) : ℚ) - ped else 0) ∧
      t.fAsum_c = s.fAsum_c +
        (if 0 < (((ev.data d.crate d.slot chan : Int) : ℚ) - ped) * gain
          then (((ev.data d.crate d.slot chan : Int) : ℚ) - ped) * gain else 0) ∧
      t.fNhits = s.fNhits + 1 ∧
      (∀ j, j ≠ e.val - 1 →
        t.fA[j]? = s.fA[j]? ∧ t.fA_p[j]? = s.fA_p[j]? ∧ t.fA_c[j]? = s.fA_c[j]?) := by
  rcases decodeHit_spec withDebug ev i d s t chan h with ⟨hout, _⟩ |
    ⟨row', e', _, _, hrow', he', _, hbad, _⟩ |
    ⟨row', e', k, ped, gain, _, _, hrow', he', hk, _, h1, h2, h3, hp, hg, heq⟩
  · omega
  · rw [hrow] at hrow'
    have hr : row = row' := Option.some.inj hrow'
    rw [hr, he'] at he
    have hee : e' = e := Option.some.inj he
    rw [hee] at hbad
    omega
  · rw [hrow] at hrow'
    have hr : row = row' := Option.some.inj hrow'
    rw [hr, he'] at he
    have hee : e' = e := Option.some.inj he
    rw [hee] at hk
    have hkn : e.val - 1 = k := by omega
    rw [hkn]
    refine ⟨ped, gain, hp, hg, ?_, ?_, ?_, ?_, ?_, ?_, ?_⟩
    · rw [heq]; simp [h1]
    · rw [heq]; simp [h2]
    · rw [heq]; simp [h3]
    · rw [heq]
      show (if ((ev.data d.crate d.slot chan : Int) : ℚ) - ped > 0
          then s.fAsum_p + (((ev.data d.crate d.slot chan : Int) : ℚ) - ped) else s.fAsum_p) = _
      split <;> simp
    · rw [heq]
      show (if (((ev.data d.crate d.slot chan : Int) : ℚ) - ped) * gain > 0
          then s.fAsum_c + (((ev.data d.crate d.slot chan : Int) : ℚ) - ped) * gain
          else s.fAsum_c) = _
      split <;> simp
    · rw [heq]
    · intro j hj
      rw [heq]
      have hjk : k ≠ j := fun h' => hj h'.symm
      simp [List.getElem?_set, hjk]

/-- C10: reported channels that lie outside the `[lo, hi]` range of every module that reads
their crate and slot change nothing: `Decode` of the event without them (`dropHits`) equals
`Decode` of the event, and the loop body leaves the state as it is on such a channel. -/
theorem C10_out_of_range_ignored (withDebug : Bool) (s : Shower) (ev : THaEvData)
    (bad : Int → Int → Int → Bool)
    (hbad : ∀ d ∈ s.fDetMap, ∀ chan, bad d.crate d.slot chan = true →
      chan > d.hi ∨ chan < d.lo) :
    Decode withDebug s (dropHits ev bad) = Decode withDebug s ev ∧
    (∀ (i : Nat) (d : Module) (u : Shower) (chan : Int), (chan > d.hi ∨ chan < d.lo) →
      decodeHit withDebug ev i d u chan = some u) := by
  have hskip : ∀ (i : Nat) (d : Module) (u : Shower) (chan : Int),
      (chan > d.hi ∨ chan < d.lo) → decodeHit withDebug ev i d u chan = some u := by
    intro i d u chan hout
    unfold decodeHit
    rw [if_pos hout]
  refine ⟨?_, hskip⟩
  unfold Decode
  cases ClearEvent s with
  | none => rfl
  | some s0 =>
    show forLoop (decodeModule withDebug (dropHits ev bad)) s0 s.fDetMap.enum
      = forLoop (decodeModule withDebug ev) s0 s.fDetMap.enum
    apply forLoop_congr
    intro id hid u
    have hmem : id.2 ∈ s.fDetMap := List.snd_mem_of_mem_enum hid
    show forLoop (decodeHit withDebug ev id.1 id.2) u
        ((ev.chans id.2.crate id.2.slot).filter (fun chan => !bad id.2.crate id.2.slot chan))
      = forLoop (decodeHit withDebug ev id.1 id.2) u (ev.chans id.2.crate id.2.slot)
    apply forLoop_filter
    intro chan _ hp v
    have hb : bad id.2.crate id.2.slot chan = true := by simpa using hp
    exact hskip id.1 id.2 v chan (hbad id.2 hmem chan hb)

theorem demo_first_hit :
    decodeHit false demoEvent 0 ⟨1, 2, 0, 11⟩ (cleared demoShower 12 9) 4
      = some demoFirstHit := by
  decide!

/-- Witness of C9: the first hit of `demoEvent` (channel 4, amplitude 100, logical channel
`5 - 1`) on the cleared `demoShower`. -/
theorem C9_witness :
    decodeHit false demoEvent 0 ⟨1, 2, 0, 11⟩ (cleared demoShower 12 9) 4
      = some demoFirstHit ∧
    (cleared demoShower 12 9).fChanMap[0]? = some [1, 2, 3, 4, 5, 6, 7, 8, 9, 10, 11, 12] ∧
    readAt ([1, 2, 3, 4, 5, 6, 7, 8, 9, 10, 11, 12] : List UShort_t) (4 - 0) = some 5 ∧
    ∃ ped gain : ℚ, (cleared demoShower 12 9).fPed[(5 : UShort_t).val - 1]? = some ped ∧
      (cleared demoShower 12 9).fGain[(5 : UShort_t).val - 1]? = some gain ∧
      demoFirstHit.fA[(5 : UShort_t).val - 1]? = some ((demoEvent.data 1 2 4 : Int) : ℚ) ∧
      demoFirstHit.fA_p[(5 : UShort_t).val - 1]?
        = some (((demoEvent.data 1 2 4 : Int) : ℚ) - ped) ∧
      demoFirstHit.fA_c[(5 : UShort_t).val - 1]?
        = some ((((demoEvent.data 1 2 4 : Int) : ℚ) - ped) * gain) ∧
      demoFirstHit.fAsum_p = (cleared demoShower 12 9).fAsum_p +
        (if 0 < ((demoEvent.data 1 2 4 : Int) : ℚ) - ped
          then ((demoEvent.data 1 2 4 : Int) : ℚ) - ped else 0) ∧
      demoFirstHit.fAsum_c = (cleared demoShower 12 9).fAsum_c +
        (if 0 < (((demoEvent.data 1 2 4 : Int) : ℚ) - ped) * gain
          then (((demoEvent.data 1 2 4 : Int) : ℚ) - ped) * gain else 0) ∧
      demoFirstHit.fNhits = (cleared demoShower 12 9).fNhits + 1 ∧
      (∀ j, j ≠ (5 : UShort_t).val - 1 →
        demoFirstHit.fA[j]? = (cleared demoShower 12 9).fA[j]? ∧
        demoFirstHit.fA_p[j]? = (cleared demoShower 12 9).fA_p[j]? ∧
        demoFirstHit.fA_c[j]? = (cleared demoShower 12 9).fA_c[j]?) :=
  ⟨demo_first_hit, by decide, by decide,
    C9_accepted_reading false demoEvent 0 ⟨1, 2, 0, 11⟩ (cleared demoShower 12 9)
      demoFirstHit 4 [1, 2, 3, 4, 5, 6, 7, 8, 9, 10, 11, 12] 5 demo_first_hit (by decide)
      (by decide) (by decide) (by decide) (by decide) (by decide)⟩

/-- Witness of C10: channel 99 of `demoEvent` is outside the range 0..11 of the module. -/
theorem C10_witness :
    (∀ d ∈ demoShower.fDetMap, ∀ chan,
      (fun (_ _ : Int) (ch : Int) => decide (ch = 99)) d.crate d.slot chan = true →
      chan > d.hi ∨ chan < d.lo) ∧
    Decode false demoShower (dropHits demoEvent (fun _ _ ch => decide (ch = 99)))
      = Decode false demoShower demoEvent :=
  have hbad : ∀ d ∈ demoShower.fDetMap, ∀ chan,
      (fun (_ _ : Int) (ch : Int) => decide (ch = 99)) d.crate d.slot chan = true →
      chan > d.hi ∨ chan < d.lo := by
    intro d hd chan hc
    have hdm : d = ⟨1, 2, 0, 11⟩ := by simpa [demoShower] using hd
    have h99 : chan = 99 := by simpa using hc
    rw [hdm, h99]
    decide
  ⟨hbad, (C10_out_of_range_ignored false demoShower demoEvent _ hbad).1⟩

/-- In a build with `WITH_DEBUG` a reading whose logical index is outside `[0, fNelem)` is
dropped: the loop body returns the state unchanged. -/
theorem decodeHit_debug_drop (ev : THaEvData) (i : Nat) (d : Module) (s : Shower) (chan : Int)
    (row : List UShort_t) (e : UShort_t) (hrow : s.fChanMap[i]? = some row)
    (he : readAt row (chan - d.lo) = some e)
    (hk : (e.val : Int) - 1 < 0 ∨ (e.val : Int) - 1 ≥ s.fNelem) :
    decodeHit true ev i d s chan = some s := by
  unfold decodeHit
  by_cases hr : chan > d.hi ∨ chan < d.lo
  · rw [if_pos hr]
  · rw [if_neg hr]
    simp only [hrow, he]
    rw [if_pos ⟨trivial, hk⟩]

/-- C11 fails in a build without `WITH_DEBUG`: on `gapShower`, whose channel map leaves the
in-range hardware channel 4 unmapped (entry 0, logical index -1), the loop body stores
`fA[-1]`, outside the array, and `Decode` of `demoEvent` has no defined result; only with
`WITH_DEBUG` is the reading dropped and the remaining hits decoded. -/
theorem C11_unguarded_store :
    decodeHit false demoEvent 0 ⟨1, 2, 0, 11⟩ (cleared gapShower 12 9) 4 = none ∧
    Decode false gapShower demoEvent = none ∧
    decodeHit true demoEvent 0 ⟨1, 2, 0, 11⟩ (cleared gapShower 12 9) 4
      = some (cleared gapShower 12 9) ∧
    Decode true gapShower demoEvent = some gapDecoded := by
  refine ⟨by decide!, by decide!, by decide!, by decide!⟩

/-! ## ReadDatabase -/

theorem forLoop_fixed {σ ι : Type} (body : σ → ι → Option σ) (l : List ι) (st : σ)
    (h : ∀ x ∈ l, body st x = some st) : forLoop body st l = some st := by
  induction l with
  | nil => rfl
  | cons a l ih =>
    simp only [forLoop, h a (List.mem_cons_self a l)]
    exact ih (fun x hx => h x (List.mem_cons_of_mem a hx))

theorem writeAt_same {α : Type} (a : List α) (k : Nat) (v : α) (h : a[k]? = some v) :
    writeAt a (k : Int) v = some a := by
  obtain ⟨hlt, hv⟩ := List.getElem?_eq_some_iff.mp h
  unfold writeAt
  rw [if_pos ⟨by omega, by simpa using hlt⟩]
  congr 1
  apply List.ext_getElem?
  intro n
  simp only [Int.toNat_ofNat]
  by_cases hn : k = n
  · rw [← hn, List.getElem?_set_self hlt, h]
  · rw [List.getElem?_set_ne hn]

theorem writeAt_isSome {α : Type} (a : List α) (k : Nat) (v : α) (h : k < a.length) :
    writeAt a (k : Int) v = some (a.set k v) := by
  unfold writeAt
  rw [if_pos ⟨by omega, by simpa using h⟩]
  simp

/-- What a loop of stores `a[idx p] = val p` leaves in the array `a`, when it returns. -/
theorem storeLoop_spec {α ι : Type} (idx : ι → Nat) (val : ι → α) (l : List ι) :
    ∀ (a a' : List α), forLoop (fun b p => writeAt b ((idx p : Nat) : Int) (val p)) a l = some a' →
      a'.length = a.length ∧ (∀ p ∈ l, idx p < a.length) ∧
      (∀ k : Nat, (∀ p ∈ l, idx p ≠ k) → a'[k]? = a[k]?) ∧
      ((∀ p ∈ l, ∀ q ∈ l, idx p = idx q → val p = val q) →
        ∀ p ∈ l, a'[idx p]? = some (val p)) := by
  induction l with
  | nil =>
    intro a a' h
    simp only [forLoop, Option.some.injEq] at h
    subst h
    exact ⟨rfl, by simp, fun _ _ => rfl, by simp⟩
  | cons p l ih =>
    intro a a' h
    simp only [forLoop] at h
    cases hw : writeAt a ((idx p : Nat) : Int) (val p) with
    | none => simp [hw] at h
    | some a1 =>
      rw [hw] at h
      obtain ⟨_, hlt, ha1⟩ := writeAt_eq_some _ _ _ _ hw
      simp only [Int.toNat_ofNat] at hlt ha1
      obtain ⟨hlen, hin, hframe, hval⟩ := ih a1 a' h
      have hlen1 : a1.length = a.length := by rw [ha1]; simp
      refine ⟨hlen.trans hlen1, ?_, ?_, ?_⟩
      · intro q hq
        rcases List.mem_cons.mp hq with rfl | hq
        · exact hlt
        · rw [← hlen1]; exact hin q hq
      · intro k hk
        rw [hframe k (fun q hq => hk q (List.mem_cons_of_mem p hq)), ha1,
          List.getElem?_set_ne (hk p (List.mem_cons_self p l))]
      · intro hsame q hq
        have hval' := hval (fun x hx y hy => hsame x (List.mem_cons_of_mem p hx) y
          (List.mem_cons_of_mem p hy))
        rcases List.mem_cons.mp hq with rfl | hq
        · by_cases hex : ∃ x ∈ l, idx x = idx q
          · obtain ⟨x, hx, hxp⟩ := hex
            rw [← hxp, hval' x hx,
              hsame x (List.mem_cons_of_mem q hx) q (List.mem_cons_self q l) hxp]
          · have hne : ∀ x ∈ l, idx x ≠ idx q := fun x hx hxe => hex ⟨x, hx, hxe⟩
            rw [hframe (idx q) hne, ha1, List.getElem?_set_self hlt]
        · exact hval' q hq

theorem storeLoop_isSome {α ι : Type} (idx : ι → Nat) (val : ι → α) (l : List ι) :
    ∀ (a : List α), (∀ p ∈ l, idx p < a.length) →
      ∃ a', forLoop (fun b p => writeAt b ((idx p : Nat) : Int) (val p)) a l = some a' := by
  induction l with
  | nil => intro a _; exact ⟨a, rfl⟩
  | cons p l ih =>
    intro a h
    have hp := h p (List.mem_cons_self p l)
    obtain ⟨a', ha'⟩ := ih (a.set (idx p) (val p)) (fun q hq => by
      simpa using h q (List.mem_cons_of_mem p hq))
    exact ⟨a', by simp only [forLoop, writeAt_isSome a (idx p) (val p) hp]; exact ha'⟩

/-- A loop that stores into two arrays in each pass returns if and only if the two loops on
the single arrays return, with their results. -/
theorem forLoop_pair {α β ι : Type} (f : α → ι → Option α) (g : β → ι → Option β)
    (l : List ι) : ∀ (a : α) (b : β) (a' : α) (b' : β),
    forLoop (pairStep f g) (a, b) l = some (a', b') ↔
      (forLoop f a l = some a' ∧ forLoop g b l = some b') := by
  induction l with
  | nil =>
    intro a b a' b'
    simp [forLoop]
  | cons p l ih =>
    intro a b a' b'
    simp only [forLoop, pairStep]
    cases hf : f a p with
    | none => simp
    | some a1 =>
      cases hg : g b p with
      | none => simp
      | some b1 =>
        simp only []
        exact ih a1 b1 a' b'

theorem mulInt_eq_some (a b z : Int) (h : mulInt a b = some z) :
    z = a * b ∧ -2147483648 ≤ a * b ∧ a * b ≤ 2147483647 := by
  unfold mulInt at h
  split at h
  · rename_i hc
    simp only [Option.some.injEq] at h
    exact ⟨h.symm, hc.1, hc.2⟩
  · simp at h

/-- What a successful `ReadDatabase` has done. -/
theorem ReadDatabase_ok (kDetMapSize : Nat) (s s1 : Shower) (db : Database)
    (h : ReadDatabase kDetMapSize s (some db) = some (EStatus.kOK, s1)) :
    ∃ (rows : List (List UShort_t)) (base : Shower) (ped gain bx bY : List ℚ),
      mulInt db.ncols db.nrows = some (db.ncols * db.nrows) ∧
      mulInt (min 3 db.nrows) (min 3 db.ncols) = some (min 3 db.nrows * min 3 db.ncols) ∧
      ¬ (s.fIsInit = true ∧ (db.ncols * db.nrows ≠ s.fNelem ∨
          min 3 db.nrows * min 3 db.ncols ≠ s.fNclublk)) ∧
      ¬ (db.nrows ≤ 0 ∨ db.ncols ≤ 0 ∨ min 3 db.nrows * min 3 db.ncols ≤ 0) ∧
      ¬ (kDetMapSize < db.modules.length) ∧ ¬ (db.modules.length = 0) ∧
      ¬ ((db.modules.any (fun d => decide (nChan d = 0))) = true) ∧
      readChanMap (db.modules.map (fun d => (nChan d).val)) db.chanMap = some rows ∧
      base = (if s.fIsInit = true then withHeader s db rows
              else allocate (withHeader s db rows)) ∧
      forLoop (readValues db.peds) base.fPed (List.range (db.ncols * db.nrows).toNat)
        = some ped ∧
      forLoop (readValues db.gains) base.fGain (List.range (db.ncols * db.nrows).toNat)
        = some gain ∧
      forLoop (positionStep db.nrows db.x db.y db.dx db.dy) (base.fBlockX, base.fBlockY)
        (cells db.ncols.toNat db.nrows.toNat) = some (bx, bY) ∧
      s1 = withCalibration base db ped gain bx bY := by
  unfold ReadDatabase at h
  simp only [] at h
  cases hm1 : mulInt db.ncols db.nrows with
  | none => simp [hm1] at h
  | some nelem =>
    cases hm2 : mulInt (min 3 db.nrows) (min 3 db.ncols) with
    | none => simp [hm1, hm2] at h
    | some nclbl =>
      obtain ⟨e1, _, _⟩ := mulInt_eq_some _ _ _ hm1
      obtain ⟨e2, _, _⟩ := mulInt_eq_some _ _ _ hm2
      subst e1 e2
      simp only [hm1, hm2] at h
      by_cases c1 : s.fIsInit = true ∧ (db.ncols * db.nrows ≠ s.fNelem ∨
          min 3 db.nrows * min 3 db.ncols ≠ s.fNclublk)
      · rw [if_pos c1] at h; simp at h
      · rw [if_neg c1] at h
        by_cases c2 : db.nrows ≤ 0 ∨ db.ncols ≤ 0 ∨ min 3 db.nrows * min 3 db.ncols ≤ 0
        · rw [if_pos c2] at h; simp at h
        · rw [if_neg c2] at h
          by_cases c3 : kDetMapSize < db.modules.length
          · rw [if_pos c3] at h; simp at h
          · rw [if_neg c3] at h
            by_cases c4 : db.modules.length = 0
            · rw [if_pos c4] at h; simp at h
            · rw [if_neg c4] at h
              by_cases c5 : (db.modules.any (fun d => decide (nChan d = 0))) = true
              · rw [if_pos c5] at h; simp at h
              · rw [if_neg c5] at h
                cases hrows : readChanMap (db.modules.map (fun d => (nChan d).val)) db.chanMap with
                | none => simp [hrows] at h
                | some rows =>
                  simp only [hrows] at h
                  split at h
                  · rename_i ped gain bx bY hp hg hb
                    simp only [Option.some.injEq, Prod.mk.injEq, true_and] at h
                    exact ⟨rows, _, ped, gain, bx, bY, rfl, rfl, c1, c2, c3, c4, c5, rfl, rfl,
                      hp, hg, hb, h.symm⟩
                  · simp at h

theorem idx_recover (R c r : Nat) (hr : r < R) : (R * c + r) % R = r ∧ (R * c + r) / R = c := by
  have hR : 0 < R := by omega
  constructor
  · rw [Nat.mul_add_mod]; exact Nat.mod_eq_of_lt hr
  · rw [Nat.mul_add_div hR, Nat.div_eq_of_lt hr, Nat.add_zero]

theorem mem_cells (C R c r : Nat) : (c, r) ∈ cells C R ↔ c < C ∧ r < R := by
  simp only [cells, List.mem_flatMap, List.mem_range, List.mem_map, Prod.mk.injEq]
  constructor
  · rintro ⟨c', hc', r', hr', h1, h2⟩
    subst h1 h2
    exact ⟨hc', hr'⟩
  · rintro ⟨hc, hr⟩
    exact ⟨c, hc, r, hr, rfl, rfl⟩

theorem readValues_loop (vals : List ℚ) (l : List Nat) :
    ∀ (a a' : List ℚ), forLoop (readValues vals) a l = some a' →
      (∀ j ∈ l, j < vals.length) ∧
      forLoop (fun b j => writeAt b ((j : Nat) : Int) (vals.getD j 0)) a l = some a' := by
  induction l with
  | nil => intro a a' h; exact ⟨by simp, h⟩
  | cons j l ih =>
    intro a a' h
    simp only [forLoop, readValues] at h
    cases hv : vals[j]? with
    | none => simp [hv] at h
    | some v =>
      simp only [hv] at h
      have hj : j < vals.length := (List.getElem?_eq_some_iff.mp hv).1
      have hd : vals.getD j 0 = v := getD_of_getElem? hv
      cases hw : writeAt a (j : Int) v with
      | none => simp [hw] at h
      | some a1 =>
        rw [hw] at h
        obtain ⟨h1, h2⟩ := ih a1 a' h
        refine ⟨?_, ?_⟩
        · intro i hi
          rcases List.mem_cons.mp hi with rfl | hi
          · exact hj
          · exact h1 i hi
        · simp only [forLoop, hd, hw]
          exact h2

/-- The loops of lines 206-210, when they return: the first `n` entries are the first `n`
values of the file, the others are as before. -/
theorem readValues_spec (vals a a' : List ℚ) (n : Nat)
    (h : forLoop (readValues vals) a (List.range n) = some a') :
    a'.length = a.length ∧ n ≤ a.length ∧ n ≤ vals.length ∧
    (∀ j, j < n → a'[j]? = vals[j]?) ∧ (∀ j, n ≤ j → a'[j]? = a[j]?) := by
  obtain ⟨hv, hl⟩ := readValues_loop vals _ a a' h
  obtain ⟨hlen, hin, hframe, hval⟩ := storeLoop_spec (fun j : Nat => j)
    (fun j => vals.getD j 0) _ a a' hl
  have hvn : n ≤ vals.length := by
    cases n with
    | zero => omega
    | succ m => have := hv m (List.mem_range.mpr (by omega)); omega
  have han : n ≤ a.length := by
    cases n with
    | zero => omega
    | succ m => have := hin m (List.mem_range.mpr (by omega)); omega
  refine ⟨hlen, han, hvn, ?_, ?_⟩
  · intro j hj
    have hjv : j < vals.length := by omega
    rw [hval (fun p _ q _ hpq => by rw [hpq]) j (List.mem_range.mpr hj),
      List.getElem?_eq_getElem hjv]
    congr 1
    simp [List.getD, List.getElem?_eq_getElem hjv]
  · intro j hj
    apply hframe
    intro p hp hpj
    have := List.mem_range.mp hp
    omega

theorem positionStep_eq (R : Nat) (x y dx dy : ℚ) :
    positionStep (R : Int) x y dx dy =
      pairStep
        (fun b (p : Nat × Nat) => writeAt b ((R * p.1 + p.2 : Nat) : Int) (x + (p.2 : ℚ) * dx))
        (fun b (p : Nat × Nat) => writeAt b ((R * p.1 + p.2 : Nat) : Int)
          (y + (p.1 : ℚ) * dy)) := by
  funext st cr
  simp only [positionStep, pairStep, Nat.cast_add, Nat.cast_mul]
  cases writeAt st.1 ((R : Int) * (cr.1 : Int) + (cr.2 : Int)) (x + (cr.2 : ℚ) * dx) <;>
    cases writeAt st.2 ((R : Int) * (cr.1 : Int) + (cr.2 : Int)) (y + (cr.1 : ℚ) * dy) <;> rfl

/-- The loop nest of lines 214-220, when it returns: block `R*c + r` has the position
`(x + r*dx, y + c*dy)`, the entries from `R*C` on are as before. -/
theorem positions_spec (R C : Nat) (x y dx dy : ℚ) (X Y X' Y' : List ℚ)
    (h : forLoop (positionStep (R : Int) x y dx dy) (X, Y) (cells C R) = some (X', Y')) :
    X'.length = X.length ∧ Y'.length = Y.length ∧
    (∀ c r, c < C → r < R →
      R * c + r < X.length ∧ R * c + r < Y.length ∧
      X'[R * c + r]? = some (x + (r : ℚ) * dx) ∧ Y'[R * c + r]? = some (y + (c : ℚ) * dy)) := by
  rw [positionStep_eq, forLoop_pair] at h
  obtain ⟨hX, hY⟩ := h
  obtain ⟨hlx, hinx, _, hvx⟩ := storeLoop_spec (fun p : Nat × Nat => R * p.1 + p.2)
    (fun p => x + (p.2 : ℚ) * dx) _ X X' hX
  obtain ⟨hly, hiny, _, hvy⟩ := storeLoop_spec (fun p : Nat × Nat => R * p.1 + p.2)
    (fun p => y + (p.1 : ℚ) * dy) _ Y Y' hY
  have hsame : ∀ p ∈ cells C R, ∀ q ∈ cells C R,
      R * p.1 + p.2 = R * q.1 + q.2 → p = q := by
    intro p hp q hq hpq
    obtain ⟨_, hpr⟩ := (mem_cells C R p.1 p.2).mp hp
    obtain ⟨_, hqr⟩ := (mem_cells C R q.1 q.2).mp hq
    have h1 := idx_recover R p.1 p.2 hpr
    have h2 := idx_recover R q.1 q.2 hqr
    rw [hpq] at h1
    exact Prod.ext (h1.2.symm.trans h2.2) (h1.1.symm.trans h2.1)
  refine ⟨hlx, hly, ?_⟩
  intro c r hc hr
  have hmem : (c, r) ∈ cells C R := (mem_cells C R c r).mpr ⟨hc, hr⟩
  refine ⟨hinx _ hmem, hiny _ hmem, ?_, ?_⟩
  · exact hvx (fun p hp q hq hpq => by rw [hsame p hp q hq hpq]) (c, r) hmem
  · exact hvy (fun p hp q hq hpq => by rw [hsame p hp q hq hpq]) (c, r) hmem

/-- `ReadDatabase` once all checks of lines 59-129 have passed and the channel map is read. -/
theorem ReadDatabase_checked (kDetMapSize : Nat) (s : Shower) (db : Database)
    (rows : List (List UShort_t))
    (hm1 : mulInt db.ncols db.nrows = some (db.ncols * db.nrows))
    (hm2 : mulInt (min 3 db.nrows) (min 3 db.ncols) = some (min 3 db.nrows * min 3 db.ncols))
    (c1 : ¬ (s.fIsInit = true ∧ (db.ncols * db.nrows ≠ s.fNelem ∨
        min 3 db.nrows * min 3 db.ncols ≠ s.fNclublk)))
    (c2 : ¬ (db.nrows ≤ 0 ∨ db.ncols ≤ 0 ∨ min 3 db.nrows * min 3 db.ncols ≤ 0))
    (c3 : ¬ (kDetMapSize < db.modules.length)) (c4 : ¬ (db.modules.length = 0))
    (c5 : ¬ ((db.modules.any (fun d => decide (nChan d = 0))) = true))
    (hrows : readChanMap (db.modules.map (fun d => (nChan d).val)) db.chanMap = some rows) :
    ReadDatabase kDetMapSize s (some db) =
      match forLoop (readValues db.peds) (dimensioned s db rows).fPed
            (List.range (db.ncols * db.nrows).toNat),
          forLoop (readValues db.gains) (dimensioned s db rows).fGain
            (List.range (db.ncols * db.nrows).toNat),
          forLoop (positionStep db.nrows db.x db.y db.dx db.dy)
            ((dimensioned s db rows).fBlockX, (dimensioned s db rows).fBlockY)
            (cells db.ncols.toNat db.nrows.toNat) with
      | some ped, some gain, some (bx, bY) =>
        some (EStatus.kOK, withCalibration (dimensioned s db rows) db ped gain bx bY)
      | _, _, _ => none := by
  unfold ReadDatabase
  simp only [hm1, hm2]
  rw [if_neg c1, if_neg c2, if_neg c3, if_neg c4, if_neg c5]
  simp only [hrows]
  rfl

theorem readValues_fixed (vals a : List ℚ) (n : Nat) (h : ∀ j, j < n → a[j]? = vals[j]?)
    (hn : n ≤ vals.length) : forLoop (readValues vals) a (List.range n) = some a := by
  apply forLoop_fixed
  intro j hj
  have hjn := List.mem_range.mp hj
  have hjv : j < vals.length := by omega
  unfold readValues
  rw [List.getElem?_eq_getElem hjv]
  apply writeAt_same
  rw [h j hjn, List.getElem?_eq_getElem hjv]

theorem positions_fixed (R C : Nat) (x y dx dy : ℚ) (X Y : List ℚ)
    (h : ∀ c r, c < C → r < R →
      X[R * c + r]? = some (x + (r : ℚ) * dx) ∧ Y[R * c + r]? = some (y + (c : ℚ) * dy)) :
    forLoop (positionStep (R : Int) x y dx dy) (X, Y) (cells C R) = some (X, Y) := by
  apply forLoop_fixed
  intro cr hcr
  obtain ⟨hc, hr⟩ := (mem_cells C R cr.1 cr.2).mp hcr
  obtain ⟨hx, hy⟩ := h cr.1 cr.2 hc hr
  rw [positionStep_eq]
  simp only [pairStep, writeAt_same X _ _ hx, writeAt_same Y _ _ hy]

/-- After a successful `ReadDatabase`, a second call with the same database succeeds and
leaves the detector as it is. -/
theorem ReadDatabase_again (kDetMapSize : Nat) (s s1 : Shower) (db : Database)
    (h : ReadDatabase kDetMapSize s (some db) = some (EStatus.kOK, s1)) :
    ReadDatabase kDetMapSize s1 (some db) = some (EStatus.kOK, s1) := by
  obtain ⟨rows, base, ped, gain, bx, bY, hm1, hm2, c1, c2, c3, c4, c5, hrows, hbase, hp, hg,
    hb, hs1⟩ := ReadDatabase_ok kDetMapSize s s1 db h
  have hR : db.nrows = ((db.nrows.toNat : Nat) : Int) :=
    (Int.toNat_of_nonneg (by omega)).symm
  have hinit1 : s1.fIsInit = true := by
    rw [hs1, hbase]
    by_cases hi : s.fIsInit = true
    · rw [if_pos hi]; exact hi
    · rw [if_neg hi]; rfl
  have hdim : dimensioned s1 db rows = s1 := by
    unfold dimensioned
    rw [if_pos hinit1, hs1, hbase]
    by_cases hi : s.fIsInit = true
    · rw [if_pos hi]; rfl
    · rw [if_neg hi]; rfl
  have hc1 : ¬ (s1.fIsInit = true ∧ (db.ncols * db.nrows ≠ s1.fNelem ∨
      min 3 db.nrows * min 3 db.ncols ≠ s1.fNclublk)) := by
    have e1 : s1.fNelem = db.ncols * db.nrows := by
      rw [hs1, hbase]; by_cases hi : s.fIsInit = true
      · rw [if_pos hi]; rfl
      · rw [if_neg hi]; rfl
    have e2 : s1.fNclublk = min 3 db.nrows * min 3 db.ncols := by
      rw [hs1, hbase]; by_cases hi : s.fIsInit = true
      · rw [if_pos hi]; rfl
      · rw [if_neg hi]; rfl
    rintro ⟨_, hne | hne⟩
    · exact hne e1.symm
    · exact hne e2.symm
  rw [ReadDatabase_checked kDetMapSize s1 db rows hm1 hm2 hc1 c2 c3 c4 c5 hrows, hdim]
  obtain ⟨_, _, hpn, hpv, _⟩ := readValues_spec db.peds base.fPed ped _ hp
  obtain ⟨_, _, hgn, hgv, _⟩ := readValues_spec db.gains base.fGain gain _ hg
  rw [hR] at hb
  obtain ⟨_, _, hpos⟩ := positions_spec db.nrows.toNat db.ncols.toNat db.x db.y db.dx db.dy
    base.fBlockX base.fBlockY bx bY hb
  have e1 : s1.fPed = ped := by rw [hs1]; rfl
  have e2 : s1.fGain = gain := by rw [hs1]; rfl
  have e3 : s1.fBlockX = bx := by rw [hs1]; rfl
  have e4 : s1.fBlockY = bY := by rw [hs1]; rfl
  rw [e1, e2, e3, e4, readValues_fixed db.peds ped _ hpv hpn,
    readValues_fixed db.gains gain _ hgv hgn]
  have hfix := positions_fixed db.nrows.toNat db.ncols.toNat db.x db.y db.dx db.dy bx bY
    (fun c r hc hr => (hpos c r hc hr).2.2)
  rw [← hR] at hfix
  rw [hfix]
  simp only []
  rw [hs1]
  rfl

theorem readChanMap_isSome (ns : List Nat) :
    ∀ (vals : List UShort_t), ns.sum ≤ vals.length → ∃ rows, readChanMap ns vals = some rows := by
  induction ns with
  | nil => intro vals _; exact ⟨[], rfl⟩
  | cons n ns ih =>
    intro vals h
    simp only [List.sum_cons] at h
    have hn : n ≤ vals.length := by omega
    obtain ⟨rows, hrows⟩ := ih (vals.drop n) (by rw [List.length_drop]; omega)
    exact ⟨vals.take n :: rows, by simp only [readChanMap, if_pos hn, hrows]⟩

theorem readValues_isSome (vals a : List ℚ) (n : Nat) (hv : n ≤ vals.length)
    (ha : n ≤ a.length) : ∃ a', forLoop (readValues vals) a (List.range n) = some a' := by
  obtain ⟨a', ha'⟩ := storeLoop_isSome (fun j : Nat => j) (fun j => vals.getD j 0)
    (List.range n) a (fun p hp => by
      have := List.mem_range.mp hp
      show p < a.length
      omega)
  refine ⟨a', ?_⟩
  rw [← ha']
  apply forLoop_congr
  intro j hj u
  have hjv : j < vals.length := by have := List.mem_range.mp hj; omega
  simp [readValues, List.getElem?_eq_getElem hjv, List.getD]

theorem positions_isSome (R C : Nat) (x y dx dy : ℚ) (X Y : List ℚ)
    (hX : R * C ≤ X.length) (hY : R * C ≤ Y.length) :
    ∃ X' Y', forLoop (positionStep (R : Int) x y dx dy) (X, Y) (cells C R) = some (X', Y') := by
  have hidx : ∀ p ∈ cells C R, R * p.1 + p.2 < R * C := by
    intro p hp
    obtain ⟨hc, hr⟩ := (mem_cells C R p.1 p.2).mp hp
    calc R * p.1 + p.2 < R * p.1 + R := by omega
      _ = R * (p.1 + 1) := by ring
      _ ≤ R * C := Nat.mul_le_mul_left R hc
  obtain ⟨X', hX'⟩ := storeLoop_isSome (fun p : Nat × Nat => R * p.1 + p.2)
    (fun p => x + (p.2 : ℚ) * dx) (cells C R) X (fun p hp => by
      have := hidx p hp
      show R * p.1 + p.2 < X.length
      omega)
  obtain ⟨Y', hY'⟩ := storeLoop_isSome (fun p : Nat × Nat => R * p.1 + p.2)
    (fun p => y + (p.1 : ℚ) * dy) (cells C R) Y (fun p hp => by
      have := hidx p hp
      show R * p.1 + p.2 < Y.length
      omega)
  exact ⟨X', Y', by rw [positionStep_eq, forLoop_pair]; exact ⟨hX', hY'⟩⟩

/-- The first `ReadDatabase` with a valid configuration succeeds and leaves an initialized
detector of `R` rows and `C` columns. -/
theorem ReadDatabase_first (kDetMapSize : Nat) (s : Shower) (db : Database) (R C : Nat)
    (hv : ValidConfig kDetMapSize db R C) (hs : s.fIsInit = false) :
    ∃ s1, ReadDatabase kDetMapSize s (some db) = some (EStatus.kOK, s1) ∧ Init s1 R C ∧
      s1.fIsInit = true ∧ s1.fDetMap = db.modules ∧ s1.fNChan = db.modules.map nChan ∧
      s1.fEmin = db.emin := by
  have hRC : db.ncols * db.nrows = ((R * C : Nat) : Int) := by
    rw [hv.nrows, hv.ncols]; push_cast; ring
  have hcap : min 3 db.nrows * min 3 db.ncols = ((min 3 R * min 3 C : Nat) : Int) := by
    rw [hv.nrows, hv.ncols]; push_cast; rfl
  have hcapb : min 3 R * min 3 C ≤ 9 := by
    have h1 : min 3 R ≤ 3 := min_le_left _ _
    have h2 : min 3 C ≤ 3 := min_le_left _ _
    calc min 3 R * min 3 C ≤ 3 * 3 := Nat.mul_le_mul h1 h2
      _ = 9 := rfl
  have hcapp : 0 < min 3 R * min 3 C := by
    have h1 : 0 < min 3 R := lt_min (by omega) hv.rows_pos
    have h2 : 0 < min 3 C := lt_min (by omega) hv.cols_pos
    exact Nat.mul_pos h1 h2
  have hsmall := hv.small
  have hm1 : mulInt db.ncols db.nrows = some (db.ncols * db.nrows) := by
    unfold mulInt; rw [if_pos]; rw [hRC]; omega
  have hm2 : mulInt (min 3 db.nrows) (min 3 db.ncols)
      = some (min 3 db.nrows * min 3 db.ncols) := by
    unfold mulInt; rw [if_pos]; rw [hcap]; omega
  have c1 : ¬ (s.fIsInit = true ∧ (db.ncols * db.nrows ≠ s.fNelem ∨
      min 3 db.nrows * min 3 db.ncols ≠ s.fNclublk)) := by
    rw [hs]; simp
  have c2 : ¬ (db.nrows ≤ 0 ∨ db.ncols ≤ 0 ∨ min 3 db.nrows * min 3 db.ncols ≤ 0) := by
    rw [hcap, hv.nrows, hv.ncols]
    have := hv.rows_pos; have := hv.cols_pos
    omega
  have c3 : ¬ (kDetMapSize < db.modules.length) := by have := hv.modules_le; omega
  have c5 : ¬ ((db.modules.any (fun d => decide (nChan d = 0))) = true) := by
    rw [List.any_eq_true]
    rintro ⟨d, hd, h0⟩
    exact hv.channels d hd (by simpa using h0)
  obtain ⟨rows, hrows⟩ := readChanMap_isSome _ db.chanMap hv.chanMap
  have hdim : dimensioned s db rows = allocate (withHeader s db rows) := by
    unfold dimensioned; rw [hs]; rfl
  have hN : (db.ncols * db.nrows).toNat = R * C := by rw [hRC]; exact Int.toNat_ofNat _
  have hlen : ∀ (z : ℚ), (List.replicate (db.ncols * db.nrows).toNat z).length = R * C := by
    intro z; rw [List.length_replicate, hN]
  obtain ⟨ped, hped⟩ := readValues_isSome db.peds (allocate (withHeader s db rows)).fPed (R * C)
    hv.peds (hlen 0).ge
  obtain ⟨gain, hgain⟩ := readValues_isSome db.gains (allocate (withHeader s db rows)).fGain
    (R * C) hv.gains (hlen 0).ge
  obtain ⟨bx, bY, hpos⟩ := positions_isSome R C db.x db.y db.dx db.dy
    (allocate (withHeader s db rows)).fBlockX (allocate (withHeader s db rows)).fBlockY
    (hlen 0).ge
    (hlen 0).ge
  have hR : db.nrows.toNat = R := by rw [hv.nrows]; exact Int.toNat_ofNat _
  have hC : db.ncols.toNat = C := by rw [hv.ncols]; exact Int.toNat_ofNat _
  refine ⟨withCalibration (allocate (withHeader s db rows)) db ped gain bx bY, ?_, ?_, rfl, rfl,
    rfl, rfl⟩
  · rw [ReadDatabase_checked kDetMapSize s db rows hm1 hm2 c1 c2 c3 hv.modules_pos c5 hrows,
      hdim, hN, hR, hC, hv.nrows, hped, hgain, hpos]
  · obtain ⟨l1, _⟩ := readValues_spec _ _ _ _ hped
    obtain ⟨l2, _⟩ := readValues_spec _ _ _ _ hgain
    obtain ⟨l3, l4, _⟩ := positions_spec _ _ _ _ _ _ _ _ _ _ hpos
    exact {
      rows_pos := hv.rows_pos
      cols_pos := hv.cols_pos
      small := hv.small
      nelem := hRC
      nrows := hv.nrows
      nclublk := hcap
      lenX := l3.trans (hlen 0)
      lenY := l4.trans (hlen 0)
      lenPed := l1.trans (hlen 0)
      lenGain := l2.trans (hlen 0)
      lenA := hlen 0
      lenAp := hlen 0
      lenAc := hlen 0
      lenNblk := by
        show (List.replicate (min 3 db.nrows * min 3 db.ncols).toNat (0 : Int)).length = _
        rw [List.length_replicate, hcap]; exact Int.toNat_ofNat _
      lenEblk := by
        show (List.replicate (min 3 db.nrows * min 3 db.ncols).toNat (0 : ℚ)).length = _
        rw [List.length_replicate, hcap]; exact Int.toNat_ofNat _ }

theorem cap_fits (r c : Int) (hr : -9999 ≤ r) (hc : -9999 ≤ c) :
    -2147483648 ≤ min 3 r * min 3 c ∧ min 3 r * min 3 c ≤ 2147483647 := by
  have ha1 : min 3 r ≤ 3 := min_le_left _ _
  have ha0 : -9999 ≤ min 3 r := le_min (by omega) hr
  have hb1 : min 3 c ≤ 3 := min_le_left _ _
  have hb0 : -9999 ≤ min 3 c := le_min (by omega) hc
  generalize min 3 r = a at *
  generalize min 3 c = b at *
  constructor
  · nlinarith [mul_nonneg (sub_nonneg.mpr ha0) (sub_nonneg.mpr hb1),
      mul_nonneg (sub_nonneg.mpr ha1) (sub_nonneg.mpr hb0)]
  · nlinarith [mul_nonneg (sub_nonneg.mpr ha0) (sub_nonneg.mpr hb0),
      mul_nonneg (sub_nonneg.mpr ha1) (sub_nonneg.mpr hb1)]

theorem product_fits (r c : Int) (hr0 : -9999 ≤ r) (hr1 : r ≤ 99999) (hc0 : -9999 ≤ c)
    (hc1 : c ≤ 99999) (hnon : r ≤ 0 ∨ c ≤ 0) :
    -2147483648 ≤ c * r ∧ c * r ≤ 2147483647 := by
  rcases hnon with h | h
  · constructor
    · nlinarith [mul_nonneg (sub_nonneg.mpr hc1) (sub_nonneg.mpr hr0),
        mul_nonneg (sub_nonneg.mpr hc0) (sub_nonneg.mpr h)]
    · nlinarith [mul_nonneg (sub_nonneg.mpr hc0) (sub_nonneg.mpr hr0),
        mul_nonneg (sub_nonneg.mpr hc1) (sub_nonneg.mpr h)]
  · constructor
    · nlinarith [mul_nonneg (sub_nonneg.mpr hr1) (sub_nonneg.mpr hc0),
        mul_nonneg (sub_nonneg.mpr hr0) (sub_nonneg.mpr h)]
    · nlinarith [mul_nonneg (sub_nonneg.mpr hr0) (sub_nonneg.mpr hc0),
        mul_nonneg (sub_nonneg.mpr hr1) (sub_nonneg.mpr h)]

/-- On an initialized detector, `ReadDatabase` with a header whose product `columns*rows` fits
an `Int_t`, and whose element count or cap differs from the stored one, returns `kInitError`
and leaves every data member as it was. -/
theorem reinit_mismatch_rejected (kDetMapSize : Nat) (s : Shower) (db : Database)
    (hinit : s.fIsInit = true) (hscan : db.Scanned)
    (hfit : -2147483648 ≤ db.ncols * db.nrows ∧ db.ncols * db.nrows ≤ 2147483647)
    (hdiff : db.ncols * db.nrows ≠ s.fNelem ∨ min 3 db.nrows * min 3 db.ncols ≠ s.fNclublk) :
    ReadDatabase kDetMapSize s (some db) = some (EStatus.kInitError, s) := by
  have hcap := cap_fits db.nrows db.ncols hscan.2.2.1 hscan.1
  unfold ReadDatabase
  simp only [mulInt, if_pos hfit, if_pos hcap]
  rw [if_pos ⟨hinit, hdiff⟩]

/-- C14: for a header in which the row count or the column count is not positive,
`ReadDatabase` returns `kInitError`, initialized before or not, and leaves every data member
as it was. -/
theorem C14_nonpositive_dimension_rejected (kDetMapSize : Nat) (s : Shower) (db : Database)
    (hscan : db.Scanned) (hnon : db.nrows ≤ 0 ∨ db.ncols ≤ 0) :
    ReadDatabase kDetMapSize s (some db) = some (EStatus.kInitError, s) := by
  have hcap := cap_fits db.nrows db.ncols hscan.2.2.1 hscan.1
  have hfit := product_fits db.nrows db.ncols hscan.2.2.1 hscan.2.2.2 hscan.1 hscan.2.1 hnon
  unfold ReadDatabase
  simp only [mulInt, if_pos hfit, if_pos hcap]
  by_cases c1 : s.fIsInit = true ∧ (db.ncols * db.nrows ≠ s.fNelem ∨
      min 3 db.nrows * min 3 db.ncols ≠ s.fNclublk)
  · rw [if_pos c1]
  · rw [if_neg c1]
    have c2 : db.nrows ≤ 0 ∨ db.ncols ≤ 0 ∨ min 3 db.nrows * min 3 db.ncols ≤ 0 := by
      rcases hnon with h | h
      · exact Or.inl h
      · exact Or.inr (Or.inl h)
    rw [if_pos c2]

/-- After a successful `ReadDatabase` with `R` rows and `C` columns, for every row
`r < R` and column `c < C` the block `k = R*c + r` lies in `[0, R*C)` and has the position
`x = x0 + r*dx`, `y = y0 + c*dy`; `k mod R = r` and `k div R = c` (also with the `int` division
and remainder by `fNrows`), and every `k < R*C` is `R*c + r` for its own `c = k div R < C` and
`r = k mod R < R`. -/
theorem block_positions (kDetMapSize : Nat) (s s1 : Shower) (db : Database) (R C : Nat)
    (h : ReadDatabase kDetMapSize s (some db) = some (EStatus.kOK, s1))
    (hR : db.nrows = (R : Int)) (hC : db.ncols = (C : Int)) :
    s1.fNrows = (R : Int) ∧ s1.fNelem = ((R * C : Nat) : Int) ∧
    (∀ r c, r < R → c < C →
      s1.fBlockX[R * c + r]? = some (db.x + (r : ℚ) * db.dx) ∧
      s1.fBlockY[R * c + r]? = some (db.y + (c : ℚ) * db.dy) ∧
      R * c + r < R * C ∧ (R * c + r) % R = r ∧ (R * c + r) / R = c ∧
      Int.tmod ((R * c + r : Nat) : Int) s1.fNrows = (r : Int) ∧
      Int.tdiv ((R * c + r : Nat) : Int) s1.fNrows = (c : Int)) ∧
    (∀ k, k < R * C → k % R < R ∧ k / R < C ∧ R * (k / R) + k % R = k) := by
  obtain ⟨rows, base, ped, gain, bx, bY, _, _, _, c2, _, _, _, _, hbase, _, _, hb, hs1⟩ :=
    ReadDatabase_ok kDetMapSize s s1 db h
  have hRpos : 0 < R := by
    have : ¬ (db.nrows ≤ 0) := fun h0 => c2 (Or.inl h0)
    rw [hR] at this; omega
  have hrows : s1.fNrows = (R : Int) := by
    rw [hs1, hbase, ← hR]
    by_cases hi : s.fIsInit = true
    · rw [if_pos hi]; rfl
    · rw [if_neg hi]; rfl
  have hnelem : s1.fNelem = ((R * C : Nat) : Int) := by
    have : s1.fNelem = db.ncols * db.nrows := by
      rw [hs1, hbase]
      by_cases hi : s.fIsInit = true
      · rw [if_pos hi]; rfl
      · rw [if_neg hi]; rfl
    rw [this, hR, hC]; push_cast; ring
  rw [hR, hC] at hb
  simp only [Int.toNat_ofNat] at hb
  obtain ⟨_, _, hpos⟩ := positions_spec R C db.x db.y db.dx db.dy _ _ bx bY hb
  have ex : s1.fBlockX = bx := by rw [hs1]; rfl
  have ey : s1.fBlockY = bY := by rw [hs1]; rfl
  refine ⟨hrows, hnelem, ?_, ?_⟩
  · intro r c hr hc
    obtain ⟨_, _, hx, hy⟩ := hpos c r hc hr
    obtain ⟨hm, hd⟩ := idx_recover R c r hr
    refine ⟨by rw [ex]; exact hx, by rw [ey]; exact hy, ?_, hm, hd, ?_, ?_⟩
    · calc R * c + r < R * c + R := by omega
        _ = R * (c + 1) := by ring
        _ ≤ R * C := Nat.mul_le_mul_left R hc
    · rw [hrows, ← Int.ofNat_tmod, hm]
    · rw [hrows, ← Int.ofNat_tdiv, hd]
  · intro k hk
    refine ⟨Nat.mod_lt _ hRpos, Nat.div_lt_of_lt_mul hk, Nat.div_add_mod k R⟩

/-- C13: with a valid configuration, the first `ReadDatabase` succeeds, a second
`ReadDatabase` with the same configuration succeeds again and leaves every data member
(element count, row count, cap, detector map, channel map, pedestals, gains, block positions)
as the first left it. -/
theorem C13_reinit_idempotent (kDetMapSize : Nat) (s : Shower) (db : Database) (R C : Nat)
    (hv : ValidConfig kDetMapSize db R C) (hs : s.fIsInit = false) :
    ∃ s1, ReadDatabase kDetMapSize s (some db) = some (EStatus.kOK, s1) ∧
      ReadDatabase kDetMapSize s1 (some db) = some (EStatus.kOK, s1) ∧ Init s1 R C := by
  obtain ⟨s1, h1, hinit, _⟩ := ReadDatabase_first kDetMapSize s db R C hv hs
  exact ⟨s1, h1, ReadDatabase_again kDetMapSize s s1 db h1, hinit⟩

theorem squareShower_init : Init squareShower 256 256 where
  rows_pos := by decide
  cols_pos := by decide
  small := by decide
  nelem := by decide
  nrows := by decide
  nclublk := by decide
  lenX := List.length_replicate _ _
  lenY := List.length_replicate _ _
  lenPed := List.length_replicate _ _
  lenGain := List.length_replicate _ _
  lenA := List.length_replicate _ _
  lenAp := List.length_replicate _ _
  lenAc := List.length_replicate _ _
  lenNblk := List.length_replicate _ _
  lenEblk := List.length_replicate _ _

theorem demoDatabase_valid : ValidConfig 100 demoDatabase 3 4 := by
  constructor <;> decide

theorem reversedDatabase_valid : ValidConfig 100 reversedDatabase 3 4 where
  nrows := by decide
  ncols := by decide
  rows_pos := by decide
  cols_pos := by decide
  small := by decide
  modules_pos := by decide
  modules_le := by decide
  channels := by decide
  chanMap := by
    show ([(⟨1, 2, 10, 5⟩ : Module)].map (fun d => (nChan d).val)).sum
      ≤ (List.replicate 65532 (1 : UShort_t)).length
    rw [List.length_replicate]
    decide
  peds := by decide
  gains := by decide

theorem demo_ready :
    ReadDatabase 100 blankShower (some demoDatabase) = some (EStatus.kOK, demoReady) := by
  decide!

/-- C12 fails on the code: the detector `squareShower` is initialized with 256 rows and 256
columns (65536 elements, cap 9); for the header `65536 65537` the element count
`ncols*nrows` = 4295032832 differs from the stored 65536, but line 59 computes it in an `int`,
which it overflows (truncated to 32 bits it is 65536 again, and the cap is 9 again), so the
test of line 62 is not made on the element count of the header and `ReadDatabase` has no
defined result where `kInitError` is due.  For a header whose product fits, such as `5 3` on
the 12 elements of `demoShower`, the same test returns `kInitError` and changes nothing. -/
theorem C12_overflow_not_rejected :
    Init squareShower 256 256 ∧ squareShower.fIsInit = true ∧ overflowDatabase.Scanned ∧
    overflowDatabase.ncols * overflowDatabase.nrows ≠ squareShower.fNelem ∧
    toInt32 (overflowDatabase.ncols * overflowDatabase.nrows) = squareShower.fNelem ∧
    min 3 overflowDatabase.nrows * min 3 overflowDatabase.ncols = squareShower.fNclublk ∧
    ReadDatabase 100 squareShower (some overflowDatabase) = none ∧
    ReadDatabase 100 demoShower (some widerDatabase) = some (EStatus.kInitError, demoShower) :=
  ⟨squareShower_init, rfl, ⟨by decide, by decide, by decide, by decide⟩, by decide, by decide,
    by decide, by decide!,
    reinit_mismatch_rejected 100 demoShower widerDatabase rfl
      ⟨by decide, by decide, by decide, by decide⟩ (by decide) (by decide)⟩

/-- Witness of C13: `blankShower` and `demoDatabase`. -/
theorem C13_witness :
    ValidConfig 100 demoDatabase 3 4 ∧ blankShower.fIsInit = false ∧
    ∃ s1, ReadDatabase 100 blankShower (some demoDatabase) = some (EStatus.kOK, s1) ∧
      ReadDatabase 100 s1 (some demoDatabase) = some (EStatus.kOK, s1) ∧ Init s1 3 4 :=
  ⟨demoDatabase_valid, rfl, C13_reinit_idempotent 100 blankShower demoDatabase 3 4
    demoDatabase_valid rfl⟩

/-- Witness of C14: `demoShower` and the header `0 3`. -/
theorem C14_witness :
    emptyDatabase.Scanned ∧ (emptyDatabase.nrows ≤ 0 ∨ emptyDatabase.ncols ≤ 0) ∧
    ReadDatabase 100 demoShower (some emptyDatabase) = some (EStatus.kInitError, demoShower) :=
  ⟨⟨by decide, by decide, by decide, by decide⟩, by decide,
    C14_nonpositive_dimension_rejected 100 demoShower emptyDatabase
      ⟨by decide, by decide, by decide, by decide⟩ (by decide)⟩

/-- C15 fails on the code: for the module line `1 2 10 5`, whose last channel is below its
first, line 117 computes `fNChan = 5 - 10 + 1` in a `UShort_t`, which is 65532, so the test
`fNChan[i] > 0` passes and `ReadDatabase` goes on to read 65532 channel numbers and returns
`kOK` instead of `kInitError`. -/
theorem C15_reversed_range_accepted :
    nChan ⟨1, 2, 10, 5⟩ = 65532 ∧
    ∃ s1, ReadDatabase 100 blankShower (some reversedDatabase) = some (EStatus.kOK, s1) ∧
      s1.fDetMap = [⟨1, 2, 10, 5⟩] ∧ s1.fNChan = [65532] := by
  refine ⟨by decide, ?_⟩
  obtain ⟨s1, h1, _, _, h2, h3, _⟩ :=
    ReadDatabase_first 100 blankShower reversedDatabase 3 4 reversedDatabase_valid rfl
  exact ⟨s1, h1, h2, by rw [h3]; decide⟩

/-! ## Frame of the cluster builder and re-initialization -/

/-- C24: on an initialized detector on which no block has an energy above the seed threshold,
`CoarseProcess` returns, and the state it returns is the state before the call with `fNclust`
set to 0: cluster energy, centroid, multiplicity, member arrays and everything `Decode` wrote
keep their values. -/
theorem C24_no_seed_only_resets_count (s : Shower) (R C : Nat) (hinit : Init s R C)
    (hnone : ∀ i, i < R * C → energy s i ≤ s.fEmin) :
    CoarseProcess s = some { s with fNclust := 0 } := by
  have hN := hinit.nelem_toNat
  have hno : ∀ nmax, ¬ IsSeed s nmax := by
    intro nmax hseed
    have h1 := hnone nmax (by rw [← hN]; exact hseed.1)
    exact absurd hseed.2.1 (not_lt.mpr h1)
  obtain ⟨s', hs'⟩ := CoarseProcess_isSome s R C hinit (fun nmax hseed => absurd hseed (hno nmax))
  obtain ⟨_, hcase⟩ := CoarseProcess_spec s s' hinit.cap_le hs'
  rcases hcase with ⟨_, heq⟩ | ⟨nmax, hseed, _⟩
  · rw [hs', heq]
  · exact absurd hseed (hno nmax)

/-- Witness of C24: `demoShower`, whose twelve energies 5 are below the threshold 10 and whose
cluster record holds the values of an earlier event. -/
theorem C24_witness :
    Init demoShower 3 4 ∧ (∀ i, i < 3 * 4 → energy demoShower i ≤ demoShower.fEmin) ∧
    CoarseProcess demoShower = some { demoShower with fNclust := 0 } :=
  ⟨by constructor <;> decide, by decide!,
    C24_no_seed_only_resets_count demoShower 3 4 (by constructor <;> decide) (by decide!)⟩

/-- C25: the detector initialized for 3 rows and 4 columns accepts a second `ReadDatabase` for
4 rows and 3 columns (same element count 12, same cap 9): the call returns `kOK`, and the stored
row count and the block positions change. -/
theorem C25_transposed_reinit_accepted :
    ReadDatabase 100 blankShower (some demoDatabase) = some (EStatus.kOK, demoReady) ∧
    ReadDatabase 100 demoReady (some tallDatabase) = some (EStatus.kOK, tallReady) ∧
    demoDatabase.nrows ≠ tallDatabase.nrows ∧ demoDatabase.ncols ≠ tallDatabase.ncols ∧
    tallReady.fNelem = demoReady.fNelem ∧ tallReady.fNclublk = demoReady.fNclublk ∧
    demoReady.fNrows = 3 ∧ tallReady.fNrows = 4 ∧
    tallReady.fBlockX ≠ demoReady.fBlockX ∧ tallReady.fBlockY ≠ demoReady.fBlockY := by
  refine ⟨by decide!, by decide!, by decide, by decide, rfl, rfl, rfl, rfl, by decide!, by decide!⟩

/-! ## Single pulse -/

theorem decodeHit_unit (withDebug : Bool) (ev : THaEvData) (i : Nat) (d : Module)
    (s t : Shower) (chan : Int) (hped : ∀ p ∈ s.fPed, p = 0) (hgain : ∀ g ∈ s.fGain, g = 1)
    (hs : s.fA_p = s.fA ∧ s.fA_c = s.fA)
    (h : decodeHit withDebug ev i d s chan = some t) : t.fA_p = t.fA ∧ t.fA_c = t.fA := by
  rcases decodeHit_spec withDebug ev i d s t chan h with ⟨_, heq⟩ |
    ⟨_, _, _, _, _, _, _, _, heq⟩ |
    ⟨_, _, k, ped, gain, _, _, _, _, _, _, _, _, _, hp, hg, heq⟩
  · rw [heq]; exact hs
  · rw [heq]; exact hs
  · have hp0 : ped = 0 := hped ped (List.getElem?_mem hp)
    have hg1 : gain = 1 := hgain gain (List.getElem?_mem hg)
    subst hp0 hg1
    rw [heq]
    simp [hs.1, hs.2]

theorem Decode_unit (withDebug : Bool) (s t : Shower) (ev : THaEvData) (R C : Nat)
    (hinit : Init s R C) (hped : ∀ p ∈ s.fPed, p = 0) (hgain : ∀ g ∈ s.fGain, g = 1)
    (h : Decode withDebug s ev = some t) : t.fA_p = t.fA ∧ t.fA_c = t.fA := by
  unfold Decode at h
  rw [ClearEvent_init s R C hinit] at h
  have key := forLoop_inv (decodeModule withDebug ev)
    (fun u => DecodeFrame (cleared s (R * C) (min 3 R * min 3 C)) u ∧
      u.fA_p = u.fA ∧ u.fA_c = u.fA)
    (fun u id u' hu hb => by
      have := forLoop_inv (decodeHit withDebug ev id.1 id.2)
        (fun v => DecodeFrame (cleared s (R * C) (min 3 R * min 3 C)) v ∧
          v.fA_p = v.fA ∧ v.fA_c = v.fA)
        (fun v c v' hv hc => ⟨hv.1.trans (decodeHit_frame withDebug ev id.1 id.2 v v' c hc),
          decodeHit_unit withDebug ev id.1 id.2 v v' c
            (by rw [hv.1.fPed]; exact hped) (by rw [hv.1.fGain]; exact hgain) hv.2 hc⟩)
        _ u u' hu hb
      exact this)
    _ _ t ⟨DecodeFrame.refl _, rfl, rfl⟩ h
  exact key.2

/-- C17: on an initialized detector with all pedestals 0 and all gains 1, if after `Decode` of
an event the raw amplitudes are `A` at the single logical channel `k` and 0 at all others, with
`A` positive and above the seed threshold, then `CoarseProcess` returns with cluster count 1,
multiplicity 1, cluster energy `A`, the single member `k`, and the centroid at the configured
position of block `k`. -/
theorem C17_single_pulse_cluster (withDebug : Bool) (s s1 : Shower) (ev : THaEvData)
    (R C k : Nat) (A : ℚ) (hinit : Init s R C) (hped : ∀ p ∈ s.fPed, p = 0)
    (hgain : ∀ g ∈ s.fGain, g = 1) (hd : Decode withDebug s ev = some s1) (hk : k < R * C)
    (hA : ∀ i, i < R * C → s1.fA.getD i 0 = if i = k then A else 0)
    (hpos : 0 < A) (hthr : s.fEmin < A) :
    ∃ s2, CoarseProcess s1 = some s2 ∧ s2.fNclust = 1 ∧ s2.fMult = 1 ∧ s2.fE = A ∧
      s2.fX = blockX s k ∧ s2.fY = blockY s k ∧ members s2 = [(k : Int)] := by
  obtain ⟨hf, hinit1⟩ := Decode_frame withDebug s s1 ev R C hinit hd
  obtain ⟨_, hAc⟩ := Decode_unit withDebug s s1 ev R C hinit hped hgain hd
  have hN := hinit1.nelem_toNat
  have hemin : s1.fEmin = s.fEmin := hf.fEmin
  have hen : ∀ i, i < R * C → energy s1 i = if i = k then A else 0 := by
    intro i hi
    unfold energy
    rw [hAc]
    exact hA i hi
  have hek : energy s1 k = A := by rw [hen k hk, if_pos rfl]
  have hseed : IsSeed s1 k := by
    refine ⟨by rw [hN]; exact hk, by rw [hek, hemin]; exact hthr, ?_, ?_⟩
    · intro i hi
      rw [hN] at hi
      rw [hek, hen i hi]
      split
      · exact le_refl _
      · exact le_of_lt hpos
    · intro i hi
      rw [hek, hen i (by omega), if_neg (by omega)]
      exact hpos
  have hsur : surround s1 k = [] := by
    unfold surround surroundOf
    rw [List.filter_eq_nil_iff]
    intro i hi
    rw [List.mem_range, hN] at hi
    rw [isSurround_eq_true]
    rintro ⟨⟨hgt, hne⟩, _⟩
    rw [hen i hi, if_neg (by intro h; exact hne (by rw [h]))] at hgt
    exact lt_irrefl _ hgt
  have hcap : 1 ≤ min 3 R * min 3 C := by
    have h1 := hinit.rows_pos
    have h2 := hinit.cols_pos
    have : 1 ≤ min 3 R := by omega
    have : 1 ≤ min 3 C := by omega
    exact Nat.mul_le_mul ‹1 ≤ min 3 R› ‹1 ≤ min 3 C›
  obtain ⟨s2, hs2⟩ := CoarseProcess_isSome s1 R C hinit1 (fun nmax hn => by
    rw [IsSeed_unique s1 nmax k hn hseed, hsur]
    exact hcap)
  obtain ⟨_, hcase⟩ := CoarseProcess_spec s1 s2 hinit1.cap_le hs2
  rcases hcase with ⟨hall, _⟩ | ⟨nmax, hn, _, _, _, heq⟩
  · have := hall k hseed.1
    rw [hek, hemin] at this
    exact absurd hthr (not_lt.mpr this)
  · have hnk := IsSeed_unique s1 nmax k hn hseed
    subst hnk
    have hA0 : A ≠ 0 := ne_of_gt hpos
    have hbx : blockX s1 nmax = blockX s nmax := by unfold blockX; rw [hf.fBlockX]; rfl
    have hby : blockY s1 nmax = blockY s nmax := by unfold blockY; rw [hf.fBlockY]; rfl
    refine ⟨s2, hs2, ?_, ?_, ?_, ?_, ?_, ?_⟩
    · rw [heq]; rfl
    · rw [heq]; simp [withCluster, hsur]
    · rw [heq]; simp [withCluster, hsur, hek]
    · rw [heq]; simp [withCluster, hsur, hek, hbx, hA0]
    · rw [heq]; simp [withCluster, hsur, hek, hby, hA0]
    · rw [heq, members_withCluster, hsur]; rfl

theorem pulse_decode : Decode false demoShower pulseEvent = some pulseDecoded := by
  decide!

/-- Witness of C17: the 3 by 4 detector `demoShower` and the amplitude 100 at channel 4, the
block of row 1 and column 1, whose configured position is (1, 10). -/
theorem C17_witness :
    Init demoShower 3 4 ∧ (∀ p ∈ demoShower.fPed, p = 0) ∧ (∀ g ∈ demoShower.fGain, g = 1) ∧
    Decode false demoShower pulseEvent = some pulseDecoded ∧
    (∀ i, i < 3 * 4 → pulseDecoded.fA.getD i 0 = if i = 4 then 100 else 0) ∧
    demoShower.fEmin < 100 ∧ blockX demoShower 4 = 1 ∧ blockY demoShower 4 = 10 ∧
    ∃ s2, CoarseProcess pulseDecoded = some s2 ∧ s2.fNclust = 1 ∧ s2.fMult = 1 ∧
      s2.fE = 100 ∧ s2.fX = blockX demoShower 4 ∧ s2.fY = blockY demoShower 4 ∧
      members s2 = [((4 : Nat) : Int)] :=
  ⟨by constructor <;> decide, by decide!, by decide!, pulse_decode, by decide!, by decide!,
    by decide!, by decide!,
    C17_single_pulse_cluster false demoShower pulseDecoded pulseEvent 3 4 4 100
      (by constructor <;> decide) (by decide!) (by decide!) pulse_decode (by decide)
      (by decide!) (by decide!) (by decide!)⟩

/-! ## Independence of earlier events -/

theorem forLoop_sim {σ ι : Type} (body : σ → ι → Option σ) (g : σ → σ) (Q : σ → Prop)
    (hQ : ∀ u x u', Q u → body u x = some u' → Q u')
    (hsim : ∀ u x, Q u → body (g u) x = (body u x).map g) (l : List ι) :
    ∀ u, Q u → forLoop body (g u) l = (forLoop body u l).map g := by
  induction l with
  | nil => intro u _; rfl
  | cons x xs ih =>
    intro u hu
    simp only [forLoop]
    rw [hsim u x hu]
    cases hb : body u x with
    | none => rfl
    | some u' => exact ih u' (hQ u x u' hu hb)

theorem decodeHit_graft (withDebug : Bool) (ev : THaEvData) (i : Nat) (d : Module)
    (b u : Shower) (chan : Int) (hc : SameConfig b u) :
    decodeHit withDebug ev i d (graft b u) chan
      = (decodeHit withDebug ev i d u chan).map (graft b) := by
  obtain ⟨h1, h2, h3, h4⟩ := hc
  unfold decodeHit
  have e1 : (graft b u).fChanMap = u.fChanMap := h2
  have e2 : (graft b u).fNelem = u.fNelem := h1
  have e3 : (graft b u).fPed = u.fPed := h3
  have e4 : (graft b u).fGain = u.fGain := h4
  have e5 : (graft b u).fA = u.fA := rfl
  have e6 : (graft b u).fA_p = u.fA_p := rfl
  have e7 : (graft b u).fA_c = u.fA_c := rfl
  simp only [e1, e2, e3, e4, e5, e6, e7]
  by_cases hr : chan > d.hi ∨ chan < d.lo
  · simp only [hr, if_true]; rfl
  · simp only [hr, if_false]
    cases u.fChanMap[i]? with
    | none => rfl
    | some row =>
      simp only []
      cases readAt row (chan - d.lo) with
      | none => rfl
      | some e =>
        simp only []
        by_cases hdbg : withDebug = true ∧ ((e.val : Int) - 1 < 0 ∨ (e.val : Int) - 1 ≥ u.fNelem)
        · rw [if_pos hdbg, if_pos hdbg]; rfl
        · rw [if_neg hdbg, if_neg hdbg]
          cases writeAt u.fA ((e.val : Int) - 1) ((ev.data d.crate d.slot chan : Int) : ℚ) with
          | none => rfl
          | some a =>
            cases readAt u.fPed ((e.val : Int) - 1) with
            | none => rfl
            | some ped =>
              cases readAt u.fGain ((e.val : Int) - 1) with
              | none => rfl
              | some gain =>
                simp only []
                cases writeAt u.fA_p ((e.val : Int) - 1)
                    (((ev.data d.crate d.slot chan : Int) : ℚ) - ped) with
                | none => rfl
                | some ap =>
                  cases writeAt u.fA_c ((e.val : Int) - 1)
                      ((((ev.data d.crate d.slot chan : Int) : ℚ) - ped) * gain) with
                  | none => rfl
                  | some ac => simp [graft, h1, h2, h3, h4]

theorem SameConfig.frame {b u u' : Shower} (h : SameConfig b u) (hf : DecodeFrame u u') :
    SameConfig b u' :=
  ⟨by rw [hf.fNelem]; exact h.1, by rw [hf.fChanMap]; exact h.2.1,
    by rw [hf.fPed]; exact h.2.2.1, by rw [hf.fGain]; exact h.2.2.2⟩

theorem decodeModule_graft (withDebug : Bool) (ev : THaEvData) (b u : Shower)
    (id : Nat × Module) (hc : SameConfig b u) :
    decodeModule withDebug ev (graft b u) id = (decodeModule withDebug ev u id).map (graft b) :=
  forLoop_sim (decodeHit withDebug ev id.1 id.2) (graft b) (SameConfig b)
    (fun v c v' hv hb => hv.frame (decodeHit_frame withDebug ev id.1 id.2 v v' c hb))
    (fun v c hv => decodeHit_graft withDebug ev id.1 id.2 b v c hv) _ u hc

/-- `Decode` on the detector `s` is `Decode` on any detector `t` of the same configuration,
with the configuration members of `s` put back. -/
theorem Decode_graft (withDebug : Bool) (s t : Shower) (ev : THaEvData) (R C : Nat)
    (hs : Init s R C) (ht : Init t R C) (hmap : s.fDetMap = t.fDetMap)
    (hchan : s.fChanMap = t.fChanMap) (hped : s.fPed = t.fPed) (hgain : s.fGain = t.fGain) :
    Decode withDebug s ev = (Decode withDebug t ev).map (graft s) := by
  unfold Decode
  rw [ClearEvent_init s R C hs, ClearEvent_init t R C ht, hmap]
  have hc : SameConfig s (cleared t (R * C) (min 3 R * min 3 C)) :=
    ⟨by show s.fNelem = t.fNelem; rw [hs.nelem, ht.nelem], hchan, hped, hgain⟩
  exact forLoop_sim (decodeModule withDebug ev) (graft s) (SameConfig s)
    (fun v id v' hv hb => hv.frame (decodeModule_frame withDebug ev v id v' hb))
    (fun v id hv => decodeModule_graft withDebug ev s v id hv) _
    (cleared t (R * C) (min 3 R * min 3 C)) hc

/-- C18: for two detectors that were initialized for the same dimensions and hold the same
detector map, channel map, pedestals and gains, whatever their per-event members hold from
earlier events, `Decode` of the same event either fails on both or returns on both, and then
with the same hit count, raw, pedestal-subtracted and calibrated arrays, sums and (cleared)
cluster record. -/
theorem C18_no_carryover (withDebug : Bool) (s t : Shower) (ev : THaEvData) (R C : Nat)
    (hs : Init s R C) (ht : Init t R C) (hmap : s.fDetMap = t.fDetMap)
    (hchan : s.fChanMap = t.fChanMap) (hped : s.fPed = t.fPed) (hgain : s.fGain = t.fGain) :
    (Decode withDebug s ev).map eventRecord = (Decode withDebug t ev).map eventRecord := by
  rw [Decode_graft withDebug s t ev R C hs ht hmap hchan hped hgain]
  cases Decode withDebug t ev with
  | none => rfl
  | some u => rfl

/-- Witness of C18: `demoShower`, which holds the values of an earlier event, and `demoReady`,
which comes fresh from `ReadDatabase`, decode `demoEvent` to the same per-event values. -/
theorem C18_witness :
    Init demoShower 3 4 ∧ Init demoReady 3 4 ∧ demoShower.fDetMap = demoReady.fDetMap ∧
    demoShower.fChanMap = demoReady.fChanMap ∧ demoShower.fPed = demoReady.fPed ∧
    demoShower.fGain = demoReady.fGain ∧ demoShower.fNhits ≠ demoReady.fNhits ∧ demoShower.fA ≠ demoReady.fA ∧
    Decode false demoShower demoEvent = some demoDecoded ∧
    (Decode false demoShower demoEvent).map eventRecord
      = (Decode false demoReady demoEvent).map eventRecord :=
  ⟨by constructor <;> decide, by constructor <;> decide, rfl, rfl, rfl, rfl, by decide, by decide!,
    demo_decode,
    C18_no_carryover false demoShower demoReady demoEvent 3 4 (by constructor <;> decide)
      (by constructor <;> decide) rfl rfl rfl rfl⟩

/-! ## Sign of the cluster energy -/

theorem forLoop_flatMap {σ ι κ : Type} (body : σ → ι × κ → Option σ) (g : ι → List κ)
    (l : List ι) (st : σ) :
    forLoop (fun u x => forLoop (fun v y => body v (x, y)) u (g x)) st l
      = forLoop body st (l.flatMap (fun x => (g x).map (fun y => (x, y)))) := by
  have hmap : ∀ (a : ι) (ys : List κ) (u : σ),
      forLoop body u (ys.map (fun y => (a, y))) = forLoop (fun v y => body v (a, y)) u ys := by
    intro a ys
    induction ys with
    | nil => intro u; rfl
    | cons y ys ih =>
      intro u
      simp only [List.map_cons, forLoop]
      cases body u (a, y) with
      | none => rfl
      | some v => exact ih v
  induction l generalizing st with
  | nil => rfl
  | cons a l ih =>
    simp only [forLoop, List.flatMap_cons, forLoop_append, hmap]
    cases forLoop (fun v y => body v (a, y)) st (g a) with
    | none => rfl
    | some u => exact ih u

theorem posSum_set (a : List ℚ) (k : Nat) (v : ℚ) (hk : k < a.length) (h0 : a.getD k 0 = 0) :
    posSum (a.set k v) = posSum a + if 0 < v then v else 0 := by
  induction a generalizing k with
  | nil => simp at hk
  | cons x xs ih =>
    cases k with
    | zero =>
      have hx : x = 0 := by simpa using h0
      subst hx
      by_cases hv : 0 < v
      · simp [posSum, List.filter_cons, hv, add_comm]
      · simp [posSum, List.filter_cons, hv]
    | succ k =>
      have h := ih k (by simpa using hk) (by simpa using h0)
      unfold posSum at h ⊢
      by_cases hx : 0 < x
      · simp only [List.set_cons_succ, List.filter_cons, hx, decide_True, if_true,
          List.sum_cons, h]
        ring
      · simp only [List.set_cons_succ, List.filter_cons, hx, decide_False]
        exact h

theorem posSum_replicate_zero (n : Nat) : posSum (List.replicate n 0) = 0 := by
  induction n with
  | zero => rfl
  | succ n ih =>
    unfold posSum at ih ⊢
    simp [List.replicate_succ, List.filter_cons, ih]

theorem logicalChannel_frame {s u : Shower} (h : DecodeFrame s u) (i : Nat) (d : Module)
    (chan : Int) : logicalChannel u i d chan = logicalChannel s i d chan := by
  unfold logicalChannel
  rw [h.fChanMap]

/-- The stores of lines 353-360 for a reading in the module's range whose logical channel `k`
is a valid index. -/
theorem decodeHit_store (withDebug : Bool) (ev : THaEvData) (i : Nat) (d : Module)
    (u : Shower) (chan : Int) (k : Nat) (hlo : d.lo ≤ chan) (hhi : chan ≤ d.hi)
    (hk : logicalChannel u i d chan = some (k : Int)) (hN : (k : Int) < u.fNelem)
    (h1 : k < u.fA.length) (h2 : k < u.fA_p.length) (h3 : k < u.fA_c.length)
    (h4 : k < u.fPed.length) (h5 : k < u.fGain.length) :
    ∃ t, decodeHit withDebug ev i d u chan = some t ∧ ∃ ped gain : ℚ,
      t = { u with
        fA := u.fA.set k ((ev.data d.crate d.slot chan : Int) : ℚ)
        fA_p := u.fA_p.set k (((ev.data d.crate d.slot chan : Int) : ℚ) - ped)
        fA_c := u.fA_c.set k ((((ev.data d.crate d.slot chan : Int) : ℚ) - ped) * gain)
        fAsum_p := if ((ev.data d.crate d.slot chan : Int) : ℚ) - ped > 0
          then u.fAsum_p + (((ev.data d.crate d.slot chan : Int) : ℚ) - ped) else u.fAsum_p
        fAsum_c := if (((ev.data d.crate d.slot chan : Int) : ℚ) - ped) * gain > 0
          then u.fAsum_c + (((ev.data d.crate d.slot chan : Int) : ℚ) - ped) * gain
          else u.fAsum_c
        fNhits := u.fNhits + 1 } := by
  unfold logicalChannel at hk
  unfold decodeHit
  have hr : ¬ (chan > d.hi ∨ chan < d.lo) := by omega
  rw [if_neg hr]
  cases hrow : u.fChanMap[i]? with
  | none => simp [hrow] at hk
  | some row =>
    simp only [hrow] at hk ⊢
    cases he : readAt row (chan - d.lo) with
    | none => simp [he] at hk
    | some e =>
      simp only [he, Option.some.injEq] at hk ⊢
      have hdbg : ¬ (withDebug = true ∧ ((e.val : Int) - 1 < 0 ∨ (e.val : Int) - 1 ≥ u.fNelem)) := by
        rw [hk]; omega
      rw [if_neg hdbg, hk]
      rw [writeAt_isSome _ k _ h1, readAt_natCast, readAt_natCast,
        List.getElem?_eq_getElem h4, List.getElem?_eq_getElem h5]
      simp only []
      rw [writeAt_isSome _ k _ h2, writeAt_isSome _ k _ h3]
      exact ⟨_, rfl, u.fPed[k], u.fGain[k], rfl⟩

theorem getD_set_ne (a : List ℚ) (k j : Nat) (v : ℚ) (h : k ≠ j) :
    (a.set k v).getD j 0 = a.getD j 0 := by
  simp [List.getD_eq_getElem?_getD, List.getElem?_set, h]

theorem decodeHit_tally (withDebug : Bool) (ev : THaEvData) (s0 : Shower) (R C : Nat)
    (hinit : Init s0 R C) (pre : List ((Nat × Module) × Int)) (u : Shower)
    (r : (Nat × Module) × Int) (k : Nat) (hT : Tally s0 pre u)
    (hin : r.1.2.lo ≤ r.2 ∧ r.2 ≤ r.1.2.hi)
    (hk : logicalChannel s0 r.1.1 r.1.2 r.2 = some (k : Int)) (hkN : k < R * C)
    (hfresh : ∀ r' ∈ pre, logicalIndex s0 r' ≠ k) :
    ∃ u', decodeHit withDebug ev r.1.1 r.1.2 u r.2 = some u' ∧ Tally s0 (pre ++ [r]) u' := by
  have hf := hT.frame
  have hinit' := hf.init hinit
  have hkey : logicalIndex s0 r = k := by
    unfold logicalIndex
    rw [hk]
    simp
  obtain ⟨t, ht, ped, gain, heq⟩ := decodeHit_store withDebug ev r.1.1 r.1.2 u r.2 k hin.1 hin.2
    (by rw [logicalChannel_frame hf]; exact hk)
    (by rw [hinit'.nelem]; exact_mod_cast hkN)
    (by rw [hinit'.lenA]; exact hkN) (by rw [hinit'.lenAp]; exact hkN)
    (by rw [hinit'.lenAc]; exact hkN) (by rw [hinit'.lenPed]; exact hkN)
    (by rw [hinit'.lenGain]; exact hkN)
  refine ⟨t, ht, ?_⟩
  have hzp : u.fA_p.getD k 0 = 0 := hT.zeroP k hfresh
  have hzc : u.fA_c.getD k 0 = 0 := hT.zeroC k hfresh
  have hne : ∀ j, (∀ r' ∈ pre ++ [r], logicalIndex s0 r' ≠ j) →
      k ≠ j ∧ ∀ r' ∈ pre, logicalIndex s0 r' ≠ j := by
    intro j hj
    refine ⟨?_, fun r' hr' => hj r' (List.mem_append_left _ hr')⟩
    rw [← hkey]
    exact hj r (List.mem_append_right _ (List.mem_singleton_self r))
  constructor
  · exact hf.trans (decodeHit_frame withDebug ev r.1.1 r.1.2 u t r.2 ht)
  · rw [heq]
    show u.fNhits + 1 = s0.fNhits + ((pre ++ [r]).length : Int)
    rw [hT.hits, List.length_append]
    simp [add_assoc]
  · intro j hj
    obtain ⟨hkj, hpre⟩ := hne j hj
    rw [heq]
    show (u.fA_p.set k _).getD j 0 = 0
    rw [getD_set_ne _ _ _ _ hkj]
    exact hT.zeroP j hpre
  · intro j hj
    obtain ⟨hkj, hpre⟩ := hne j hj
    rw [heq]
    show (u.fA_c.set k _).getD j 0 = 0
    rw [getD_set_ne _ _ _ _ hkj]
    exact hT.zeroC j hpre
  · rw [heq]
    show (if _ > 0 then u.fAsum_p + _ else u.fAsum_p) = posSum (u.fA_p.set k _)
    rw [posSum_set _ _ _ (by rw [hinit'.lenAp]; exact hkN) hzp, hT.sumP]
    split <;> simp
  · rw [heq]
    show (if _ > 0 then u.fAsum_c + _ else u.fAsum_c) = posSum (u.fA_c.set k _)
    rw [posSum_set _ _ _ (by rw [hinit'.lenAc]; exact hkN) hzc, hT.sumC]
    split <;> simp

theorem tallyLoop (withDebug : Bool) (ev : THaEvData) (s0 : Shower) (R C : Nat)
    (hinit : Init s0 R C) (l : List ((Nat × Module) × Int)) :
    ∀ (pre : List ((Nat × Module) × Int)) (u : Shower), Tally s0 pre u →
      (∀ r ∈ l, (r.1.2.lo ≤ r.2 ∧ r.2 ≤ r.1.2.hi) ∧
        ∃ k : Nat, k < R * C ∧ logicalChannel s0 r.1.1 r.1.2 r.2 = some (k : Int)) →
      (l.map (logicalIndex s0)).Nodup →
      (∀ r ∈ l, ∀ r' ∈ pre, logicalIndex s0 r' ≠ logicalIndex s0 r) →
      ∃ u', forLoop (fun v (r : (Nat × Module) × Int) =>
          decodeHit withDebug ev r.1.1 r.1.2 v r.2) u l = some u' ∧ Tally s0 (pre ++ l) u' := by
  induction l with
  | nil =>
    intro pre u hT _ _ _
    exact ⟨u, rfl, by rw [List.append_nil]; exact hT⟩
  | cons r l ih =>
    intro pre u hT hvalid hnd hfresh
    obtain ⟨hin, k, hkN, hk⟩ := hvalid r (List.mem_cons_self r l)
    have hkey : logicalIndex s0 r = k := by
      unfold logicalIndex
      rw [hk]
      simp
    obtain ⟨u1, hu1, hT1⟩ := decodeHit_tally withDebug ev s0 R C hinit pre u r k hT hin hk hkN
      (fun r' hr' => by rw [← hkey]; exact hfresh r (List.mem_cons_self r l) r' hr')
    rw [List.map_cons, List.nodup_cons] at hnd
    obtain ⟨u', hu', hT'⟩ := ih (pre ++ [r]) u1 hT1
      (fun x hx => hvalid x (List.mem_cons_of_mem r hx)) hnd.2
      (fun x hx r' hr' => by
        rcases List.mem_append.mp hr' with h | h
        · exact hfresh x (List.mem_cons_of_mem r hx) r' h
        · rw [List.mem_singleton.mp h]
          intro heq
          exact hnd.1 (heq ▸ List.mem_map_of_mem _ hx))
    refine ⟨u', ?_, by rw [List.append_cons]; exact hT'⟩
    simp only [forLoop, hu1]
    exact hu'

theorem readings_nodup (s : Shower) (ev : THaEvData)
    (honce : ∀ d ∈ s.fDetMap, (ev.chans d.crate d.slot).Nodup) : (readings s ev).Nodup := by
  unfold readings
  rw [List.nodup_flatMap]
  constructor
  · intro id hid
    exact (honce id.2 (List.snd_mem_of_mem_enum hid)).map (fun a b h => (Prod.mk.inj h).2)
  · have hnd : s.fDetMap.enum.Nodup := by
      apply List.Nodup.of_map Prod.fst
      rw [List.enum_map_fst]
      exact List.nodup_range _
    refine hnd.pairwise_of_forall_ne ?_
    intro a _ b _ hab x hxa hxb
    obtain ⟨_, _, rfl⟩ := List.mem_map.mp hxa
    obtain ⟨_, _, h⟩ := List.mem_map.mp hxb
    exact hab (Prod.mk.inj h).1.symm

theorem Decode_accepted (withDebug : Bool) (s : Shower) (ev : THaEvData) (R C : Nat)
    (hinit : Init s R C) :
    Decode withDebug s ev = forLoop (fun v (r : (Nat × Module) × Int) =>
      decodeHit withDebug ev r.1.1 r.1.2 v r.2) (cleared s (R * C) (min 3 R * min 3 C))
        (accepted s ev) := by
  unfold Decode accepted
  rw [ClearEvent_init s R C hinit]
  show forLoop (decodeModule withDebug ev) _ _ = _
  rw [forLoop_filter]
  · exact forLoop_flatMap (fun v (r : (Nat × Module) × Int) =>
      decodeHit withDebug ev r.1.1 r.1.2 v r.2) (fun id => ev.chans id.2.crate id.2.slot)
      s.fDetMap.enum _
  · intro r _ hp u
    have hout : r.2 > r.1.2.hi ∨ r.2 < r.1.2.lo := by
      have : ¬ (r.1.2.lo ≤ r.2 ∧ r.2 ≤ r.1.2.hi) := by simpa using hp
      omega
    unfold decodeHit
    rw [if_pos hout]

/-- C22: on an initialized detector, if every reading of the event that passes the range test
has a valid logical channel, two different accepted readings (different module entry or
different channel) never have the same logical channel, and no module reports a channel twice,
then `Decode` returns, `fAsum_p` and `fAsum_c` are the sums of the strictly positive entries of
`fA_p` and `fA_c`, and the hit count is the number of accepted readings, which is at most the
element count. -/
theorem C22_sums_of_positive_entries (withDebug : Bool) (s : Shower) (ev : THaEvData)
    (R C : Nat) (hinit : Init s R C)
    (hvalid : ∀ r ∈ accepted s ev, ∃ k ∈ List.range (R * C),
      logicalChannel s r.1.1 r.1.2 r.2 = some ((k : Nat) : Int))
    (hinj : ∀ r ∈ accepted s ev, ∀ r' ∈ accepted s ev,
      logicalChannel s r.1.1 r.1.2 r.2 = logicalChannel s r'.1.1 r'.1.2 r'.2 → r = r')
    (honce : ∀ d ∈ s.fDetMap, (ev.chans d.crate d.slot).Nodup) :
    ∃ s1, Decode withDebug s ev = some s1 ∧
      s1.fAsum_c = posSum s1.fA_c ∧ s1.fAsum_p = posSum s1.fA_p ∧
      s1.fNhits = ((accepted s ev).length : Int) ∧ s1.fNhits ≤ s1.fNelem ∧
      s1.fNelem = ((R * C : Nat) : Int) := by
  have hinit0 := cleared_init s R C hinit
  have hlc : ∀ (i : Nat) (d : Module) (c : Int),
      logicalChannel (cleared s (R * C) (min 3 R * min 3 C)) i d c = logicalChannel s i d c :=
    fun _ _ _ => rfl
  have hli : logicalIndex (cleared s (R * C) (min 3 R * min 3 C)) = logicalIndex s := rfl
  have hkeys : ∀ r ∈ accepted s ev, logicalIndex s r < R * C ∧
      logicalChannel s r.1.1 r.1.2 r.2 = some ((logicalIndex s r : Nat) : Int) := by
    intro r hr
    obtain ⟨k, hk, hkeq⟩ := hvalid r hr
    have : logicalIndex s r = k := by
      unfold logicalIndex
      rw [hkeq]
      simp
    rw [this]
    exact ⟨List.mem_range.mp hk, hkeq⟩
  have hnd : ((accepted s ev).map (logicalIndex s)).Nodup := by
    apply List.Nodup.map_on
    · intro x hx y hy hxy
      apply hinj x hx y hy
      rw [(hkeys x hx).2, (hkeys y hy).2, hxy]
    · exact (readings_nodup s ev honce).filter _
  have hT0 : Tally (cleared s (R * C) (min 3 R * min 3 C)) []
      (cleared s (R * C) (min 3 R * min 3 C)) :=
    { frame := DecodeFrame.refl _
      hits := by simp
      zeroP := fun j _ => by
        show (List.replicate (R * C) (0 : ℚ)).getD j 0 = 0
        rw [List.getD_eq_getElem?_getD, List.getElem?_replicate]
        split <;> rfl
      zeroC := fun j _ => by
        show (List.replicate (R * C) (0 : ℚ)).getD j 0 = 0
        rw [List.getD_eq_getElem?_getD, List.getElem?_replicate]
        split <;> rfl
      sumP := (posSum_replicate_zero _).symm
      sumC := (posSum_replicate_zero _).symm }
  obtain ⟨s1, hs1, hT⟩ := tallyLoop withDebug ev _ R C hinit0 (accepted s ev) [] _ hT0
    (fun r hr => by
      have hmem := (List.mem_filter.mp hr).2
      refine ⟨by simpa using hmem, logicalIndex s r, (hkeys r hr).1, ?_⟩
      rw [hlc]
      exact (hkeys r hr).2)
    (by rw [hli]; exact hnd)
    (fun _ _ r' hr' => by simp at hr')
  rw [List.nil_append] at hT
  have hlen : (accepted s ev).length ≤ R * C := by
    have h1 : ((accepted s ev).map (logicalIndex s)).toFinset ⊆ Finset.range (R * C) := by
      intro k hk
      obtain ⟨r, hr, rfl⟩ := List.mem_map.mp (List.mem_toFinset.mp hk)
      exact Finset.mem_range.mpr (hkeys r hr).1
    have h2 := Finset.card_le_card h1
    rw [List.toFinset_card_of_nodup hnd, Finset.card_range, List.length_map] at h2
    exact h2
  have hN : s1.fNelem = ((R * C : Nat) : Int) := by rw [hT.frame.fNelem]; exact hinit.nelem
  have hhits : s1.fNhits = ((accepted s ev).length : Int) := by
    rw [hT.hits]
    show (0 : Int) + _ = _
    simp
  refine ⟨s1, by rw [Decode_accepted withDebug s ev R C hinit]; exact hs1, hT.sumC, hT.sumP,
    hhits, ?_, hN⟩
  rw [hhits, hN]
  exact_mod_cast hlen

/-- Witness of C22: `demoShower` and `demoEvent`, whose channels 4, 5 and 7 are accepted. -/
theorem C22_witness :
    Init demoShower 3 4 ∧
    (∀ r ∈ accepted demoShower demoEvent, ∃ k ∈ List.range (3 * 4),
      logicalChannel demoShower r.1.1 r.1.2 r.2 = some ((k : Nat) : Int)) ∧
    (∀ r ∈ accepted demoShower demoEvent, ∀ r' ∈ accepted demoShower demoEvent,
      logicalChannel demoShower r.1.1 r.1.2 r.2
        = logicalChannel demoShower r'.1.1 r'.1.2 r'.2 → r = r') ∧
    (∀ d ∈ demoShower.fDetMap, (demoEvent.chans d.crate d.slot).Nodup) ∧
    (accepted demoShower demoEvent).length = 3 ∧
    ∃ s1, Decode false demoShower demoEvent = some s1 ∧
      s1.fAsum_c = posSum s1.fA_c ∧ s1.fAsum_p = posSum s1.fA_p ∧
      s1.fNhits = ((accepted demoShower demoEvent).length : Int) ∧ s1.fNhits ≤ s1.fNelem ∧
      s1.fNelem = ((3 * 4 : Nat) : Int) :=
  ⟨by constructor <;> decide, by decide, by decide, by decide, by decide,
    C22_sums_of_positive_entries false demoShower demoEvent 3 4 (by constructor <;> decide)
      (by decide) (by decide) (by decide)⟩

/-! ## The cluster builder after the decoder -/

/-- The decoding loop stores at logical channels below 65535 only: the channel map holds
`UShort_t` numbers `e`, and the logical channel is `e - 1`. -/
theorem decodeHit_below (withDebug : Bool) (ev : THaEvData) (i : Nat) (d : Module)
    (u t : Shower) (chan : Int) (hu : ∀ j, u.fA_c.getD j 0 ≠ 0 → j < 65535)
    (h : decodeHit withDebug ev i d u chan = some t) :
    ∀ j, t.fA_c.getD j 0 ≠ 0 → j < 65535 := by
  rcases decodeHit_spec withDebug ev i d u t chan h with ⟨_, heq⟩ |
    ⟨_, _, _, _, _, _, _, _, heq⟩ |
    ⟨_, e, k, _, _, _, _, _, _, hk, _, _, _, _, _, _, heq⟩
  · rw [heq]; exact hu
  · rw [heq]; exact hu
  · intro j hj
    have he : e.val < 65536 := e.isLt
    by_cases hkj : k = j
    · omega
    · rw [heq] at hj
      have hj' : (u.fA_c.set k _).getD j 0 ≠ 0 := hj
      rw [getD_set_ne _ _ _ _ hkj] at hj'
      exact hu j hj'

/-- After `Decode` on an initialized detector, a calibrated energy other than zero occurs only
at blocks below 65535. -/
theorem Decode_below (withDebug : Bool) (s t : Shower) (ev : THaEvData) (R C : Nat)
    (hinit : Init s R C) (h : Decode withDebug s ev = some t) :
    ∀ j, 0 < energy t j → j < 65535 := by
  unfold Decode at h
  rw [ClearEvent_init s R C hinit] at h
  have key := forLoop_inv (decodeModule withDebug ev)
    (fun u => ∀ j, u.fA_c.getD j 0 ≠ 0 → j < 65535)
    (fun u id u' hu hb =>
      forLoop_inv (decodeHit withDebug ev id.1 id.2)
        (fun v => ∀ j, v.fA_c.getD j 0 ≠ 0 → j < 65535)
        (fun v c v' hv hc => decodeHit_below withDebug ev id.1 id.2 v v' c hv hc)
        _ u u' hu hb)
    _ _ t (fun j hj => absurd (energy_cleared s _ _ j) hj) h
  intro j hj
  exact key j (ne_of_gt hj)

/-- C1: for an initialized geometry of `R` rows and `C` columns and the calibrated energies that
`Decode` leaves for any event, `CoarseProcess` returns without an access outside the arrays, and
the number of members it stores is at least 1 and at most the cap `min 3 R * min 3 C` to which
`fNblk` and `fEblk` are sized. -/
theorem C1_members_within_cap (withDebug : Bool) (s0 s : Shower) (ev : THaEvData) (R C : Nat)
    (hinit : Init s0 R C) (hd : Decode withDebug s0 ev = some s) :
    ∃ s', CoarseProcess s = some s' ∧
      (s'.fNclust = 1 →
        1 ≤ s'.fMult ∧ s'.fMult ≤ s.fNclublk ∧ s'.fMult = ((members s').length : Int) ∧
        (members s').length ≤ s'.fNblk.length ∧ (memberEnergies s').length ≤ s'.fEblk.length ∧
        s'.fNblk.length = min 3 R * min 3 C ∧ s'.fEblk.length = min 3 R * min 3 C) :=
  members_within_cap s R C (Decode_frame withDebug s0 s ev R C hinit hd).2
    (Decode_below withDebug s0 s ev R C hinit hd)

/-- Witness of C1: the 3 by 4 detector `demoShower` and the event `demoEvent`. -/
theorem C1_witness :
    Init demoShower 3 4 ∧ Decode false demoShower demoEvent = some demoDecoded ∧
    ∃ s', CoarseProcess demoDecoded = some s' ∧
      (s'.fNclust = 1 →
        1 ≤ s'.fMult ∧ s'.fMult ≤ demoDecoded.fNclublk ∧
        s'.fMult = ((members s').length : Int) ∧
        (members s').length ≤ s'.fNblk.length ∧
        (memberEnergies s').length ≤ s'.fEblk.length ∧
        s'.fNblk.length = min 3 3 * min 3 4 ∧ s'.fEblk.length = min 3 3 * min 3 4) :=
  ⟨by constructor <;> decide, demo_decode,
    C1_members_within_cap false demoShower demoDecoded demoEvent 3 4
      (by constructor <;> decide) demo_decode⟩

/-- C4: when `CoarseProcess`, run on what `Decode` leaves for an event, finds a cluster with
seed `nmax`, a block `i` other than the seed is a member if and only if its energy is strictly
positive and its row and column distances from the seed (row = index mod rows,
column = index div rows) lie strictly between -2 and 2; the member list is the same whatever the
configured block positions are. -/
theorem C4_member_iff_in_window (withDebug : Bool) (s0 s s' : Shower) (ev : THaEvData)
    (R C : Nat) (hinit : Init s0 R C) (hd : Decode withDebug s0 ev = some s)
    (h : CoarseProcess s = some s') (hc : s'.fNclust = 1) :
    ∃ nmax : Nat, IsSeed s nmax ∧ s'.fNblk[0]? = some (nmax : Int) ∧
      (∀ i, i < s.fNelem.toNat → i ≠ nmax →
        ((i : Int) ∈ members s' ↔ (0 < energy s i ∧ inWindow R nmax i))) ∧
      (∀ (bx bY : List ℚ) (t' : Shower),
        CoarseProcess { s with fBlockX := bx, fBlockY := bY } = some t' →
        members t' = members s') :=
  member_iff_in_window s s' R C (Decode_frame withDebug s0 s ev R C hinit hd).2
    (Decode_below withDebug s0 s ev R C hinit hd) h hc

/-- Witness of C4: the 3 by 4 detector `demoShower` and the event `demoEvent`. -/
theorem C4_witness :
    Init demoShower 3 4 ∧ Decode false demoShower demoEvent = some demoDecoded ∧
    CoarseProcess demoDecoded = some demoClustered ∧ demoClustered.fNclust = 1 ∧
    ∃ nmax : Nat, IsSeed demoDecoded nmax ∧ demoClustered.fNblk[0]? = some (nmax : Int) ∧
      (∀ i, i < demoDecoded.fNelem.toNat → i ≠ nmax →
        ((i : Int) ∈ members demoClustered ↔
          (0 < energy demoDecoded i ∧ inWindow 3 nmax i))) ∧
      (∀ (bx bY : List ℚ) (t' : Shower),
        CoarseProcess { demoDecoded with fBlockX := bx, fBlockY := bY } = some t' →
        members t' = members demoClustered) :=
  ⟨by constructor <;> decide, demo_decode, demo_cluster, by decide,
    C4_member_iff_in_window false demoShower demoDecoded demoClustered demoEvent 3 4
      (by constructor <;> decide) demo_decode demo_cluster (by decide)⟩

/-! ## Rows and columns of the cluster builder -/

theorem longDatabase_valid : ValidConfig 100 longDatabase 1 40000 where
  nrows := by decide
  ncols := by decide
  rows_pos := by decide
  cols_pos := by decide
  small := by decide
  modules_pos := by decide
  modules_le := by decide
  channels := by decide
  chanMap := by
    show ([(⟨1, 2, 0, 39999⟩ : Module)].map (fun d => (nChan d).val)).sum ≤ longChanMap.length
    unfold longChanMap
    rw [List.length_map, List.length_range]
    decide
  peds := by
    show 1 * 40000 ≤ (List.replicate 40000 (0 : ℚ)).length
    rw [List.length_replicate]
  gains := by
    show 1 * 40000 ≤ (List.replicate 40000 (1 : ℚ)).length
    rw [List.length_replicate]

/-- C16 (amended): after a successful `ReadDatabase` with `R` rows and `C` columns, for every
row `r < R` and column `c < C` the block `k = R*c + r` lies in `[0, R*C)` and has the position
`x = x0 + r*dx`, `y = y0 + c*dy`; `k mod R = r` and `k div R = c` (also with the `int` division
and remainder by `fNrows`); the row that the cluster builder holds for the block (`seedRow`:
the remainder by `fNrows`, stored in a `short`) is `r` when `r <= 32767`, and the column it
holds (`seedCol`: the quotient, stored in a `short`) is `c` when `c <= 32767`; every `k < R*C`
is `R*c + r` for its own `c = k div R < C` and `r = k mod R < R`. -/
theorem C16_block_positions (kDetMapSize : Nat) (s s1 : Shower) (db : Database) (R C : Nat)
    (h : ReadDatabase kDetMapSize s (some db) = some (EStatus.kOK, s1))
    (hR : db.nrows = (R : Int)) (hC : db.ncols = (C : Int)) :
    s1.fNrows = (R : Int) ∧ s1.fNelem = ((R * C : Nat) : Int) ∧
    (∀ r c, r < R → c < C →
      s1.fBlockX[R * c + r]? = some (db.x + (r : ℚ) * db.dx) ∧
      s1.fBlockY[R * c + r]? = some (db.y + (c : ℚ) * db.dy) ∧
      R * c + r < R * C ∧ (R * c + r) % R = r ∧ (R * c + r) / R = c ∧
      Int.tmod ((R * c + r : Nat) : Int) s1.fNrows = (r : Int) ∧
      Int.tdiv ((R * c + r : Nat) : Int) s1.fNrows = (c : Int) ∧
      (r ≤ 32767 → seedRow s1 ((R * c + r : Nat) : Int) = (r : Int)) ∧
      (c ≤ 32767 → seedCol s1 ((R * c + r : Nat) : Int) = (c : Int))) ∧
    (∀ k, k < R * C → k % R < R ∧ k / R < C ∧ R * (k / R) + k % R = k) := by
  obtain ⟨h1, h2, h3, h4⟩ := block_positions kDetMapSize s s1 db R C h hR hC
  refine ⟨h1, h2, ?_, h4⟩
  intro r c hr hc
  obtain ⟨g1, g2, g3, g4, g5, g6, g7⟩ := h3 r c hr hc
  refine ⟨g1, g2, g3, g4, g5, g6, g7, ?_, ?_⟩
  · intro hr'
    unfold seedRow
    rw [g6]
    exact toShort_small _ (by omega) (by omega)
  · intro hc'
    unfold seedCol
    rw [g7]
    exact toShort_small _ (by omega) (by omega)

/-- C16 as stated fails: for the header `40000 1` (one row, 40000 columns) `ReadDatabase`
succeeds and gives block 39999, of row 0 and column 39999 = 39999 div 1, the position
`y = y0 + 39999*dy`; the cluster builder holds the column of a block in a `short` (lines
419-432), and for block 39999 this is 39999 - 65536 = -25537. -/
theorem C16_counterexample :
    ∃ s1, ReadDatabase 100 blankShower (some longDatabase) = some (EStatus.kOK, s1) ∧
      s1.fNrows = 1 ∧ s1.fNelem = 40000 ∧
      s1.fBlockY[39999]? = some (longDatabase.y + 39999 * longDatabase.dy) ∧
      (39999 : Nat) / 1 = 39999 ∧ (39999 : Nat) % 1 = 0 ∧
      seedCol s1 39999 = -25537 ∧ seedCol s1 39999 ≠ 39999 := by
  obtain ⟨s1, h1, _⟩ := ReadDatabase_first 100 blankShower longDatabase 1 40000
    longDatabase_valid rfl
  obtain ⟨g1, g2, g3, _⟩ := block_positions 100 blankShower s1 longDatabase 1 40000 h1
    (by decide) (by decide)
  obtain ⟨_, hy, _⟩ := g3 0 39999 (by decide) (by decide)
  have hcol : seedCol s1 39999 = -25537 := by
    unfold seedCol
    rw [g1]
    decide
  refine ⟨s1, h1, g1, g2, ?_, by decide, by decide, hcol, ?_⟩
  · have hidx : 1 * 39999 + 0 = 39999 := by decide
    rw [hidx] at hy
    rw [hy]
    norm_num
  · rw [hcol]
    decide

/-- Witness of C16: `blankShower` and `demoDatabase` (3 rows, 4 columns). -/
theorem C16_witness :
    ReadDatabase 100 blankShower (some demoDatabase) = some (EStatus.kOK, demoReady) ∧
    demoDatabase.nrows = ((3 : Nat) : Int) ∧ demoDatabase.ncols = ((4 : Nat) : Int) ∧
    (demoReady.fNrows = ((3 : Nat) : Int) ∧ demoReady.fNelem = ((3 * 4 : Nat) : Int) ∧
    (∀ r c : Nat, r < 3 → c < 4 →
      demoReady.fBlockX[3 * c + r]? = some (demoDatabase.x + (r : ℚ) * demoDatabase.dx) ∧
      demoReady.fBlockY[3 * c + r]? = some (demoDatabase.y + (c : ℚ) * demoDatabase.dy) ∧
      3 * c + r < 3 * 4 ∧ (3 * c + r) % 3 = r ∧ (3 * c + r) / 3 = c ∧
      Int.tmod ((3 * c + r : Nat) : Int) demoReady.fNrows = (r : Int) ∧
      Int.tdiv ((3 * c + r : Nat) : Int) demoReady.fNrows = (c : Int) ∧
      (r ≤ 32767 → seedRow demoReady ((3 * c + r : Nat) : Int) = (r : Int)) ∧
      (c ≤ 32767 → seedCol demoReady ((3 * c + r : Nat) : Int) = (c : Int))) ∧
    (∀ k : Nat, k < 3 * 4 → k % 3 < 3 ∧ k / 3 < 4 ∧ 3 * (k / 3) + k % 3 = k)) :=
  ⟨demo_ready, rfl, rfl,
    C16_block_positions 100 blankShower demoReady demoDatabase 3 4 demo_ready rfl rfl⟩

/-! ## Clusters of energy zero -/

end THaShower

namespace THaString

theorem runs_nil (p : Char8 → Bool) : runs p [] = [] := rfl

theorem runs_cons_space (p : Char8 → Bool) (x : Char8) (xs : List Char8) (h : p x = true) :
    runs p (x :: xs) = runs p xs := by
  unfold runs
  rw [List.splitOnP_cons, if_pos h, List.filter_cons]
  simp

theorem runs_dropWhile (p : Char8 → Bool) (l : List Char8) :
    runs p (l.dropWhile p) = runs p l := by
  induction l with
  | nil => rfl
  | cons x xs ih =>
    by_cases h : p x = true
    · rw [List.dropWhile_cons_of_pos h, ih, runs_cons_space p x xs h]
    · rw [List.dropWhile_cons, if_neg h]

theorem runs_word (p : Char8 → Bool) (w rest : List Char8) (hw : ∀ x ∈ w, ¬ p x = true)
    (hne : w ≠ []) (hrest : rest = [] ∨ ∃ sep as, rest = sep :: as ∧ p sep = true) :
    runs p (w ++ rest) = w :: runs p rest := by
  have hwe : (!w.isEmpty) = true := by
    cases w with
    | nil => exact absurd rfl hne
    | cons a l => rfl
  rcases hrest with rfl | ⟨sep, as, rfl, hsep⟩
  · unfold runs
    rw [List.append_nil, List.splitOnP_eq_single p w hw]
    simp [hwe]
  · rw [runs_cons_space p sep as hsep]
    unfold runs
    rw [List.splitOnP_first p w hw sep hsep, List.filter_cons, if_pos hwe]

/-- One extraction: the first run of the stream and what is left after it. -/
theorem runs_extract (p : Char8 → Bool) (ist : List Char8) :
    (extract p ist = none ∧ runs p ist = []) ∨
    ∃ w rest, extract p ist = some (w, rest) ∧ runs p ist = w :: runs p rest ∧
      rest.length < ist.length ∧ w ≠ [] ∧ (∀ c ∈ w, p c = false ∧ c ∈ ist) ∧
      ∀ c ∈ rest, c ∈ ist := by
  unfold extract
  cases hd : ist.dropWhile p with
  | nil =>
    left
    refine ⟨rfl, ?_⟩
    rw [← runs_dropWhile, hd]
    rfl
  | cons c t =>
    right
    have hc : p c = false := by
      have := List.head?_dropWhile_not p ist
      rw [hd] at this
      exact this
    have hsplit := List.takeWhile_append_dropWhile (fun x => !p x) (c :: t)
    have hsub : ∀ x ∈ c :: t, x ∈ ist := fun x hx =>
      (List.dropWhile_sublist p).subset (hd ▸ hx)
    refine ⟨_, _, rfl, ?_, ?_, ?_, ?_, ?_⟩
    · rw [← runs_dropWhile p ist, hd]
      nth_rewrite 1 [← hsplit]
      apply runs_word
      · intro x hx
        have := List.mem_takeWhile_imp hx
        simpa using this
      · rw [List.takeWhile_cons_of_pos (by simp [hc])]
        exact List.cons_ne_nil _ _
      · cases hr : (c :: t).dropWhile (fun x => !p x) with
        | nil => exact Or.inl rfl
        | cons a l =>
          right
          refine ⟨a, l, rfl, ?_⟩
          have := List.head?_dropWhile_not (fun x => !p x) (c :: t)
          rw [hr] at this
          simpa using this
    · have h1 : ((c :: t).dropWhile (fun x => !p x)).length ≤ t.length := by
        rw [List.dropWhile_cons_of_pos (by simp [hc])]
        exact (List.dropWhile_sublist _).length_le
      have h2 : (c :: t).length ≤ ist.length := by
        rw [← hd]
        exact (List.dropWhile_sublist p).length_le
      simp only [List.length_cons] at h2
      omega
    · rw [List.takeWhile_cons_of_pos (by simp [hc])]
      exact List.cons_ne_nil _ _
    · intro x hx
      refine ⟨by simpa using List.mem_takeWhile_imp hx, hsub x ?_⟩
      exact (List.takeWhile_sublist _).subset hx
    · intro x hx
      exact hsub x ((List.dropWhile_sublist _).subset hx)

/-- The loop of `Split` returns the maximal runs of the stream, given enough extractions. -/
theorem splitLoop_runs (p : Char8 → Bool) :
    ∀ (fuel : Nat) (ist : List Char8) (v : List (List Char8)), ist.length < fuel →
      splitLoop p fuel ist v = some (v ++ runs p ist) := by
  intro fuel
  induction fuel with
  | zero => intro ist v h; exact absurd h (Nat.not_lt_zero _)
  | succ n ih =>
    intro ist v h
    unfold splitLoop
    rcases runs_extract p ist with ⟨he, hr⟩ | ⟨w, rest, he, hr, hlen, _, _, _⟩
    · rw [he, hr, List.append_nil]
    · rw [he, hr]
      simp only []
      rw [ih rest (v ++ [w]) (by omega), List.append_assoc]
      rfl

theorem runs_tokens (p : Char8 → Bool) :
    ∀ (n : Nat) (ist : List Char8), ist.length < n →
      ∀ w ∈ runs p ist, w ≠ [] ∧ ∀ c ∈ w, p c = false ∧ c ∈ ist := by
  intro n
  induction n with
  | zero => intro ist h; exact absurd h (Nat.not_lt_zero _)
  | succ n ih =>
    intro ist h w hw
    rcases runs_extract p ist with ⟨_, hr⟩ | ⟨w0, rest, _, hr, hlen, hne, hcs, hrest⟩
    · rw [hr] at hw
      exact absurd hw (List.not_mem_nil _)
    · rw [hr] at hw
      rcases List.mem_cons.mp hw with rfl | hw
      · exact ⟨hne, hcs⟩
      · obtain ⟨h1, h2⟩ := ih rest (by omega) w hw
        exact ⟨h1, fun c hc => ⟨(h2 c hc).1, hrest c (h2 c hc).2⟩⟩

theorem runs_joinWith (p : Char8 → Bool) (sep : Char8) (hsep : p sep = true) :
    ∀ v : List (List Char8), (∀ w ∈ v, w ≠ [] ∧ ∀ c ∈ w, p c = false) →
      runs p (joinWith sep v) = v := by
  intro v
  induction v with
  | nil => intro _; rfl
  | cons w v ih =>
    intro h
    obtain ⟨hne, hw⟩ := h w (List.mem_cons_self w v)
    have hw' : ∀ x ∈ w, ¬ p x = true := fun x hx => by rw [hw x hx]; simp
    cases v with
    | nil =>
      have := runs_word p w [] hw' hne (Or.inl rfl)
      rw [List.append_nil] at this
      exact this
    | cons w' v' =>
      show runs p (w ++ sep :: joinWith sep (w' :: v')) = _
      rw [runs_word p w _ hw' hne (Or.inr ⟨sep, _, rfl, hsep⟩), runs_cons_space p sep _ hsep,
        ih (fun x hx => h x (List.mem_cons_of_mem w hx))]

theorem c_str_of_no_nul (s : List Char8) (h : ∀ c ∈ s, c ≠ 0) : c_str s = s := by
  unfold c_str
  rw [List.takeWhile_eq_self_iff]
  intro x hx
  simpa using h x hx

theorem mem_c_str (s : List Char8) (c : Char8) (h : c ∈ c_str s) : c ∈ s ∧ c ≠ 0 :=
  ⟨(List.takeWhile_sublist _).subset h, by simpa using List.mem_takeWhile_imp h⟩

theorem mem_joinWith (sep : Char8) :
    ∀ (v : List (List Char8)) (c : Char8), c ∈ joinWith sep v → c = sep ∨ ∃ w ∈ v, c ∈ w := by
  intro v
  induction v with
  | nil => intro c h; exact absurd h (List.not_mem_nil _)
  | cons w v ih =>
    intro c h
    cases v with
    | nil => exact Or.inr ⟨w, List.mem_cons_self _ _, h⟩
    | cons w' v' =>
      have h' : c ∈ w ++ sep :: joinWith sep (w' :: v') := h
      rcases List.mem_append.mp h' with h1 | h1
      · exact Or.inr ⟨w, List.mem_cons_self _ _, h1⟩
      · rcases List.mem_cons.mp h1 with h2 | h2
        · exact Or.inl h2
        · rcases ih c h2 with h3 | ⟨x, hx, hcx⟩
          · exact Or.inl h3
          · exact Or.inr ⟨x, List.mem_cons_of_mem _ hx, hcx⟩

/-- C20 (amended): `Split(s)` returns, whenever the loop is given more extractions than the
string has characters, the maximal runs of non-whitespace characters of the part of `s` before
its first NUL, in order (of `s` itself when `s` holds no NUL); no token is empty or holds
whitespace or NUL; a string of whitespace only gives no token; and, the space being whitespace,
`Split` of the tokens joined by single spaces returns the same tokens. -/
theorem C20_Split_runs (isspace : Char8 → Bool) (s : List Char8) (hsp : isspace 32 = true) :
    Split isspace s = some (runs isspace (c_str s)) ∧
    (∀ fuel, (c_str s).length < fuel →
      splitLoop isspace fuel (c_str s) [] = some (runs isspace (c_str s))) ∧
    ((∀ c ∈ s, c ≠ 0) → Split isspace s = some (runs isspace s)) ∧
    (∀ w ∈ runs isspace (c_str s), w ≠ [] ∧ ∀ c ∈ w, isspace c = false ∧ c ≠ 0 ∧ c ∈ s) ∧
    ((∀ c ∈ s, isspace c = true) → Split isspace s = some []) ∧
    Split isspace (joinWith 32 (runs isspace (c_str s))) = some (runs isspace (c_str s)) := by
  have hloop : ∀ (t : List Char8) (fuel : Nat), t.length < fuel →
      splitLoop isspace fuel t [] = some (runs isspace t) := by
    intro t fuel h
    rw [splitLoop_runs isspace fuel t [] h, List.nil_append]
  have hsplit : ∀ t : List Char8, Split isspace t = some (runs isspace (c_str t)) :=
    fun t => hloop (c_str t) _ (Nat.lt_succ_self _)
  have htok := runs_tokens isspace _ (c_str s) (Nat.lt_succ_self _)
  refine ⟨hsplit s, hloop (c_str s), ?_, ?_, ?_, ?_⟩
  · intro h
    rw [hsplit s, c_str_of_no_nul s h]
  · intro w hw
    obtain ⟨h1, h2⟩ := htok w hw
    exact ⟨h1, fun c hc => ⟨(h2 c hc).1, (mem_c_str s c (h2 c hc).2).2,
      (mem_c_str s c (h2 c hc).2).1⟩⟩
  · intro h
    rw [hsplit s]
    cases hr : runs isspace (c_str s) with
    | nil => rfl
    | cons w v =>
      obtain ⟨h1, h2⟩ := htok w (by rw [hr]; exact List.mem_cons_self _ _)
      obtain ⟨c, hc⟩ := List.exists_mem_of_ne_nil w h1
      have h3 := h2 c hc
      rw [h c (mem_c_str s c h3.2).1] at h3
      exact absurd h3.1 (by simp)
  · rw [hsplit, c_str_of_no_nul, runs_joinWith isspace 32 hsp]
    · intro w hw
      exact ⟨(htok w hw).1, fun c hc => ((htok w hw).2 c hc).1⟩
    · intro c hc
      rcases mem_joinWith 32 _ c hc with rfl | ⟨w, hw, hcw⟩
      · decide
      · exact (mem_c_str s c ((htok w hw).2 c hcw).2).2

/-- C20 as stated fails for a string that holds a NUL: `Split` of the three characters `a`,
NUL, `b` reads `s.c_str()`, which ends at the NUL, and returns the single token `a`, while the
only maximal run of non-whitespace characters of the string is the string itself. -/
theorem C20_counterexample :
    Split spaceC [97, 0, 98] = some [[97]] ∧ runs spaceC [97, 0, 98] = [[97, 0, 98]] ∧
    Split spaceC [97, 0, 98] ≠ some (runs spaceC [97, 0, 98]) ∧ spaceC 0 = false := by
  decide

/-- Witness of C20: the string `ab  cd` (two spaces) in the "C" locale. -/
theorem C20_witness :
    spaceC 32 = true ∧
    runs spaceC (c_str [97, 98, 32, 32, 99, 100]) = [[97, 98], [99, 100]] ∧
    joinWith 32 [[97, 98], [99, 100]] = [97, 98, 32, 99, 100] ∧
    (Split spaceC [97, 98, 32, 32, 99, 100]
        = some (runs spaceC (c_str [97, 98, 32, 32, 99, 100])) ∧
    (∀ fuel, (c_str [97, 98, 32, 32, 99, 100]).length < fuel →
      splitLoop spaceC fuel (c_str [97, 98, 32, 32, 99, 100]) []
        = some (runs spaceC (c_str [97, 98, 32, 32, 99, 100]))) ∧
    ((∀ c ∈ [97, 98, 32, 32, 99, 100], c ≠ (0 : Char8)) →
      Split spaceC [97, 98, 32, 32, 99, 100] = some (runs spaceC [97, 98, 32, 32, 99, 100])) ∧
    (∀ w ∈ runs spaceC (c_str [97, 98, 32, 32, 99, 100]), w ≠ [] ∧
      ∀ c ∈ w, spaceC c = false ∧ c ≠ 0 ∧ c ∈ [97, 98, 32, 32, 99, 100]) ∧
    ((∀ c ∈ [97, 98, 32, 32, 99, 100], spaceC c = true) →
      Split spaceC [97, 98, 32, 32, 99, 100] = some []) ∧
    Split spaceC (joinWith 32 (runs spaceC (c_str [97, 98, 32, 32, 99, 100])))
      = some (runs spaceC (c_str [97, 98, 32, 32, 99, 100]))) :=
  ⟨by decide, by decide, by decide, C20_Split_runs spaceC [97, 98, 32, 32, 99, 100] (by decide)⟩

theorem lex_cons_cons (a b : Int) (as bs : List Int) :
    List.Lex (· < ·) (a :: as) (b :: bs) ↔ a < b ∨ (a = b ∧ List.Lex (· < ·) as bs) := by
  constructor
  · intro h
    cases h with
    | cons h' => exact Or.inr ⟨rfl, h'⟩
    | rel h' => exact Or.inl h'
  · rintro (h | ⟨rfl, h⟩)
    · exact List.Lex.rel h
    · exact List.Lex.cons h

/-- The loop of `CmpNoCase` from the iterators `p`, `p2` on, when both have advanced by the
same number of characters and `toupper` is defined for the characters left: the result is the
sign of the lexicographic comparison of the `int` values that `toupper` returns. -/
theorem cmpFrom_spec (toupper : Int → Int) (r s : List Int) :
    ∀ (p p2 : List Int), r.length + p2.length = s.length + p.length →
      (∀ c ∈ p, (0 ≤ c ∧ c ≤ 255) ∨ c = -1) → (∀ c ∈ p2, (0 ≤ c ∧ c ≤ 255) ∨ c = -1) →
      ∃ k, cmpFrom toupper r s p p2 = some k ∧
        (k = -1 ↔ List.Lex (· < ·) (p.map toupper) (p2.map toupper)) ∧
        (k = 0 ↔ p.map toupper = p2.map toupper) ∧
        (k = 1 ↔ List.Lex (· < ·) (p2.map toupper) (p.map toupper)) ∧
        (k = -1 ∨ k = 0 ∨ k = 1) := by
  intro p
  induction p with
  | nil =>
    intro p2 h _ _
    cases p2 with
    | nil =>
      have hl : r.length = s.length := by simpa using h
      exact ⟨0, by simp [cmpFrom, hl], by simp [List.Lex.not_nil_right]⟩
    | cons c2 p2 =>
      have hl : r.length < s.length := by simp at h; omega
      have hne : r.length ≠ s.length := by omega
      exact ⟨-1, by simp [cmpFrom, hl, hne], by simp [List.Lex.not_nil_right, List.Lex.nil]⟩
  | cons c p ih =>
    intro p2 h hd hd2
    cases p2 with
    | nil =>
      have hl : ¬ r.length < s.length := by simp at h; omega
      have hne : r.length ≠ s.length := by simp at h; omega
      exact ⟨1, by simp [cmpFrom, hl, hne], by simp [List.Lex.not_nil_right, List.Lex.nil]⟩
    | cons c2 p2 =>
      obtain ⟨k, hk, ih'⟩ := ih p2 (by simp at h; omega)
        (fun x hx => hd x (List.mem_cons_of_mem c hx))
        (fun x hx => hd2 x (List.mem_cons_of_mem c2 hx))
      have e1 : ctype toupper c = some (toupper c) := by
        unfold ctype; rw [if_pos (hd c (List.mem_cons_self c p))]
      have e2 : ctype toupper c2 = some (toupper c2) := by
        unfold ctype; rw [if_pos (hd2 c2 (List.mem_cons_self c2 p2))]
      simp only [cmpFrom, e1, e2, List.map_cons, lex_cons_cons, List.cons.injEq]
      by_cases hne : toupper c = toupper c2
      · simp only [hne, ne_eq, not_true_eq_false, if_false, lt_irrefl, true_and, false_or]
        exact ⟨k, hk, ih'⟩
      · simp only [ne_eq, hne, not_false_eq_true, if_true, false_and, or_false]
        have hne' : ¬ toupper c2 = toupper c := fun h' => hne h'.symm
        rcases lt_or_gt_of_ne hne with hlt | hgt
        · have hng : ¬ toupper c2 < toupper c := not_lt_of_gt hlt
          exact ⟨-1, by simp [hlt], by simp [hlt, hng, hne']⟩
        · have hng : ¬ toupper c < toupper c2 := not_lt_of_gt hgt
          exact ⟨1, by simp [hng], by simp [hgt, hng, hne']⟩

theorem toChar_fixed (signed : Bool) (u : Int) (h : toChar signed u = u) :
    -128 ≤ u ∧ u ≤ 255 := by
  unfold toChar at h
  cases signed with
  | true =>
    simp only [if_true] at h
    omega
  | false =>
    simp only [Bool.false_eq_true, if_false] at h
    omega

/-- `ToUpper` of a string for whose characters `toupper` is defined and returns `char` values:
the list of the values that `toupper` returns. -/
theorem ToUpper_eq (signed : Bool) (toupper : Int → Int) (s : List Int)
    (hdef : ∀ c ∈ s, (0 ≤ c ∧ c ≤ 255) ∨ c = -1)
    (himg : ∀ c ∈ s, toChar signed (toupper c) = toupper c) :
    ToUpper signed toupper s = some (s.map toupper) := by
  induction s with
  | nil => rfl
  | cons c s ih =>
    have e1 : ctype toupper c = some (toupper c) := by
      unfold ctype; rw [if_pos (hdef c (List.mem_cons_self c s))]
    simp only [ToUpper, e1, ih (fun x hx => hdef x (List.mem_cons_of_mem c hx))
      (fun x hx => himg x (List.mem_cons_of_mem c hx)), List.map_cons,
      himg c (List.mem_cons_self c s)]

theorem map_byte_small (l : List Int) (h : ∀ u ∈ l, 0 ≤ u ∧ u ≤ 255) : l.map byte = l := by
  induction l with
  | nil => rfl
  | cons a l ih =>
    have ha := h a (List.mem_cons_self a l)
    have e : byte a = a := by unfold byte; omega
    rw [List.map_cons, e, ih (fun x hx => h x (List.mem_cons_of_mem a hx))]

/-- C19 (amended): for strings `r`, `s` for whose characters `toupper` is defined and returns
values of plain `char`, `ToUpper(r)`, `ToUpper(s)` and `CmpNoCase(r, s)` are defined,
`CmpNoCase(r, s)` is -1, 0 or 1, it is 0 exactly when `ToUpper(r) = ToUpper(s)`, and
`CmpNoCase(s, r) = -CmpNoCase(r, s)`; when in addition the values that `toupper` returns for
the characters are not negative (which leaves out the character -1 where plain `char` is
signed), `CmpNoCase(r, s)` is -1 exactly when `ToUpper(r)` is less than `ToUpper(s)` in the
order of `std::string`, and 1 exactly when `ToUpper(s)` is less than `ToUpper(r)`. -/
theorem C19_CmpNoCase_sign (signed : Bool) (toupper : Int → Int) (r s : List Int)
    (hdef : ∀ c ∈ r ++ s, (0 ≤ c ∧ c ≤ 255) ∨ c = -1)
    (himg : ∀ c ∈ r ++ s, toChar signed (toupper c) = toupper c) :
    ∃ (R S : List Int) (k : Int),
      ToUpper signed toupper r = some R ∧ ToUpper signed toupper s = some S ∧
      CmpNoCase toupper r s = some k ∧ (k = -1 ∨ k = 0 ∨ k = 1) ∧ (k = 0 ↔ R = S) ∧
      CmpNoCase toupper s r = some (-k) ∧
      ((∀ c ∈ r ++ s, 0 ≤ toupper c) → (k = -1 ↔ strLess R S) ∧ (k = 1 ↔ strLess S R)) := by
  have dr : ∀ c ∈ r, (0 ≤ c ∧ c ≤ 255) ∨ c = -1 :=
    fun c hc => hdef c (List.mem_append_left s hc)
  have ds : ∀ c ∈ s, (0 ≤ c ∧ c ≤ 255) ∨ c = -1 :=
    fun c hc => hdef c (List.mem_append_right r hc)
  have ir : ∀ c ∈ r, toChar signed (toupper c) = toupper c :=
    fun c hc => himg c (List.mem_append_left s hc)
  have is' : ∀ c ∈ s, toChar signed (toupper c) = toupper c :=
    fun c hc => himg c (List.mem_append_right r hc)
  obtain ⟨k, hk, h1, h2, h3, h4⟩ := cmpFrom_spec toupper r s r s (Nat.add_comm _ _) dr ds
  obtain ⟨k', hk', g1, g2, g3, _⟩ := cmpFrom_spec toupper s r s r (Nat.add_comm _ _) ds dr
  refine ⟨r.map toupper, s.map toupper, k, ToUpper_eq signed toupper r dr ir,
    ToUpper_eq signed toupper s ds is', hk, h4, h2, ?_, ?_⟩
  · unfold CmpNoCase
    rw [hk']
    rcases h4 with h | h | h
    · rw [h, g3.mpr (h1.mp h)]; rfl
    · rw [h, g2.mpr (h2.mp h).symm]; rfl
    · rw [h, g1.mpr (h3.mp h)]
  · intro hnn
    have br : (r.map toupper).map byte = r.map toupper := map_byte_small _ (fun u hu => by
      obtain ⟨c, hc, rfl⟩ := List.mem_map.mp hu
      exact ⟨hnn c (List.mem_append_left s hc), (toChar_fixed signed _ (ir c hc)).2⟩)
    have bs : (s.map toupper).map byte = s.map toupper := map_byte_small _ (fun u hu => by
      obtain ⟨c, hc, rfl⟩ := List.mem_map.mp hu
      exact ⟨hnn c (List.mem_append_right r hc), (toChar_fixed signed _ (is' c hc)).2⟩)
    unfold strLess
    rw [br, bs]
    exact ⟨h1, h3⟩

/-- C19 as stated fails where plain `char` is signed: for the string `r` of the one character
with byte 0xFF, whose `char` value is -1 (`EOF`, which `toupper` returns as it is), and the
string `s` = `A`, `CmpNoCase(r, s)` compares -1 with 65 and returns -1, while `ToUpper(r)` = `r`
is greater than `ToUpper(s)` = `A` in the order of `std::string`, which compares the bytes 255
and 65. -/
theorem C19_counterexample :
    toChar true 255 = -1 ∧ byte (-1) = 255 ∧ upperC (-1) = -1 ∧
    (∀ c ∈ ([-1] : List Int) ++ [65], (0 ≤ c ∧ c ≤ 255) ∨ c = -1) ∧
    (∀ c ∈ ([-1] : List Int) ++ [65], toChar true (upperC c) = upperC c) ∧
    CmpNoCase upperC [-1] [65] = some (-1) ∧
    ToUpper true upperC [-1] = some [-1] ∧ ToUpper true upperC [65] = some [65] ∧
    strLess [65] [-1] ∧ ¬ strLess [-1] [65] := by
  refine ⟨by decide, by decide, by decide, by decide, by decide, by decide, by decide,
    by decide, ?_, ?_⟩
  · unfold strLess; decide
  · unfold strLess; decide

/-- Witness of C19: the strings `ab` and `AC` in the "C" locale, plain `char` signed. -/
theorem C19_witness :
    (∀ c ∈ ([97, 98] : List Int) ++ [65, 67], (0 ≤ c ∧ c ≤ 255) ∨ c = -1) ∧
    (∀ c ∈ ([97, 98] : List Int) ++ [65, 67], toChar true (upperC c) = upperC c) ∧
    (∀ c ∈ ([97, 98] : List Int) ++ [65, 67], 0 ≤ upperC c) ∧
    CmpNoCase upperC [97, 98] [65, 67] = some (-1) ∧
    ∃ (R S : List Int) (k : Int),
      ToUpper true upperC [97, 98] = some R ∧ ToUpper true upperC [65, 67] = some S ∧
      CmpNoCase upperC [97, 98] [65, 67] = some k ∧ (k = -1 ∨ k = 0 ∨ k = 1) ∧
      (k = 0 ↔ R = S) ∧ CmpNoCase upperC [65, 67] [97, 98] = some (-k) ∧
      ((∀ c ∈ ([97, 98] : List Int) ++ [65, 67], 0 ≤ upperC c) →
        (k = -1 ↔ strLess R S) ∧ (k = 1 ↔ strLess S R)) :=
  ⟨by decide, by decide, by decide, by decide,
    C19_CmpNoCase_sign true upperC [97, 98] [65, 67] (by decide) (by decide)⟩

end THaString

namespace THaScalerEvtHandler

theorem occursAt_iff (data key : List THaString.Char8) (i : Nat) :
    OccursAt data key i ↔ i ≤ data.length ∧ (data.drop i).take key.length = key := by
  constructor
  · rintro ⟨pre, post, rfl, rfl⟩
    refine ⟨by simp only [List.length_append]; omega, ?_⟩
    rw [List.append_assoc, List.drop_left, List.take_left]
  · rintro ⟨hi, h⟩
    refine ⟨data.take i, (data.drop i).drop key.length, ?_, by simp [hi]⟩
    have h1 : data.take i ++ ((data.drop i).take key.length ++ (data.drop i).drop key.length)
        = data := by
      rw [List.take_append_drop, List.take_append_drop]
    rw [h] at h1
    rw [List.append_assoc]
    exact h1.symm

theorem find_eq_some (data key : List THaString.Char8) (i : Nat) :
    find data key = some i ↔ OccursAt data key i ∧ ∀ j, j < i → ¬ OccursAt data key j := by
  unfold find
  rw [List.find?_range_eq_some]
  simp only [decide_eq_true_eq, List.mem_range, Bool.not_eq_true', decide_eq_false_iff_not,
    occursAt_iff]
  constructor
  · rintro ⟨h1, h2, h3⟩
    exact ⟨⟨by omega, h1⟩, fun j hj hc => h3 j hj hc.2⟩
  · rintro ⟨⟨h1, h2⟩, h3⟩
    exact ⟨h2, by omega, fun j hj hc => h3 j hj ⟨by omega, hc⟩⟩

theorem find_eq_none (data key : List THaString.Char8) :
    find data key = none ↔ ∀ i, ¬ OccursAt data key i := by
  unfold find
  rw [List.find?_eq_none]
  simp only [List.mem_range, decide_eq_true_eq, occursAt_iff]
  constructor
  · intro h i hc
    exact h i (by omega) hc.2
  · intro h i hi hc
    exact h i ⟨by omega, hc⟩

theorem toSize_small (w : Nat) (i : Nat) (h : i < 2 ^ w) : toSize w (i : Int) = i := by
  unfold toSize
  have h' : ((i : Int)) < 2 ^ w := by exact_mod_cast h
  rw [Int.emod_eq_of_lt (by omega) h']
  simp

theorem toSize_neg_one (w : Nat) : toSize w (-1) = 2 ^ w - 1 := by
  unfold toSize
  have hcast : ((2 : Int) ^ w) = ((2 ^ w : Nat) : Int) := by push_cast; rfl
  have hpos : 1 ≤ 2 ^ w := Nat.one_le_two_pow
  rw [hcast]
  generalize 2 ^ w = m at *
  have h1 : (-1 : Int) % (m : Int) = (m : Int) - 1 := by
    rw [← Int.add_emod_self, Int.emod_eq_of_lt] <;> omega
  rw [h1]
  omega

/-- C21: for a string `sdata` shorter than the largest `size_t` value, `FindNoCase` returns
the smallest position at which the lower-cased `skey` occurs in the lower-cased `sdata` when
there is one, and the all-ones value `2^w - 1` if and only if there is none; strings with the
same lower-cased characters give the same result. -/
theorem C21_FindNoCase_first_occurrence (tolower : THaString.Char8 → THaString.Char8) (w : Nat)
    (sdata skey : List THaString.Char8) (hlen : sdata.length < 2 ^ w - 1) :
    (∀ i, OccursAt (sdata.map tolower) (skey.map tolower) i →
      (∀ j, j < i → ¬ OccursAt (sdata.map tolower) (skey.map tolower) j) →
      FindNoCase tolower w sdata skey = i) ∧
    ((∃ i, OccursAt (sdata.map tolower) (skey.map tolower) i) →
      OccursAt (sdata.map tolower) (skey.map tolower) (FindNoCase tolower w sdata skey) ∧
      ∀ j, j < FindNoCase tolower w sdata skey →
        ¬ OccursAt (sdata.map tolower) (skey.map tolower) j) ∧
    (FindNoCase tolower w sdata skey = 2 ^ w - 1 ↔
      ∀ i, ¬ OccursAt (sdata.map tolower) (skey.map tolower) i) ∧
    (∀ sdata' skey' : List THaString.Char8, sdata'.map tolower = sdata.map tolower →
      skey'.map tolower = skey.map tolower →
      FindNoCase tolower w sdata' skey' = FindNoCase tolower w sdata skey) := by
  have hbound : ∀ i, OccursAt (sdata.map tolower) (skey.map tolower) i → i < 2 ^ w - 1 := by
    intro i hi
    have := ((occursAt_iff _ _ i).mp hi).1
    rw [List.length_map] at this
    omega
  have hsome : ∀ i, find (sdata.map tolower) (skey.map tolower) = some i →
      FindNoCase tolower w sdata skey = i := by
    intro i hi
    have hlt := hbound i ((find_eq_some _ _ i).mp hi).1
    unfold FindNoCase
    simp only [hi]
    exact toSize_small w i (by omega)
  have hnone : find (sdata.map tolower) (skey.map tolower) = none →
      FindNoCase tolower w sdata skey = 2 ^ w - 1 := by
    intro h
    unfold FindNoCase
    simp only [h]
    exact toSize_neg_one w
  refine ⟨?_, ?_, ?_, ?_⟩
  · intro i h1 h2
    exact hsome i ((find_eq_some _ _ i).mpr ⟨h1, h2⟩)
  · rintro ⟨i, hi⟩
    cases hf : find (sdata.map tolower) (skey.map tolower) with
    | none => exact absurd hi ((find_eq_none _ _).mp hf i)
    | some k =>
      rw [hsome k hf]
      exact (find_eq_some _ _ k).mp hf
  · constructor
    · intro h
      cases hf : find (sdata.map tolower) (skey.map tolower) with
      | none => exact (find_eq_none _ _).mp hf
      | some k =>
        have h1 := hsome k hf
        have h2 := hbound k ((find_eq_some _ _ k).mp hf).1
        omega
    · intro h
      exact hnone ((find_eq_none _ _).mpr h)
  · intro sdata' skey' h1 h2
    unfold FindNoCase
    simp only [h1, h2]

/-- Witness of C21: the key `aB` in the data `xAb`, with 64-bit `size_t`: position 1, also
after a change of case in both strings; and the key `c`, which does not occur. -/
theorem C21_witness :
    ([120, 65, 98] : List THaString.Char8).length < 2 ^ 64 - 1 ∧
    FindNoCase lowerC 64 [120, 65, 98] [97, 66] = 1 ∧
    FindNoCase lowerC 64 [88, 97, 66] [65, 98] = 1 ∧
    FindNoCase lowerC 64 [120, 65, 98] [99] = 2 ^ 64 - 1 ∧
    ((∀ i, OccursAt (([120, 65, 98] : List THaString.Char8).map lowerC)
        (([97, 66] : List THaString.Char8).map lowerC) i →
      (∀ j, j < i → ¬ OccursAt (([120, 65, 98] : List THaString.Char8).map lowerC)
        (([97, 66] : List THaString.Char8).map lowerC) j) →
      FindNoCase lowerC 64 [120, 65, 98] [97, 66] = i) ∧
    ((∃ i, OccursAt (([120, 65, 98] : List THaString.Char8).map lowerC)
        (([97, 66] : List THaString.Char8).map lowerC) i) →
      OccursAt (([120, 65, 98] : List THaString.Char8).map lowerC)
        (([97, 66] : List THaString.Char8).map lowerC)
        (FindNoCase lowerC 64 [120, 65, 98] [97, 66]) ∧
      ∀ j, j < FindNoCase lowerC 64 [120, 65, 98] [97, 66] →
        ¬ OccursAt (([120, 65, 98] : List THaString.Char8).map lowerC)
          (([97, 66] : List THaString.Char8).map lowerC) j) ∧
    (FindNoCase lowerC 64 [120, 65, 98] [97, 66] = 2 ^ 64 - 1 ↔
      ∀ i, ¬ OccursAt (([120, 65, 98] : List THaString.Char8).map lowerC)
        (([97, 66] : List THaString.Char8).map lowerC) i) ∧
    (∀ sdata' skey' : List THaString.Char8,
      sdata'.map lowerC = ([120, 65, 98] : List THaString.Char8).map lowerC →
      skey'.map lowerC = ([97, 66] : List THaString.Char8).map lowerC →
      FindNoCase lowerC 64 sdata' skey' = FindNoCase lowerC 64 [120, 65, 98] [97, 66])) :=
  ⟨by decide, by decide, by decide, by decide,
    C21_FindNoCase_first_occurrence lowerC 64 [120, 65, 98] [97, 66] (by decide)⟩

/-- C26: for a buffer of `MAXTEVT` words and every reported event length, the copy loop of
`Analyze` returns without a store outside the buffer: the count `ndata` it uses is the length
capped to `MAXTEVT - 1`, the words copied are those of the indices `i` with `0 <= i < ndata`,
all below `MAXTEVT`, the other words of the buffer stay, and the end pointer `pstop` is
`ndata` words from the start, so at most `MAXTEVT - 1`; for a negative length nothing is
copied. -/
theorem C26_copy_within_buffer (rdata : List Nat) (evLength : Int) (raw : Int → Nat)
    (hbuf : rdata.length = MAXTEVT) :
    ∃ r, Analyze rdata evLength raw = some r ∧
      r.ndata = (if evLength ≥ 5000 then 4999 else evLength) ∧
      r.ndata.toNat ≤ MAXTEVT - 1 ∧ r.rdata.length = MAXTEVT ∧
      (∀ i : Nat, (i : Int) < r.ndata → i < MAXTEVT ∧ r.rdata[i]? = some (raw (i : Int))) ∧
      (∀ i : Nat, r.ndata ≤ (i : Int) → r.rdata[i]? = rdata[i]?) ∧
      r.pstop = r.ndata ∧ r.pstop ≤ (MAXTEVT : Int) - 1 ∧ r.p = 0 ∧
      (evLength < 0 → r.rdata = rdata) := by
  have hnd : ∀ n : Int, n = (if evLength ≥ (MAXTEVT : Int) then (MAXTEVT : Int) - 1
      else evLength) → n ≤ 4999 ∧ n = (if evLength ≥ 5000 then 4999 else evLength) := by
    intro n hn
    unfold MAXTEVT at hn
    split at hn <;> rename_i h <;> simp only [Nat.cast_ofNat] at h hn
    · rw [if_pos h]; omega
    · rw [if_neg h]; omega
  unfold Analyze
  generalize hN : (if evLength ≥ (MAXTEVT : Int) then (MAXTEVT : Int) - 1 else evLength) = n
  obtain ⟨hle, hval⟩ := hnd n hN.symm
  have hidx : ∀ i ∈ List.range n.toNat, (fun (j : Nat) => j) i < rdata.length := by
    intro i hi
    rw [List.mem_range] at hi
    show i < rdata.length
    rw [hbuf]
    unfold MAXTEVT
    omega
  obtain ⟨rd, hrd⟩ := THaShower.storeLoop_isSome (fun (j : Nat) => j)
    (fun (j : Nat) => raw (j : Int)) (List.range n.toNat) rdata hidx
  obtain ⟨h1, _, h3, h4⟩ := THaShower.storeLoop_spec (fun (j : Nat) => j)
    (fun (j : Nat) => raw (j : Int)) (List.range n.toNat) rdata rd hrd
  simp only [hrd]
  refine ⟨_, rfl, hval, ?_, by rw [h1]; exact hbuf, ?_, ?_, rfl, ?_, rfl, ?_⟩
  · show n.toNat ≤ MAXTEVT - 1
    unfold MAXTEVT
    omega
  · intro i hi
    have hi' : i < n.toNat := by
      have : (i : Int) < n := hi
      omega
    refine ⟨by unfold MAXTEVT; omega, ?_⟩
    exact h4 (fun p _ q _ hpq => by rw [show p = q from hpq]) i (List.mem_range.mpr hi')
  · intro i hi
    have hi' : (n : Int) ≤ (i : Int) := hi
    exact h3 i (fun p hp => by
      rw [List.mem_range] at hp
      show p ≠ i
      omega)
  · show n ≤ (MAXTEVT : Int) - 1
    unfold MAXTEVT
    push_cast
    omega
  · intro hneg
    have hn0 : n.toNat = 0 := by
      rw [hval, if_neg (by omega)]
      omega
    rw [hn0] at hrd
    simp only [List.range_zero, THaShower.forLoop, Option.some.injEq] at hrd
    exact hrd.symm

/-- Witness of C26: a zeroed buffer, the reported length 7000 and the words `raw i = i + 1`. -/
theorem C26_witness :
    (List.replicate 5000 0).length = MAXTEVT ∧
    ∃ r, Analyze (List.replicate 5000 0) 7000 (fun i => i.toNat + 1) = some r ∧
      r.ndata = (if (7000 : Int) ≥ 5000 then 4999 else 7000) ∧
      r.ndata.toNat ≤ MAXTEVT - 1 ∧ r.rdata.length = MAXTEVT ∧
      (∀ i : Nat, (i : Int) < r.ndata → i < MAXTEVT ∧
        r.rdata[i]? = some ((fun (j : Int) => j.toNat + 1) (i : Int))) ∧
      (∀ i : Nat, r.ndata ≤ (i : Int) → r.rdata[i]? = (List.replicate 5000 0)[i]?) ∧
      r.pstop = r.ndata ∧ r.pstop ≤ (MAXTEVT : Int) - 1 ∧ r.p = 0 ∧
      ((7000 : Int) < 0 → r.rdata = List.replicate 5000 0) :=
  ⟨List.length_replicate _ _,
    C26_copy_within_buffer (List.replicate 5000 0) 7000 (fun i => i.toNat + 1)
      (List.length_replicate _ _)⟩

end THaScalerEvtHandler
